import Mathlib

/-!
# json.cxx: a shallow embedding of the UTF-8 stream adapter and of the
recursive-descent JSON parser

Conventions of the embedding.

* The types `code_point` (uint32_t) and `octet` (uint8_t) are both `Nat`.  Every
  arithmetic expression of the source stays below 2^32 (the largest one is
  `((c & 0x7fff) << 6) + 0x3f = 0x1fffff`), so no wrap-around is needed;
  where a code point is narrowed to a `char` (`s += c`) the `% 256` is explicit.
* A `std::string` is the list of its bytes.
* The reference-counted handle `utf8_stream` is passed by value and shares its
  `impl`; the embedding threads the `impl` state through every call.  Only
  handles built by the explicit constructor (non-null `p`) are modelled.
* C++ exceptions are the `Except` monad over `exn`; the two places where the
  behaviour of the source is undefined are outcomes of `exn` as well.
* Loops that run until the input ends take a fuel argument; the entry points
  compute a fuel from the number of bytes still unread.
-/

namespace json

/-- Sentinel `EOF_point`: not in Unicode range. -/
def EOF_point : Nat := 0x200000
/-- Sentinel `NO_point`: the lookahead slot is empty. -/
def NO_point : Nat := 0x200001

/-- Line terminator test of the source: only LF. -/
def islineend (c : Nat) : Bool := c == 10

/-! ## The byte source `S`

The template parameter `S` is instantiated in `main` with `std::stringstream`.
Its three members used by the adapter follow the C++ standard library:
`get()` returns the next byte, or `Traits::eof()` (the int `-1`) when no byte is
left, and only then sets `eofbit` and `failbit`; `good()` is true while no state
bit is set; `eof()` reads `eofbit`.  The two bits are set together by `get()`,
so one flag records them.

A consequence for `getcp`: after the last byte has been read the source is
still good, so the next call of `getcp` does not return `EOF_point`; it decodes
the failed `get()` (`-1`, as an octet 0xFF, followed by three more failed reads)
to 0x1FFFFF.  Only the calls after that one return `EOF_point`. -/

structure istream where
  bytes : List Nat
  failed : Bool
deriving DecidableEq, Repr

/-- The test `!s.good() || s.eof()`. -/
def istream.not_good_or_eof (s : istream) : Bool := s.failed

/-- Member `get()` of the byte source: the int result and the source after it. -/
def istream.get (s : istream) : Int × istream :=
  if s.failed then (-1, s)
  else match s.bytes with
    | [] => (-1, { s with failed := true })
    | b :: rest => ((b : Int), { s with bytes := rest })

/-- Conversion of the int returned by `get()` to its low eight bits
(`octet o = s.get()`; the same bits feed `s.get() & 0x3f`). -/
def low8 (x : Int) : Nat := (x % 256).toNat

/-- Method `impl::getcp`. -/
def getcp (s : istream) : Nat × istream :=
  if s.not_good_or_eof then (EOF_point, s)
  else
    let r0 := s.get
    let o : Nat := low8 r0.1
    let c : Nat := o
    if o > 0x7f then
      let r1 : Nat × istream :=
        if o > 0xbf then
          (((c &&& 0x1f) <<< 6) + (low8 r0.2.get.1 &&& 0x3f), r0.2.get.2)
        else (c, r0.2)
      let r2 : Nat × istream :=
        if o > 0xdf then
          (((r1.1 &&& 0x3ff) <<< 6) + (low8 r1.2.get.1 &&& 0x3f), r1.2.get.2)
        else r1
      let r3 : Nat × istream :=
        if o > 0xef then
          (((r2.1 &&& 0x7fff) <<< 6) + (low8 r2.2.get.1 &&& 0x3f), r2.2.get.2)
        else r2
      r3
    else (c, r0.2)

/-! ## The adapter `utf8_stream` -/

/-- State `utf8_stream::impl` (the reference count is left out). -/
structure utf8_stream where
  s : istream
  line : Nat
  col : Nat
  c : Nat
  pc : Nat
  new_line : Bool
deriving DecidableEq, Repr

/-- Constructor `impl( S &si )`: reads the first code point. -/
def utf8_stream.open (si : istream) : utf8_stream :=
  let r := getcp si
  { s := r.2, line := 0, col := 0, c := r.1, pc := NO_point, new_line := islineend r.1 }

/-- Method `next()`: the stream after the call; the returned value is its `c`. -/
def utf8_stream.next (p : utf8_stream) : utf8_stream :=
  let was_return : Bool := p.c == 13
  let r : Nat × Nat × istream :=
    if p.pc ≠ NO_point then (p.pc, NO_point, p.s)
    else ((getcp p.s).1, p.pc, (getcp p.s).2)
  let c := r.1
  let col := p.col + 1
  let brk : Bool := p.new_line || (was_return && c != 10)
  { s := r.2.2
    line := if brk then p.line + 1 else p.line
    col := if brk then 0 else col
    c := c
    pc := r.2.1
    new_line := islineend c }

/-- Method `get()`. -/
def utf8_stream.get (p : utf8_stream) : Nat := p.c

/-- Method `peek()`: the stream after the call; the returned value is its `pc`. -/
def utf8_stream.peek (p : utf8_stream) : utf8_stream :=
  if p.pc ≤ EOF_point then p
  else { p with pc := (getcp p.s).1, s := (getcp p.s).2 }

/-- Whitespace test of `skipspace` and of the dispatcher. -/
def isspace4 (c : Nat) : Bool := c == 10 || c == 32 || c == 9 || c == 13

/-- Loop of `skipspace()`: `while( c is whitespace ) c = next();`. -/
def skipspace_loop : Nat → utf8_stream → utf8_stream
  | 0, p => p
  | fuel + 1, p => if isspace4 p.c then skipspace_loop fuel p.next else p

/-- Method `skipspace()`; the returned value is the `c` of the result.  One
`next()` either empties the lookahead slot, or consumes a byte, or yields a
code point above 0x7f that ends the loop, hence the fuel. -/
def utf8_stream.skipspace (p : utf8_stream) : utf8_stream :=
  skipspace_loop (p.s.bytes.length + 3) p

/-- Method `nextskipspace()`. -/
def utf8_stream.nextskipspace (p : utf8_stream) : utf8_stream := p.next.skipspace

/-! ## Errors -/

/-- The messages handed to `JSON_error_throw`. -/
inductive msg where
  /-- Message "JSON parser: expected hex digit at $:$". -/
  | expected_hex_digit
  /-- Message "JSON parser: illegal escape $ at $:$"; the statement that throws
  it has undefined behaviour, see `string_loop`. -/
  | illegal_escape
  /-- Message "JSON parser: Unterminated string starting at $:$". -/
  | unterminated_string
  /-- Message "JSON parser: expected string at $:$". -/
  | expected_string
  /-- Message "JSON parser: expected ':' at $:$". -/
  | expected_colon
  /-- Message "JSON parser: expected ',' or '}' at $:$". -/
  | expected_comma_or_brace
  /-- Message "JSON parser: unterminated object at $:$". -/
  | unterminated_object
  /-- Message "JSON parser: unexpected character in boolean $ at $:$". -/
  | bad_boolean
  /-- Message "JSON parser: unexpected character in null $ at $:$". -/
  | bad_null
  /-- Message "JSON parser: expected digit after minus at $:$". -/
  | digit_after_minus
  /-- Message "JSON parser: expected digit after dot at $:$". -/
  | digit_after_dot
  /-- Message "JSON parser: expected at least one digit in exponent at $:$". -/
  | digit_in_exponent
  /-- Message "JSON parser: expected ',' or ']' at $:$". -/
  | expected_comma_or_bracket
  /-- Message "JSON parser: unterminated array at $:$". -/
  | unterminated_array
  /-- Message "JSON parser: unexpected code_point $$ at $$:$" (the arguments
  are `std::hex`, the code point, `std::dec`, the line and the column). -/
  | unexpected_code_point
deriving DecidableEq, Repr

/-- What a call can throw, and the ways a call can end without a value. -/
inductive exn where
  /-- `JSON_parse_error`: the message, the code point substituted into it (if
  the message has one) and the substituted line and column. -/
  | JSON_parse_error (m : msg) (c : Option Nat) (line col : Nat)
  /-- `std::runtime_error("Code point outside Unicode")` of `addu8`. -/
  | runtime_error
  /-- Control flows off the end of `value::parse` (its `return value()` is
  commented out): no value is returned, and the behaviour of the source is
  undefined from there on. -/
  | no_return
  /-- The source uses a `std::string` after its lifetime has ended: the
  behaviour of the program is undefined (no exception is known to be thrown, no
  value to be returned). -/
  | undefined_behaviour
  /-- `std::bad_cast` of `value::take`. -/
  | bad_cast
  /-- The fuel of the embedding ran out (no counterpart in the source). -/
  | out_of_fuel
deriving DecidableEq, Repr

/-! ## Utility functions -/

/-- Function `addu8`: append the code point to the string as UTF-8. -/
def addu8 (s : List Nat) (c : Nat) : Except exn (List Nat) :=
  if c > 0x10ffff ∨ (c ≥ 0xd800 ∧ c ≤ 0xdff) then .error .runtime_error
  else if c < 0x80 then .ok (s ++ [c])
  else if c ≤ 0x7ff then
    .ok (s ++ [((c &&& 0x7c0) >>> 6) ||| 0xc0, (c &&& 0x3f) ||| 0x80])
  else if c ≤ 0xffff then
    .ok (s ++ [((c &&& 0xf000) >>> 12) ||| 0xe0, ((c &&& 0xfc0) >>> 6) ||| 0x80,
               (c &&& 0x3f) ||| 0x80])
  else
    .ok (s ++ [((c &&& 0x1c0000) >>> 18) ||| 0xf0, ((c &&& 0x3f000) >>> 12) ||| 0x80,
               ((c &&& 0xfc0) >>> 6) ||| 0x80, (c &&& 0x3f) ||| 0x80])

/-- Function `u8str`: `std::string s; addu8( s, c ); return std::move( s );`
with the return type `std::string&&`.  The call throws what `addu8` throws;
otherwise it returns a reference to its local `s`, which is destroyed when the
function returns, so no string comes back to the caller. -/
def u8str (c : Nat) : Except exn Unit :=
  match addu8 [] c with
  | .error e => .error e
  | .ok _ => .ok ()

/-- Test `std::isdigit` on a code point below 0x80. -/
def isdigit (c : Nat) : Bool := decide (48 ≤ c ∧ c ≤ 57)

/-- Test `std::isxdigit` on a code point below 0x80. -/
def isxdigit (c : Nat) : Bool :=
  isdigit c || decide (65 ≤ c ∧ c ≤ 70) || decide (97 ≤ c ∧ c ≤ 102)

/-- Function `gethex`: `for( c = i.get(); n > 0; --n, c = i.next() )`.  The
increment `c = i.next()` also runs after the last digit. -/
def gethex : Nat → Nat → utf8_stream → Except exn (Nat × utf8_stream)
  | 0, v, i => .ok (v, i)
  | n + 1, v, i =>
    let c := i.get
    if c < 0x80 ∧ isxdigit c then
      let v1 : Nat :=
        (if isdigit c then v * 16 + c - 48
         else if c < 71 then v * 16 + 10 + c - 65
         else v * 16 + 10 + c - 97) % 2 ^ 32
      gethex n v1 i.next
    else .error (.JSON_parse_error .expected_hex_digit none i.line i.col)

/-! ## The value model -/

/-- Class `number`: the union of a `long` and a `double` with its tag `isl`.
Floating-point arithmetic is outside the embedding: a double is carried as the
literal handed to `std::strtod`. -/
inductive number where
  | l (v : Int)
  | d (lit : List Nat)
deriving DecidableEq, Repr

/-- Method `number::isdouble`: `!isl`. -/
def number.isdouble : number → Bool
  | .l _ => false
  | .d _ => true

/-- Class `value` holding one of the six concrete kinds.  An `object` is its
`std::map`, listed in key order.  The empty container (`p == nullptr`) is left
out: no parser returns it. -/
inductive value where
  | object (m : List (List Nat × value))
  | string (s : List Nat)
  | number (n : json.number)
  | array (v : List value)
  | boolean (b : Bool)
  | null

/-- Comparison `std::less<std::string>`: lexicographic on the bytes. -/
def string_lt : List Nat → List Nat → Bool
  | [], [] => false
  | [], _ :: _ => true
  | _ :: _, [] => false
  | a :: s, b :: t => decide (a < b) || (a == b && string_lt s t)

/-- Statement `m[k] = v` on a `std::map<std::string, value>`. -/
def map_assign (m : List (List Nat × value)) (k : List Nat) (v : value) :
    List (List Nat × value) :=
  match m with
  | [] => [(k, v)]
  | e :: t =>
    if string_lt k e.1 then (k, v) :: e :: t
    else if string_lt e.1 k then e :: map_assign t k v
    else (k, v) :: t

/-- Limits of `long` (LP64). -/
def LONG_MAX : Int := 2 ^ 63 - 1
def LONG_MIN : Int := -(2 ^ 63)

/-- Test `isspace` of the C locale. -/
def c_isspace (c : Nat) : Bool := c == 32 || decide (9 ≤ c ∧ c ≤ 13)

/-- Value of a run of decimal digits. -/
def digits_value (ds : List Nat) : Nat := ds.foldl (fun a d => a * 10 + (d - 48)) 0

/-- Library function `std::strtol( s, nullptr, 10 )` after the C standard:
leading white space, an optional sign, the longest run of digits; a value out
of range is clamped to `LONG_MIN` or `LONG_MAX`. -/
def strtol (s : List Nat) : Int :=
  let t := s.dropWhile c_isspace
  let u := if t.head? = some 45 ∨ t.head? = some 43 then t.tail else t
  let n : Int := (digits_value (u.takeWhile isdigit) : Int)
  let v : Int := if t.head? = some 45 then -n else n
  if v < LONG_MIN then LONG_MIN else if LONG_MAX < v then LONG_MAX else v

/-! ## The parsers

All parsers except `value::parse` are entered with `i.get()` on a legal first
character and return with `i.get()` on the last character. -/

/-- Loop of `string::parse`, entered after `c = i.next()` and after every
increment `c = i.next()`; `c` is the current code point of `i`. -/
def string_loop : Nat → List Nat → utf8_stream → Except exn (List Nat × utf8_stream)
  | 0, _, _ => .error .out_of_fuel
  | fuel + 1, s, i =>
    let c := i.c
    if c ≠ 0x22 ∧ c ≠ EOF_point ∧ c ≥ 0x1f then
      if c = 0x5c then
        let i1 := i.next
        let c1 := i1.c
        if c1 = 0x22 ∨ c1 = 0x5c ∨ c1 = 0x2f then string_loop fuel (s ++ [c1 % 256]) i1.next
        else if c1 = 0x62 then string_loop fuel (s ++ [8]) i1.next
        else if c1 = 0x66 then string_loop fuel (s ++ [12]) i1.next
        else if c1 = 0x6e then string_loop fuel (s ++ [10]) i1.next
        else if c1 = 0x72 then string_loop fuel (s ++ [13]) i1.next
        else if c1 = 0x74 then string_loop fuel (s ++ [9]) i1.next
        else if c1 = 0x75 then
          match gethex 4 0 i1.next with
          | .error e => .error e
          | .ok (v, i2) =>
            match addu8 s v with
            | .error e => .error e
            | .ok s1 => string_loop fuel s1 i2.next
        else if c1 = 0x55 then
          match gethex 6 0 i1.next with
          | .error e => .error e
          | .ok (v, i2) =>
            match addu8 s v with
            | .error e => .error e
            | .ok s1 => string_loop fuel s1 i2.next
        else
          -- JSON_error_throw( "... illegal escape $ at $:$", u8str( c ), ... ) reads the
          -- string that `u8str` left destroyed
          match u8str c1 with
          | .error e => .error e
          | .ok _ => .error .undefined_behaviour
      else
        match addu8 s c with
        | .error e => .error e
        | .ok s1 => string_loop fuel s1 i.next
    else .ok (s, i)

/-- Function `string::parse`.  Every turn of the loop consumes a byte or meets
the end of the input, hence the fuel. -/
def string.parse (i : utf8_stream) : Except exn (value × utf8_stream) :=
  let start_line := i.line
  let start_col := i.col
  match string_loop (i.s.bytes.length + 3) [] i.next with
  | .error e => .error e
  | .ok (s, i1) =>
    if i1.c ≠ 0x22 then
      .error (.JSON_parse_error .unterminated_string none start_line start_col)
    else .ok (value.string s, i1)

/-- Function `boolean::parse`. -/
def boolean.parse (i : utf8_stream) : Except exn (value × utf8_stream) :=
  if i.get = 0x74 then
    let i1 := i.next
    if i1.c = 0x72 then
      let i2 := i1.next
      if i2.c = 0x75 then
        let i3 := i2.next
        if i3.c = 0x65 then .ok (value.boolean true, i3)
        else .error (.JSON_parse_error .bad_boolean (some i3.c) i3.line i3.col)
      else .error (.JSON_parse_error .bad_boolean (some i2.c) i2.line i2.col)
    else .error (.JSON_parse_error .bad_boolean (some i1.c) i1.line i1.col)
  else if i.get = 0x66 then
    let i1 := i.next
    if i1.c = 0x61 then
      let i2 := i1.next
      if i2.c = 0x6c then
        let i3 := i2.next
        if i3.c = 0x73 then
          let i4 := i3.next
          if i4.c = 0x65 then .ok (value.boolean false, i4)
          else .error (.JSON_parse_error .bad_boolean (some i4.c) i4.line i4.col)
        else .error (.JSON_parse_error .bad_boolean (some i3.c) i3.line i3.col)
      else .error (.JSON_parse_error .bad_boolean (some i2.c) i2.line i2.col)
    else .error (.JSON_parse_error .bad_boolean (some i1.c) i1.line i1.col)
  else .ok (value.boolean false, i)

/-- Function `null::parse`. -/
def null.parse (i : utf8_stream) : Except exn (value × utf8_stream) :=
  let i1 := i.next
  if i1.c ≠ 0x75 then .error (.JSON_parse_error .bad_null (some i1.c) i1.line i1.col)
  else
    let i2 := i1.next
    if i2.c ≠ 0x6c then .error (.JSON_parse_error .bad_null (some i2.c) i2.line i2.col)
    else
      let i3 := i2.next
      if i3.c ≠ 0x6c then .error (.JSON_parse_error .bad_null (some i3.c) i3.line i3.col)
      else .ok (value.null, i3)

/-- Loop `while( ( c = i.peek() ) < 0x7f && std::isdigit( c ) )s += i.next();`
of `number::parse`; on exit `c` is the `pc` of the stream returned. -/
def digits_loop : Nat → List Nat → utf8_stream → Except exn (List Nat × utf8_stream)
  | 0, _, _ => .error .out_of_fuel
  | fuel + 1, s, i =>
    let i1 := i.peek
    let c := i1.pc
    if c < 0x7f ∧ isdigit c then digits_loop fuel (s ++ [i1.next.c % 256]) i1.next
    else .ok (s, i1)

/-- Loop `while( c < 0x7f && std::isdigit( c ) ){ s += i.next(); c = i.peek(); }`
of the exponent, entered with `c` the `pc` of the stream. -/
def exponent_loop : Nat → List Nat → utf8_stream → Except exn (List Nat × utf8_stream)
  | 0, _, _ => .error .out_of_fuel
  | fuel + 1, s, i =>
    let c := i.pc
    if c < 0x7f ∧ isdigit c then exponent_loop fuel (s ++ [i.next.c % 256]) i.next.peek
    else .ok (s, i)

/-- Function `number::parse` from the statement `s += c;` on, that is after the
optional minus sign: `s` holds the sign read so far and `i.get()` is `c`. -/
def number_parse_digits (fuel : Nat) (s0 : List Nat) (i1 : utf8_stream) :
    Except exn (value × utf8_stream) :=
  -- s += c; if( c != '0' ){ while ... } else c = i.peek();
  let s1 := s0 ++ [i1.c % 256]
  let r1 : Except exn (List Nat × utf8_stream) :=
    if i1.c ≠ 0x30 then digits_loop fuel s1 i1 else .ok (s1, i1.peek)
  match r1 with
  | .error e => .error e
  | .ok (s2, i2) =>
    if i2.pc = 0x2e then
      -- s += c; c = i.next(); if( ( c = i.peek() ) > 0x7f || !isdigit( c ) ) throw
      let s3 := s2 ++ [0x2e]
      let i3 := i2.next.peek
      if i3.pc > 0x7f ∨ ¬ isdigit i3.pc then
        .error (.JSON_parse_error .digit_after_dot none i3.line i3.col)
      else
        match digits_loop fuel s3 i3 with
        | .error e => .error e
        | .ok (s4, i4) =>
          if i4.pc = 0x65 ∨ i4.pc = 0x45 then
            -- s += i.next(); c = i.peek();
            let s5 := s4 ++ [i4.next.c % 256]
            let i5 := i4.next.peek
            -- if( c == '+' || c == '-' ){ s += i.next(); c = i.peek(); }
            let s6 := if i5.pc = 0x2b ∨ i5.pc = 0x2d then s5 ++ [i5.next.c % 256] else s5
            let i6 := if i5.pc = 0x2b ∨ i5.pc = 0x2d then i5.next.peek else i5
            if i6.pc > 0x7f ∨ ¬ isdigit i6.pc then
              .error (.JSON_parse_error .digit_in_exponent none i6.line i6.col)
            else
              match exponent_loop fuel s6 i6 with
              | .error e => .error e
              | .ok (s7, i7) => .ok (value.number (.d s7), i7)
          else .ok (value.number (.d s4), i4)
    else .ok (value.number (.l (strtol s2)), i2)

/-- Function `number::parse`: the optional minus sign, then the digits.  Every
turn of its loops consumes a byte, hence the fuel. -/
def number.parse (i : utf8_stream) : Except exn (value × utf8_stream) :=
  let fuel := i.s.bytes.length + 3
  -- if( c == '-' ){ s += c; c = i.next(); if( c > 0x7f || ! isdigit( c ) ) throw }
  if i.get = 0x2d then
    let i1 := i.next
    if i1.c > 0x7f ∨ ¬ isdigit i1.c then
      .error (.JSON_parse_error .digit_after_minus none i1.line i1.col)
    else number_parse_digits fuel [0x2d] i1
  else number_parse_digits fuel [] i

mutual
/-- Loop of `value::parse`, entered after `c = i.skipspace()` and after every
increment `c = i.nextskipspace()`. -/
def value_loop : Nat → utf8_stream → Except exn (value × utf8_stream)
  | 0, _ => .error .out_of_fuel
  | fuel + 1, i =>
    let c := i.c
    if c = EOF_point then .error .no_return
    else if c = 0x5b then array_loop fuel [] i.next.skipspace
    else if c = 0x7b then object_loop fuel [] i.next.skipspace
    else if c = 0x22 then string.parse i
    else if c = 0x74 then boolean.parse i
    else if c = 0x66 then boolean.parse i
    else if c = 0x6e then null.parse i
    else if c = 0x2d ∨ (0x30 ≤ c ∧ c ≤ 0x39) then number.parse i
    else if c = 0x20 ∨ c = 0x09 ∨ c = 0x0a ∨ c = 0x0d then value_loop fuel i.nextskipspace
    else .error (.JSON_parse_error .unexpected_code_point (some c) i.line i.col)
/-- Loop of `array::parse`, entered after `c = i.next(); c = i.skipspace()`. -/
def array_loop : Nat → List value → utf8_stream → Except exn (value × utf8_stream)
  | 0, _, _ => .error .out_of_fuel
  | fuel + 1, a, i =>
    if i.c ≠ 0x5d ∧ i.c ≠ EOF_point then
      match value_loop fuel i.skipspace with
      | .error e => .error e
      | .ok (v, i1) =>
        let i2 := i1.nextskipspace
        if i2.c ≠ 0x2c ∧ i2.c ≠ 0x5d then
          .error (.JSON_parse_error .expected_comma_or_bracket none i2.line i2.col)
        else array_loop fuel (a ++ [v]) (if i2.c = 0x2c then i2.nextskipspace else i2)
    else if i.c ≠ 0x5d then
      .error (.JSON_parse_error .unterminated_array none i.line i.col)
    else .ok (value.array a, i)
/-- Loop of `object::parse`, entered after `c = i.next(); c = i.skipspace()`. -/
def object_loop : Nat → List (List Nat × value) → utf8_stream →
    Except exn (value × utf8_stream)
  | 0, _, _ => .error .out_of_fuel
  | fuel + 1, o, i =>
    if i.c ≠ 0x7d ∧ i.c ≠ EOF_point then
      if i.c ≠ 0x22 then .error (.JSON_parse_error .expected_string none i.line i.col)
      else
        match string.parse i with
        | .error e => .error e
        | .ok (k, i1) =>
          let i2 := i1.nextskipspace
          if i2.c ≠ 0x3a then .error (.JSON_parse_error .expected_colon none i2.line i2.col)
          else
            match value_loop fuel i2.next.skipspace with
            | .error e => .error e
            | .ok (v, i3) =>
              match k with
              | value.string ks =>
                let i4 := i3.nextskipspace
                if i4.c ≠ 0x2c ∧ i4.c ≠ 0x7d then
                  .error (.JSON_parse_error .expected_comma_or_brace none i4.line i4.col)
                else
                  object_loop fuel (map_assign o ks v)
                    (if i4.c = 0x2c then i4.nextskipspace else i4)
              | _ => .error .bad_cast
    else if i.c ≠ 0x7d then
      .error (.JSON_parse_error .unterminated_object none i.line i.col)
    else .ok (value.object o, i)
end

/-- Fuel of the dispatcher: every turn of a loop and every nested call
consumes a code point. -/
def parse_fuel (i : utf8_stream) : Nat := 2 * i.s.bytes.length + 8

/-- Function `value::parse`. -/
def value.parse (i : utf8_stream) : Except exn (value × utf8_stream) :=
  value_loop (parse_fuel i) i.skipspace

/-- Function `array::parse`. -/
def array.parse (i : utf8_stream) : Except exn (value × utf8_stream) :=
  array_loop (parse_fuel i) [] i.next.skipspace

/-- Function `object::parse`. -/
def object.parse (i : utf8_stream) : Except exn (value × utf8_stream) :=
  object_loop (parse_fuel i) [] i.next.skipspace

/-! ## Reference notions used by the statements -/

/-- UTF-8 encoding of a code point (RFC 3629), in arithmetic form. -/
def utf8 (c : Nat) : List Nat :=
  if c < 0x80 then [c]
  else if c < 0x800 then [0xc0 + c / 64, 0x80 + c % 64]
  else if c < 0x10000 then [0xe0 + c / 4096, 0x80 + c / 64 % 64, 0x80 + c % 64]
  else [0xf0 + c / 262144, 0x80 + c / 4096 % 64, 0x80 + c / 64 % 64, 0x80 + c % 64]

/-- One element of the body of a string literal: an ordinary code point, or a
backslash followed by the code point `c`. -/
inductive item where
  | cp (c : Nat)
  | esc (c : Nat)
deriving DecidableEq, Repr

/-- Bytes of an element in the input text. -/
def item.text : item → List Nat
  | .cp c => utf8 c
  | .esc c => [0x5c, c]

/-- Number of code points of an element in the input text. -/
def item.count : item → Nat
  | .cp _ => 1
  | .esc _ => 2

/-- The documented mapping of the two-character escapes: quote, backslash and
slash stand for themselves, `b f n r t` for U+0008, U+000C, U+000A, U+000D and
U+0009. -/
def unescape (c : Nat) : Nat :=
  if c = 0x62 then 0x08
  else if c = 0x66 then 0x0c
  else if c = 0x6e then 0x0a
  else if c = 0x72 then 0x0d
  else if c = 0x74 then 0x09
  else c

/-- Bytes an element stands for in the decoded string. -/
def item.decoded : item → List Nat
  | .cp c => utf8 c
  | .esc c => [unescape c]

/-- An ordinary code point is at least 0x20 and neither the quote nor the
backslash; an escape is one of the eight two-character escapes. -/
def item.wf : item → Prop
  | .cp c => 0x20 ≤ c ∧ c ≤ 0x10ffff ∧ c ≠ 0x22 ∧ c ≠ 0x5c
  | .esc c => c = 0x22 ∨ c = 0x5c ∨ c = 0x2f ∨ c = 0x62 ∨ c = 0x66 ∨ c = 0x6e ∨ c = 0x72 ∨ c = 0x74

/-- Bytes of the body of a string literal. -/
def body_text (body : List item) : List Nat := body.flatMap item.text

/-- Bytes of the string a body stands for. -/
def body_decoded (body : List item) : List Nat := body.flatMap item.decoded

/-- Number of code points of a body. -/
def body_count (body : List item) : Nat := (body.map item.count).sum

/-- The stream stands on the first code point of `text` and nothing is
buffered: its current code point and its byte source are what decoding one
code point of `text` leaves. -/
def On (i : utf8_stream) (text : List Nat) : Prop :=
  i.pc = NO_point ∧ (i.c, i.s) = getcp ⟨text, false⟩

/-- The unread input of the stream is `rest`: either nothing is buffered and
the byte source holds `rest`, or the first code point of `rest` sits in the
lookahead slot. -/
def Ahead (i : utf8_stream) (rest : List Nat) : Prop :=
  (i.pc = NO_point ∧ i.s = ⟨rest, false⟩) ∨ (i.pc, i.s) = getcp ⟨rest, false⟩

/-- Text of an integer literal `-?digits`; `ds` are the digit values, most
significant first. -/
def int_text (neg : Bool) (ds : List Nat) : List Nat :=
  (if neg then [0x2d] else []) ++ ds.map (· + 48)

/-- Decimal value of an integer literal. -/
def int_value (neg : Bool) (ds : List Nat) : Int :=
  let n : Nat := Nat.ofDigits 10 ds.reverse
  if neg then -(n : Int) else (n : Int)

/-- Switch of `operator<<( std::ostream&, const string& )` on one byte. -/
def escape_byte (b : Nat) : List Nat :=
  if b = 0x0a then [0x5c, 0x6e]
  else if b = 0x08 then [0x5c, 0x62]
  else if b = 0x0d then [0x5c, 0x72]
  else if b = 0x0c then [0x5c, 0x66]
  else if b = 0x09 then [0x5c, 0x74]
  else if b = 0x5c then [0x5c, 0x5c]
  else if b = 0x22 then [0x5c, 0x22]
  else if b = 0x2f then [0x5c, 0x2f]
  else [b]

/-- Operator `<<` for `string`. -/
def render_string (s : List Nat) : List Nat := 0x22 :: (s.flatMap escape_byte ++ [0x22])

/-- Decimal digits of a natural number, most significant first. -/
def dec_digits : Nat → Nat → List Nat
  | 0, _ => []
  | fuel + 1, n => if n < 10 then [n] else dec_digits fuel (n / 10) ++ [n % 10]

/-- Library operator `<<` for `long` (default formatting): an optional minus
sign and the decimal digits. -/
def put_long (v : Int) : List Nat :=
  int_text (decide (v < 0)) (dec_digits (v.natAbs + 1) v.natAbs)

mutual
/-- Operator `<<` for `value`, for `array` (with its flag `first`) and for
`object`.  The text written for a double is the parameter `fmt`: floating-point
formatting is outside the embedding. -/
def render (fmt : List Nat → List Nat) : value → List Nat
  | .object m => [0x7b, 0x20] ++ render_members fmt true m ++ [0x20, 0x7d]
  | .string s => render_string s
  | .number (.l v) => put_long v
  | .number (.d lit) => fmt lit
  | .array v => [0x5b, 0x20] ++ render_elems fmt true v ++ [0x20, 0x5d]
  | .boolean b => if b then [0x74, 0x72, 0x75, 0x65] else [0x66, 0x61, 0x6c, 0x73, 0x65]
  | .null => [0x6e, 0x75, 0x6c, 0x6c]
def render_elems (fmt : List Nat → List Nat) : Bool → List value → List Nat
  | _, [] => []
  | first, v :: vs =>
    (if first then [] else [0x2c, 0x20]) ++ render fmt v ++ render_elems fmt false vs
def render_members (fmt : List Nat → List Nat) : Bool → List (List Nat × value) → List Nat
  | _, [] => []
  | first, (k, v) :: ms =>
    (if first then [] else [0x2c, 0x20]) ++ [0x22] ++ k ++ [0x22, 0x20, 0x3a, 0x20]
      ++ render fmt v ++ render_members fmt false ms
end

/-- Code points of a string that the renderer writes in a form the parser
reads back: at least 0x20, or one of the five escaped control characters. -/
def string_cp_ok (c : Nat) : Prop :=
  c ≤ 0x10ffff ∧ (0x20 ≤ c ∨ c = 0x08 ∨ c = 0x09 ∨ c = 0x0a ∨ c = 0x0c ∨ c = 0x0d)

/-- Code points of an object key that is written raw and read back: at least
0x20, neither the quote nor the backslash. -/
def key_cp_ok (c : Nat) : Prop := 0x20 ≤ c ∧ c ≤ 0x10ffff ∧ c ≠ 0x22 ∧ c ≠ 0x5c

/-- An object key that is written raw and read back. -/
def key_ok (k : List Nat) : Prop := ∃ cps : List Nat, k = cps.flatMap utf8 ∧ ∀ c ∈ cps, key_cp_ok c

/-- Value trees of the round trip: integers in the range of `long`, strings
and keys that are UTF-8 text of the code points above, objects listed in the
strictly increasing key order of their `std::map`. -/
inductive plain : value → Prop where
  | null : plain value.null
  | boolean (b : Bool) : plain (value.boolean b)
  | number (v : Int) : LONG_MIN ≤ v → v ≤ LONG_MAX → plain (value.number (.l v))
  | string (cps : List Nat) : (∀ c ∈ cps, string_cp_ok c) → plain (value.string (cps.flatMap utf8))
  | array (vs : List value) : (∀ v ∈ vs, plain v) → plain (value.array vs)
  | object (m : List (List Nat × value)) :
      (∀ e ∈ m, key_ok e.1) →
      (∀ e ∈ m, plain e.2) →
      m.Pairwise (fun a b => string_lt a.1 b.1 = true) →
      plain (value.object m)

/-- Element of a literal body that the renderer writes for one code point of a
string. -/
def to_item (c : Nat) : item :=
  if c = 0x0a then .esc 0x6e
  else if c = 0x08 then .esc 0x62
  else if c = 0x0d then .esc 0x72
  else if c = 0x0c then .esc 0x66
  else if c = 0x09 then .esc 0x74
  else if c = 0x5c then .esc 0x5c
  else if c = 0x22 then .esc 0x22
  else if c = 0x2f then .esc 0x2f
  else .cp c

/-- The code point that follows a value does not continue a number: the input
ends there, or it is neither a digit nor the dot. -/
def follow_ok (rest : List Nat) : Prop :=
  rest = [] ∨ (isdigit (getcp ⟨rest, false⟩).1 = false ∧ (getcp ⟨rest, false⟩).1 ≠ 0x2e)

/-- The dispatcher reads the rendering of `t` back: entered on its first code
point, whatever follows it, `value::parse` returns `t` and leaves `rest`
unread. -/
def reads_back (fmt : List Nat → List Nat) (t : value) : Prop :=
  ∀ (fuel : Nat) (i : utf8_stream) (rest : List Nat), (render fmt t).length + 1 ≤ fuel →
    On i (render fmt t ++ rest) → follow_ok rest →
    ∃ i1 : utf8_stream, value_loop fuel i = .ok (t, i1) ∧ Ahead i1 rest


/-! ## Reference notions for the calls on the stream and its position -/

/-- A call of the user on the stream: `next()` or `peek()`. -/
inductive call where
  | next
  | peek
deriving DecidableEq, Repr

/-- Run a sequence of calls on a stream: the code points returned by the
`next()` calls, in order, and the stream after the last call. -/
def run_calls : List call → utf8_stream → List Nat × utf8_stream
  | [], i => ([], i)
  | .next :: cs, i => (i.next.c :: (run_calls cs i.next).1, (run_calls cs i.next).2)
  | .peek :: cs, i => run_calls cs i.peek

/-- Number of `next()` calls in a sequence of calls. -/
def advances (cs : List call) : Nat := cs.count .next

/-- The first `n + 1` code points of a byte source, as `getcp` decodes them
one after the other.  Past the last byte these are what `getcp` returns there:
once 0x1FFFFF, then `EOF_point`. -/
def code_points : Nat → istream → List Nat
  | 0, s => [(getcp s).1]
  | n + 1, s => (getcp s).1 :: code_points n (getcp s).2

/-- Pairs of neighbouring code points of a sequence. -/
def neighbours : List Nat → List (Nat × Nat)
  | a :: b :: t => (a, b) :: neighbours (b :: t)
  | _ => []

/-- A line break ends between a code point and its successor: the code point
is a line feed (alone, or closing a pair CR LF), or it is a carriage return
that is not followed by a line feed. -/
def break_ends (p : Nat × Nat) : Bool := p.1 == 10 || (p.1 == 13 && p.2 != 10)

/-- Number of line breaks that lie entirely before the last code point of a
sequence; LF, a lone CR and the pair CR LF count once each. -/
def line_of (xs : List Nat) : Nat := (neighbours xs).countP break_ends

/-- Number of code points between the end of the last line break before the
last code point of a sequence (or the start of the sequence) and that last
code point. -/
def col_of (xs : List Nat) : Nat :=
  ((neighbours xs).reverse.takeWhile (fun p => !break_ends p)).length

/-! ## Reference notions for termination -/

/-- Number of code points a byte source can still deliver before it reports
end of file, counted generously: one for every unread byte and one for the
read that finds the end of the data; none once the source has failed. -/
def istream.units (s : istream) : Nat := if s.failed then 0 else s.bytes.length + 1

/-- Remaining input of the stream: the units of its byte source, and one more
when the lookahead slot holds a code point other than `EOF_point`. -/
def utf8_stream.units (i : utf8_stream) : Nat :=
  i.s.units + (if i.pc = NO_point ∨ i.pc = EOF_point then 0 else 1)

/-- The call that gave the result `r` on the stream `i` came to its end within
its fuel, and the stream it returned has no more remaining input than `i`. -/
def returns_on {α : Type} (i : utf8_stream) (r : Except exn (α × utf8_stream)) : Prop :=
  r ≠ .error .out_of_fuel ∧ ∀ (v : α) (j : utf8_stream), r = .ok (v, j) → j.units ≤ i.units

/-- Enough fuel for a loop of `fuel_per` turns per unit of remaining input:
the loop stands on `EOF_point` and has one turn left, or it has `fuel_per`
turns per unit and `extra` more. -/
def enough (fuel_per extra fuel : Nat) (i : utf8_stream) : Prop :=
  (i.c = EOF_point ∧ 1 ≤ fuel) ∨ fuel_per * i.units + extra ≤ fuel
/-! ## Bit arithmetic and UTF-8 -/

theorem and_mask_shift (c k s : Nat) : (c &&& ((2 ^ k - 1) <<< s)) >>> s = c / 2 ^ s % 2 ^ k := by
  apply Nat.eq_of_testBit_eq
  intro i
  rw [← Nat.shiftRight_eq_div_pow]
  simp only [Nat.testBit_shiftRight, Nat.testBit_and, Nat.testBit_mod_two_pow,
    Nat.testBit_shiftLeft, Nat.testBit_two_pow_sub_one]
  have : s + i ≥ s := by omega
  simp [this]
  by_cases h : i < k <;> simp [h, Nat.add_comm]

theorem and_3f (c : Nat) : c &&& 0x3f = c % 64 := Nat.and_pow_two_sub_one_eq_mod c 6
theorem and_1f (c : Nat) : c &&& 0x1f = c % 32 := Nat.and_pow_two_sub_one_eq_mod c 5
theorem and_3ff (c : Nat) : c &&& 0x3ff = c % 1024 := Nat.and_pow_two_sub_one_eq_mod c 10
theorem and_7fff (c : Nat) : c &&& 0x7fff = c % 32768 := Nat.and_pow_two_sub_one_eq_mod c 15
theorem shl_6 (c : Nat) : c <<< 6 = c * 64 := Nat.shiftLeft_eq c 6
theorem or_80 : ∀ x, x < 64 → x ||| 0x80 = 0x80 + x := by decide
theorem or_c0 : ∀ x, x < 32 → x ||| 0xc0 = 0xc0 + x := by decide
theorem or_e0 : ∀ x, x < 16 → x ||| 0xe0 = 0xe0 + x := by decide
theorem or_f0 : ∀ x, x < 8 → x ||| 0xf0 = 0xf0 + x := by decide
theorem low8_cast (b : Nat) : low8 (b : Int) = b % 256 := by unfold low8; omega
theorem low8_eof : low8 (-1) = 255 := by decide

theorem addu8_eq (s : List Nat) (c : Nat) (h : c ≤ 0x10ffff) :
    addu8 s c = .ok (s ++ utf8 c) := by
  unfold addu8 utf8
  have h0 : ¬ (c > 0x10ffff ∨ (c ≥ 0xd800 ∧ c ≤ 0xdff)) := by omega
  rw [if_neg h0]
  have e1 : (c &&& 0x7c0) >>> 6 = c / 64 % 32 := and_mask_shift c 5 6
  have e2 : (c &&& 0xf000) >>> 12 = c / 4096 % 16 := and_mask_shift c 4 12
  have e3 : (c &&& 0xfc0) >>> 6 = c / 64 % 64 := and_mask_shift c 6 6
  have e4 : (c &&& 0x1c0000) >>> 18 = c / 262144 % 8 := and_mask_shift c 3 18
  have e5 : (c &&& 0x3f000) >>> 12 = c / 4096 % 64 := and_mask_shift c 6 12
  rw [e1, e2, e3, e4, e5, and_3f]
  rw [or_80 (c % 64) (by omega), or_80 (c / 64 % 64) (by omega), or_80 (c / 4096 % 64) (by omega),
    or_c0 (c / 64 % 32) (by omega), or_e0 (c / 4096 % 16) (by omega), or_f0 (c / 262144 % 8) (by omega)]
  by_cases h1 : c < 0x80
  · simp [h1]
  · rw [if_neg h1, if_neg h1]
    by_cases h2 : c < 0x800
    · have : c ≤ 0x7ff := by omega
      rw [if_pos h2, if_pos this]
      have : c / 64 % 32 = c / 64 := by omega
      rw [this]
    · have h2' : ¬ c ≤ 0x7ff := by omega
      rw [if_neg h2, if_neg h2']
      by_cases h3 : c < 0x10000
      · have : c ≤ 0xffff := by omega
        rw [if_pos h3, if_pos this]
        have : c / 4096 % 16 = c / 4096 := by omega
        rw [this]
      · have h3' : ¬ c ≤ 0xffff := by omega
        rw [if_neg h3, if_neg h3']
        have : c / 262144 % 8 = c / 262144 := by omega
        rw [this]

theorem getcp_ascii (b : Nat) (rest : List Nat) (h : b < 0x80) :
    getcp ⟨b :: rest, false⟩ = (b, ⟨rest, false⟩) := by
  have hb : b % 256 = b := by omega
  have : ¬ b > 0x7f := by omega
  simp [getcp, istream.not_good_or_eof, istream.get, low8_cast, hb, this]

theorem getcp_utf8 (c : Nat) (rest : List Nat) (h : c ≤ 0x10ffff) :
    getcp ⟨utf8 c ++ rest, false⟩ = (c, ⟨rest, false⟩) := by
  unfold utf8
  by_cases h1 : c < 0x80
  · rw [if_pos h1]; exact getcp_ascii c rest h1
  · rw [if_neg h1]
    by_cases h2 : c < 0x800
    · rw [if_pos h2]
      have a1 : (0xc0 + c / 64) % 256 = 0xc0 + c / 64 := by omega
      have a2 : (0x80 + c % 64) % 256 = 0x80 + c % 64 := by omega
      have g1 : 0xc0 + c / 64 > 0x7f := by omega
      have g2 : 0xc0 + c / 64 > 0xbf := by omega
      have g3 : ¬ 0xc0 + c / 64 > 0xdf := by omega
      have g4 : ¬ 0xc0 + c / 64 > 0xef := by omega
      simp only [getcp, istream.not_good_or_eof, istream.get, low8_cast, a1, a2, and_3f, and_1f, shl_6,
        List.cons_append, List.nil_append, g1, g2, g3, g4, if_true, if_false, Bool.false_eq_true]
      simp only [Prod.mk.injEq, and_true]
      omega
    · rw [if_neg h2]
      by_cases h3 : c < 0x10000
      · rw [if_pos h3]
        have a1 : (0xe0 + c / 4096) % 256 = 0xe0 + c / 4096 := by omega
        have a2 : (0x80 + c / 64 % 64) % 256 = 0x80 + c / 64 % 64 := by omega
        have a3 : (0x80 + c % 64) % 256 = 0x80 + c % 64 := by omega
        have g1 : 0xe0 + c / 4096 > 0x7f := by omega
        have g2 : 0xe0 + c / 4096 > 0xbf := by omega
        have g3 : 0xe0 + c / 4096 > 0xdf := by omega
        have g4 : ¬ 0xe0 + c / 4096 > 0xef := by omega
        simp only [getcp, istream.not_good_or_eof, istream.get, low8_cast, a1, a2, a3, and_3f, and_1f,
          and_3ff, shl_6, List.cons_append, List.nil_append, g1, g2, g3, g4, if_true, if_false,
          Bool.false_eq_true]
        simp only [Prod.mk.injEq, and_true]
        omega
      · rw [if_neg h3]
        have a1 : (0xf0 + c / 262144) % 256 = 0xf0 + c / 262144 := by omega
        have a2 : (0x80 + c / 64 % 64) % 256 = 0x80 + c / 64 % 64 := by omega
        have a3 : (0x80 + c % 64) % 256 = 0x80 + c % 64 := by omega
        have a4 : (0x80 + c / 4096 % 64) % 256 = 0x80 + c / 4096 % 64 := by omega
        have g1 : 0xf0 + c / 262144 > 0x7f := by omega
        have g2 : 0xf0 + c / 262144 > 0xbf := by omega
        have g3 : 0xf0 + c / 262144 > 0xdf := by omega
        have g4 : 0xf0 + c / 262144 > 0xef := by omega
        simp only [getcp, istream.not_good_or_eof, istream.get, low8_cast, a1, a2, a3, a4, and_3f,
          and_1f, and_3ff, and_7fff, shl_6, List.cons_append, List.nil_append, g1, g2, g3, g4,
          if_true, if_false, Bool.false_eq_true]
        simp only [Prod.mk.injEq, and_true]
        omega
/-! ## The adapter on a given text -/

theorem low8_lt (x : Int) : low8 x < 256 := by unfold low8; omega

theorem getcp_le (s : istream) : (getcp s).1 ≤ EOF_point := by
  unfold getcp EOF_point
  simp only [and_3f, and_1f, and_3ff, and_7fff, shl_6]
  have h0 := low8_lt s.get.1
  split
  · exact Nat.le_refl _
  · split_ifs <;> omega

theorem getcp_ne_NO (s : istream) : (getcp s).1 ≠ NO_point := by
  have := getcp_le s
  unfold EOF_point at this
  unfold NO_point
  omega

theorem getcp_live_lt (bytes : List Nat) : (getcp ⟨bytes, false⟩).1 < EOF_point := by
  unfold getcp EOF_point
  simp only [and_3f, and_1f, and_3ff, and_7fff, shl_6, istream.not_good_or_eof]
  have h0 := low8_lt (istream.get ⟨bytes, false⟩).1
  simp only [Bool.false_eq_true, if_false]
  split_ifs <;> omega

theorem getcp_nil : getcp ⟨[], false⟩ = (0x1fffff, ⟨[], true⟩) := by decide

theorem getcp_failed (bytes : List Nat) : getcp ⟨bytes, true⟩ = (EOF_point, ⟨bytes, true⟩) := by
  simp [getcp, istream.not_good_or_eof]

theorem On_open (text : List Nat) : On (utf8_stream.open ⟨text, false⟩) text := by
  simp [On, utf8_stream.open]

theorem next_of_pc (i : utf8_stream) (h : i.pc = NO_point) :
    i.next.pc = NO_point ∧ (i.next.c, i.next.s) = getcp i.s := by
  simp [utf8_stream.next, h]

theorem On_utf8 (i : utf8_stream) (c : Nat) (text : List Nat) (hc : c ≤ 0x10ffff)
    (h : On i (utf8 c ++ text)) : i.c = c ∧ On i.next text := by
  obtain ⟨h1, h2⟩ := h
  rw [getcp_utf8 c text hc] at h2
  simp only [Prod.mk.injEq] at h2
  refine ⟨h2.1, ?_⟩
  have := next_of_pc i h1
  rw [h2.2] at this
  exact this

theorem On_cons (i : utf8_stream) (b : Nat) (text : List Nat) (hb : b < 0x80)
    (h : On i (b :: text)) : i.c = b ∧ On i.next text := by
  have e : utf8 b = [b] := by simp [utf8, hb]
  have := On_utf8 i b text (by omega) (by rw [e]; exact h)
  exact this

theorem On_lt (i : utf8_stream) (text : List Nat) (h : On i text) : i.c < EOF_point := by
  have := getcp_live_lt text
  rw [← h.2] at this
  exact this

theorem Ahead_next (i : utf8_stream) (rest : List Nat) (h : Ahead i rest) : On i.next rest := by
  rcases h with ⟨h1, h2⟩ | h
  · have := next_of_pc i h1
    rw [h2] at this
    exact this
  · have hne : i.pc ≠ NO_point := by
      have := getcp_ne_NO ⟨rest, false⟩
      rw [← h] at this
      exact this
    simp only [On, utf8_stream.next, hne, ne_eq, not_false_eq_true, if_true]
    exact ⟨trivial, h⟩

theorem On_Ahead_next (i : utf8_stream) (b : Nat) (text : List Nat) (hb : b < 0x80)
    (h : On i (b :: text)) : Ahead i text := by
  obtain ⟨h1, h2⟩ := h
  rw [getcp_ascii b text hb] at h2
  simp only [Prod.mk.injEq] at h2
  exact Or.inl ⟨h1, h2.2⟩

theorem peek_of_pc (i : utf8_stream) (h : i.pc = NO_point) :
    i.peek = { i with pc := (getcp i.s).1, s := (getcp i.s).2 } := by
  have : ¬ i.pc ≤ EOF_point := by rw [h]; decide
  simp [utf8_stream.peek, this]

theorem peek_next (i : utf8_stream) (h : i.pc = NO_point) : i.peek.next = i.next := by
  rw [peek_of_pc i h]
  have hne := getcp_ne_NO i.s
  simp [utf8_stream.next, hne, h]

theorem peek_idem (i : utf8_stream) : i.peek.peek = i.peek := by
  by_cases h : i.pc ≤ EOF_point
  · simp [utf8_stream.peek, h]
  · have hle := getcp_le i.s
    simp [utf8_stream.peek, h, hle]

theorem peek_Ahead (i : utf8_stream) (rest : List Nat) (h : Ahead i rest) :
    (i.peek.pc, i.peek.s) = getcp ⟨rest, false⟩ ∧ i.peek.c = i.c ∧ i.peek.line = i.line
      ∧ i.peek.col = i.col ∧ i.peek.new_line = i.new_line := by
  rcases h with ⟨h1, h2⟩ | h
  · rw [peek_of_pc i h1, h2]
    simp
  · have hle : i.pc ≤ EOF_point := by
      have := getcp_le ⟨rest, false⟩
      rw [← h] at this
      exact this
    simp [utf8_stream.peek, hle, h]
/-! ## Skipping white space -/

theorem skipspace_loop_run (text : List Nat) (hstop : isspace4 (getcp ⟨text, false⟩).1 = false)
    (ws : List Nat) (hws : ∀ w ∈ ws, isspace4 w = true) :
    ∀ (fuel : Nat) (i : utf8_stream), ws.length + 1 ≤ fuel → On i (ws ++ text) →
      skipspace_loop fuel i = utf8_stream.next^[ws.length] i
        ∧ On (utf8_stream.next^[ws.length] i) text := by
  induction ws with
  | nil =>
    intro fuel i hf hOn
    obtain ⟨f, rfl⟩ : ∃ f, fuel = f + 1 := ⟨fuel - 1, by omega⟩
    simp only [List.nil_append] at hOn
    have hc : i.c = (getcp ⟨text, false⟩).1 := by
      simpa using congrArg Prod.fst hOn.2
    simp only [skipspace_loop, hc, hstop, Bool.false_eq_true, if_false, List.length_nil,
      Function.iterate_zero, id_eq, true_and]
    exact hOn
  | cons w ws ih =>
    intro fuel i hf hOn
    obtain ⟨f, rfl⟩ : ∃ f, fuel = f + 1 := ⟨fuel - 1, by simp at hf; omega⟩
    have hw := hws w (List.mem_cons_self _ _)
    have hw80 : w < 0x80 := by
      simp [isspace4] at hw; omega
    rw [List.cons_append] at hOn
    obtain ⟨hc, hOn1⟩ := On_cons i w _ hw80 hOn
    have := ih (fun x hx => hws x (List.mem_cons_of_mem _ hx)) f i.next
      (by simp at hf; omega) hOn1
    simp only [skipspace_loop, hc, hw, if_true, List.length_cons, Function.iterate_succ_apply]
    exact this

theorem On_cons_s (i : utf8_stream) (b : Nat) (text : List Nat) (hb : b < 0x80)
    (h : On i (b :: text)) : i.s = ⟨text, false⟩ := by
  have := h.2
  rw [getcp_ascii b text hb] at this
  exact (Prod.mk.inj this).2

theorem skipspace_run (text : List Nat) (hstop : isspace4 (getcp ⟨text, false⟩).1 = false)
    (ws : List Nat) (hws : ∀ w ∈ ws, isspace4 w = true) (i : utf8_stream)
    (hOn : On i (ws ++ text)) :
    i.skipspace = utf8_stream.next^[ws.length] i ∧ On (utf8_stream.next^[ws.length] i) text := by
  unfold utf8_stream.skipspace
  apply skipspace_loop_run text hstop ws hws _ i _ hOn
  cases ws with
  | nil => simp
  | cons w ws =>
    have hw := hws w (List.mem_cons_self _ _)
    have hw80 : w < 0x80 := by
      simp [isspace4] at hw; omega
    rw [On_cons_s i w _ hw80 hOn]
    simp
    omega

theorem skipspace_id (i : utf8_stream) (h : isspace4 i.c = false) : i.skipspace = i := by
  simp [utf8_stream.skipspace, skipspace_loop, h]

theorem next_plain (i : utf8_stream) (h1 : i.new_line = false) (h2 : i.c ≠ 13) :
    i.next.line = i.line ∧ i.next.col = i.col + 1 := by
  simp [utf8_stream.next, h1, h2]

theorem next_new_line (i : utf8_stream) : i.next.new_line = islineend i.next.c := by
  simp [utf8_stream.next]

theorem iterate_next_new_line (n : Nat) (j : utf8_stream) :
    (utf8_stream.next^[n] j.next).new_line = islineend (utf8_stream.next^[n] j.next).c := by
  cases n with
  | zero => exact next_new_line j
  | succ m =>
    rw [Function.iterate_succ_apply']
    exact next_new_line _

theorem get_bytes_le (s : istream) : s.get.2.bytes.length ≤ s.bytes.length := by
  unfold istream.get
  split_ifs
  · exact Nat.le_refl _
  · cases h : s.bytes <;> simp

theorem getcp_src_live (s : istream) (h0 : s.not_good_or_eof = false) :
    (getcp s).2 = s.get.2 ∨ (getcp s).2 = s.get.2.get.2
      ∨ (getcp s).2 = s.get.2.get.2.get.2 ∨ (getcp s).2 = s.get.2.get.2.get.2.get.2 := by
  unfold getcp
  by_cases h1 : low8 s.get.1 > 0x7f
  · by_cases h2 : low8 s.get.1 > 0xbf
    · by_cases h3 : low8 s.get.1 > 0xdf
      · by_cases h4 : low8 s.get.1 > 0xef
        · simp [h0, h1, h2, h3, h4]
        · simp [h0, h1, h2, h3, h4]
      · have h4 : ¬ low8 s.get.1 > 0xef := by omega
        simp [h0, h1, h2, h3, h4]
    · have h3 : ¬ low8 s.get.1 > 0xdf := by omega
      have h4 : ¬ low8 s.get.1 > 0xef := by omega
      simp [h0, h1, h2, h3, h4]
  · simp [h0, h1]

theorem getcp_bytes_le (s : istream) : (getcp s).2.bytes.length ≤ s.bytes.length := by
  have h1 := get_bytes_le s
  have h2 := get_bytes_le s.get.2
  have h3 := get_bytes_le s.get.2.get.2
  have h4 := get_bytes_le s.get.2.get.2.get.2
  by_cases h0 : s.not_good_or_eof = true
  · simp [getcp, h0]
  · rcases getcp_src_live s (by simpa using h0) with h | h | h | h <;> rw [h] <;> omega

theorem getcp_space_lt (s : istream) (h : isspace4 (getcp s).1 = true) :
    (getcp s).2.bytes.length < s.bytes.length := by
  rcases s with ⟨bytes, failed⟩
  cases failed with
  | true => rw [getcp_failed] at h; exact absurd h (by simp [isspace4, EOF_point])
  | false =>
    cases bytes with
    | nil => rw [getcp_nil] at h; exact absurd h (by simp [isspace4])
    | cons b t =>
      have h2 := get_bytes_le (istream.get ⟨b :: t, false⟩).2
      have h3 := get_bytes_le (istream.get ⟨b :: t, false⟩).2.get.2
      have h4 := get_bytes_le (istream.get ⟨b :: t, false⟩).2.get.2.get.2
      have e1 : (istream.get ⟨b :: t, false⟩).2.bytes.length = t.length := by
        simp [istream.get]
      rcases getcp_src_live ⟨b :: t, false⟩ rfl with g | g | g | g <;> rw [g] <;>
        simp only [List.length_cons] <;> omega

/-- The fuel of `skipspace` is enough: the loop ends on a code point that is
not white space. -/
theorem skipspace_loop_stops : ∀ (fuel : Nat) (i : utf8_stream),
    i.s.bytes.length + (if i.pc = NO_point then 0 else 1) + 2 ≤ fuel →
    isspace4 (skipspace_loop fuel i).c = false := by
  intro fuel
  induction fuel with
  | zero => intro i h; omega
  | succ f ih =>
    intro i h
    unfold skipspace_loop
    by_cases hc : isspace4 i.c = true
    · simp only [hc, if_true]
      by_cases hpc : i.pc = NO_point
      · have hn := next_of_pc i hpc
        have e1 : i.next.c = (getcp i.s).1 := by simpa using congrArg Prod.fst hn.2
        have e2 : i.next.s = (getcp i.s).2 := by simpa using congrArg Prod.snd hn.2
        by_cases hsp : isspace4 (getcp i.s).1 = true
        · have := getcp_space_lt i.s hsp
          apply ih
          rw [hn.1, e2]
          simp only [hpc, if_true] at h
          simp only [if_true]
          omega
        · obtain ⟨f2, rfl⟩ : ∃ f2, f = f2 + 1 := ⟨f - 1, by omega⟩
          unfold skipspace_loop
          simp only [e1, hsp, Bool.false_eq_true, if_false]
      · apply ih
        have e1 : i.next.pc = NO_point := by simp [utf8_stream.next, hpc]
        have e2 : i.next.s = i.s := by simp [utf8_stream.next, hpc]
        rw [e1, e2]
        simp only [hpc, if_false] at h
        simp only [if_true]
        omega
    · simp only [hc, Bool.false_eq_true, if_false]

theorem skipspace_stops (i : utf8_stream) : isspace4 i.skipspace.c = false := by
  unfold utf8_stream.skipspace
  apply skipspace_loop_stops
  split_ifs <;> omega
/-! ## String literals -/

theorem body_text_cons (x : item) (xs : List item) : body_text (x :: xs) = x.text ++ body_text xs := by
  simp [body_text]
theorem body_decoded_cons (x : item) (xs : List item) :
    body_decoded (x :: xs) = x.decoded ++ body_decoded xs := by
  simp [body_decoded]
theorem body_count_cons (x : item) (xs : List item) :
    body_count (x :: xs) = x.count + body_count xs := by
  simp [body_count]

theorem string_loop_body (rest : List Nat) (body : List item) (hwf : ∀ x ∈ body, x.wf) :
    ∀ (fuel : Nat) (s : List Nat) (i : utf8_stream), body_count body + 1 ≤ fuel →
      On i (body_text body ++ 0x22 :: rest) →
      string_loop fuel s i = .ok (s ++ body_decoded body, utf8_stream.next^[body_count body] i)
        ∧ On (utf8_stream.next^[body_count body] i) (0x22 :: rest) := by
  induction body with
  | nil =>
    intro fuel s i hf hOn
    obtain ⟨f, rfl⟩ : ∃ f, fuel = f + 1 := ⟨fuel - 1, by omega⟩
    have hc := (On_cons i 0x22 rest (by decide) hOn).1
    simp [string_loop, hc, body_decoded, body_count]
    exact hOn
  | cons x xs ih =>
    intro fuel s i hf hOn
    have hx := hwf x (List.mem_cons_self _ _)
    have hxs : ∀ y ∈ xs, y.wf := fun y hy => hwf y (List.mem_cons_of_mem _ hy)
    rw [body_count_cons] at hf
    obtain ⟨f, rfl⟩ : ∃ f, fuel = f + 1 := ⟨fuel - 1, by omega⟩
    rw [body_text_cons, List.append_assoc] at hOn
    rw [body_decoded_cons, body_count_cons]
    cases x with
    | cp c =>
      obtain ⟨h1, h2, h3, h4⟩ := hx
      obtain ⟨hc, hOn1⟩ := On_utf8 i c _ h2 hOn
      have hgo : c ≠ 0x22 ∧ c ≠ EOF_point ∧ c ≥ 0x1f := by
        refine ⟨h3, ?_, by omega⟩
        unfold EOF_point; omega
      have ih1 := ih hxs f (s ++ utf8 c) i.next (by simp [item.count] at hf; omega) hOn1
      rw [string_loop]
      simp only [hc, hgo, h4, and_self, if_true, if_false, addu8_eq s c h2, ne_eq, not_false_eq_true]
      simp only [item.decoded, item.count]
      rw [Nat.add_comm 1, Function.iterate_succ_apply, ← List.append_assoc]
      exact ih1
    | esc e =>
      simp only [item.text, List.cons_append, List.nil_append] at hOn
      obtain ⟨hc, hOn1⟩ := On_cons i 0x5c _ (by decide) hOn
      have he : e < 0x80 := by
        simp only [item.wf] at hx; omega
      obtain ⟨hc1, hOn2⟩ := On_cons i.next e _ he hOn1
      have ih1 : ∀ b : Nat, string_loop f (s ++ [b]) i.next.next
          = .ok (s ++ b :: body_decoded xs, utf8_stream.next^[body_count xs] i.next.next)
          ∧ On (utf8_stream.next^[body_count xs] i.next.next) (0x22 :: rest) := by
        intro b
        have := ih hxs f (s ++ [b]) i.next.next (by simp [item.count] at hf; omega) hOn2
        simpa using this
      rw [string_loop]
      simp only [item.decoded, item.count]
      rw [Nat.add_comm 2, Function.iterate_succ_apply, Function.iterate_succ_apply]
      simp only [item.wf] at hx
      rcases hx with h | h | h | h | h | h | h | h <;> subst h <;>
        simp [hc, hc1, EOF_point, unescape] <;> exact ih1 _
theorem utf8_length_pos (c : Nat) : 1 ≤ (utf8 c).length := by
  unfold utf8; split_ifs <;> simp

theorem body_count_le (body : List item) : body_count body ≤ (body_text body).length := by
  induction body with
  | nil => simp [body_count, body_text]
  | cons x xs ih =>
    rw [body_count_cons, body_text_cons, List.length_append]
    have : x.count ≤ x.text.length := by
      cases x with
      | cp c => simpa [item.count, item.text] using utf8_length_pos c
      | esc c => simp [item.count, item.text]
    omega

theorem string_parse_run (body : List item) (rest : List Nat) (i : utf8_stream)
    (hwf : ∀ x ∈ body, x.wf) (_hq : i.c = 0x22) (hpc : i.pc = NO_point)
    (hs : i.s = ⟨body_text body ++ 0x22 :: rest, false⟩) :
    string.parse i
        = .ok (value.string (body_decoded body), utf8_stream.next^[body_count body + 1] i)
      ∧ (utf8_stream.next^[body_count body + 1] i).c = 0x22
      ∧ (utf8_stream.next^[body_count body + 1] i).pc = NO_point
      ∧ (utf8_stream.next^[body_count body + 1] i).s = ⟨rest, false⟩ := by
  have hOn1 : On i.next (body_text body ++ 0x22 :: rest) := by
    have := next_of_pc i hpc
    rw [hs] at this
    exact this
  have hfuel : body_count body + 1 ≤ i.s.bytes.length + 3 := by
    have := body_count_le body
    rw [hs]
    simp only [List.length_append]
    omega
  obtain ⟨h1, h2⟩ := string_loop_body rest body hwf _ [] i.next hfuel hOn1
  rw [Function.iterate_succ_apply]
  have h3 := On_cons _ 0x22 rest (by decide) h2
  have h4 := On_Ahead_next _ 0x22 rest (by decide) h2
  refine ⟨?_, h3.1, h2.1, ?_⟩
  · simp only [string.parse, h1, List.nil_append, h3.1, ne_eq, not_true_eq_false, if_false]
  · rcases h4 with ⟨_, h5⟩ | h5
    · exact h5
    · have := getcp_ne_NO ⟨rest, false⟩
      rw [← h5, h2.1] at this
      exact absurd rfl this

/-! ## Number literals -/

theorem Ahead_peek_next (i : utf8_stream) (rest : List Nat) (h : Ahead i rest) :
    i.peek.next = i.next := by
  rcases h with ⟨h1, _⟩ | h
  · exact peek_next i h1
  · have hle : i.pc ≤ EOF_point := by
      have := getcp_le ⟨rest, false⟩
      rw [← h] at this
      exact this
    simp [utf8_stream.peek, hle]

theorem Ahead_cons (i : utf8_stream) (b : Nat) (rest : List Nat) (hb : b < 0x80)
    (h : Ahead i (b :: rest)) : i.peek.pc = b ∧ i.next.c = b ∧ Ahead i.next rest := by
  have h1 := (peek_Ahead i _ h).1
  rw [getcp_ascii b rest hb] at h1
  have h2 := Ahead_next i _ h
  have h3 := On_cons i.next b rest hb h2
  refine ⟨by simpa using congrArg Prod.fst h1, h3.1, On_Ahead_next _ b rest hb h2⟩

theorem isdigit_lt (d : Nat) (h : isdigit d = true) : d < 0x7f := by
  simp [isdigit] at h; omega

theorem digits_loop_run (rest : List Nat)
    (hf : ¬ ((getcp ⟨rest, false⟩).1 < 0x7f ∧ isdigit (getcp ⟨rest, false⟩).1 = true))
    (ds : List Nat) (hd : ∀ d ∈ ds, isdigit d = true) :
    ∀ (fuel : Nat) (s : List Nat) (i : utf8_stream), ds.length + 1 ≤ fuel →
      Ahead i (ds ++ rest) →
      digits_loop fuel s i = .ok (s ++ ds, (utf8_stream.next^[ds.length] i).peek)
        ∧ Ahead (utf8_stream.next^[ds.length] i) rest
        ∧ (utf8_stream.next^[ds.length] i).c = (ds.getLast?).getD i.c := by
  induction ds with
  | nil =>
    intro fuel s i hfuel hA
    obtain ⟨f, rfl⟩ : ∃ f, fuel = f + 1 := ⟨fuel - 1, by omega⟩
    simp only [List.nil_append] at hA
    have hp := (peek_Ahead i rest hA).1
    have hpc : i.peek.pc = (getcp ⟨rest, false⟩).1 := by
      simpa using congrArg Prod.fst hp
    rw [digits_loop]
    simp only [hpc, hf, if_false, List.append_nil, List.length_nil, Function.iterate_zero, id_eq,
      List.getLast?_nil, Option.getD_none, true_and, and_true]
    exact hA
  | cons d ds ih =>
    intro fuel s i hfuel hA
    obtain ⟨f, rfl⟩ : ∃ f, fuel = f + 1 := ⟨fuel - 1, by simp at hfuel; omega⟩
    have hdd := hd d (List.mem_cons_self _ _)
    have hlt := isdigit_lt d hdd
    have hds : ∀ x ∈ ds, isdigit x = true := fun x hx => hd x (List.mem_cons_of_mem _ hx)
    simp only [List.cons_append] at hA
    obtain ⟨h1, h2, h3⟩ := Ahead_cons i d _ (by omega) hA
    have ih1 := ih hds f (s ++ [d]) i.next (by simp at hfuel; omega) h3
    rw [digits_loop]
    have hmod : d % 256 = d := by omega
    simp only [h1, hlt, hdd, and_self, if_true, Ahead_peek_next i _ hA, h2, hmod,
      List.length_cons, Function.iterate_succ_apply]
    refine ⟨by simpa using ih1.1, ih1.2.1, ?_⟩
    rw [ih1.2.2, h2]
    cases ds with
    | nil => simp
    | cons e es =>
      rw [List.getLast?_cons_cons]
      obtain ⟨x, hx⟩ : ∃ x, (e :: es).getLast? = some x := by
        cases h : (e :: es).getLast? with
        | none => simp at h
        | some x => exact ⟨x, rfl⟩
      simp [hx]
theorem digits_value_foldl (ds : List Nat) : ∀ a : Nat,
    (ds.map (· + 48)).foldl (fun a d => a * 10 + (d - 48)) a
      = a * 10 ^ ds.length + Nat.ofDigits 10 ds.reverse := by
  induction ds with
  | nil => intro a; simp
  | cons d ds ih =>
    intro a
    simp only [List.map_cons, List.foldl_cons, List.length_cons, List.reverse_cons,
      Nat.ofDigits_append, Nat.ofDigits_singleton, List.length_reverse]
    rw [ih]
    have : d + 48 - 48 = d := by omega
    rw [this]
    ring

theorem digits_value_map (ds : List Nat) :
    digits_value (ds.map (· + 48)) = Nat.ofDigits 10 ds.reverse := by
  unfold digits_value
  rw [digits_value_foldl]
  simp

theorem isdigit_add (d : Nat) (h : d < 10) : isdigit (d + 48) = true := by
  simp [isdigit]; omega

theorem takeWhile_digits (ds : List Nat) (h : ∀ d ∈ ds, d < 10) :
    (ds.map (· + 48)).takeWhile isdigit = ds.map (· + 48) := by
  rw [List.takeWhile_eq_self_iff]
  intro x hx
  simp only [List.mem_map] at hx
  obtain ⟨d, hd, rfl⟩ := hx
  exact isdigit_add d (h d hd)

theorem strtol_digits (neg : Bool) (c0 : Nat) (ct : List Nat) (N : Nat)
    (hc0 : isdigit c0 = true) (htw : (c0 :: ct).takeWhile isdigit = c0 :: ct)
    (hdv : digits_value (c0 :: ct) = N)
    (hfit : LONG_MIN ≤ (if neg then -(N : Int) else (N : Int))
      ∧ (if neg then -(N : Int) else (N : Int)) ≤ LONG_MAX) :
    strtol ((if neg then [0x2d] else []) ++ c0 :: ct) = if neg then -(N : Int) else (N : Int) := by
  have hc : 48 ≤ c0 ∧ c0 ≤ 57 := by simpa [isdigit] using hc0
  have hsp : c_isspace c0 = false := by
    simp [c_isspace]; omega
  have h45 : ¬ c0 = 45 := by omega
  have h43 : ¬ c0 = 43 := by omega
  cases neg with
  | true =>
    simp only [if_true, List.singleton_append] at hfit ⊢
    have h1 : List.dropWhile c_isspace (0x2d :: c0 :: ct) = 0x2d :: c0 :: ct := by
      simp [List.dropWhile, c_isspace]
    have h2 : ¬ (-(N : Int) < LONG_MIN) := by omega
    have h3 : ¬ (LONG_MAX < -(N : Int)) := by omega
    unfold strtol
    simp only [h1, List.head?_cons, List.tail_cons, true_or, if_true, htw, hdv, h2, h3, if_false]
  | false =>
    simp only [Bool.false_eq_true, if_false, List.nil_append] at hfit ⊢
    have h1 : List.dropWhile c_isspace (c0 :: ct) = c0 :: ct := by
      simp [List.dropWhile, hsp]
    have h2 : ¬ ((N : Int) < LONG_MIN) := by omega
    have h3 : ¬ (LONG_MAX < (N : Int)) := by omega
    unfold strtol
    simp only [h1, List.head?_cons, List.tail_cons, Option.some.injEq, h45, h43, or_self,
      if_false, htw, hdv, h2, h3]

theorem strtol_int_text (neg : Bool) (ds : List Nat) (hne : ds ≠ []) (hdig : ∀ d ∈ ds, d < 10)
    (hfit : LONG_MIN ≤ int_value neg ds ∧ int_value neg ds ≤ LONG_MAX) :
    strtol (int_text neg ds) = int_value neg ds := by
  obtain ⟨d0, dt, rfl⟩ : ∃ d0 dt, ds = d0 :: dt := by
    cases ds with
    | nil => exact absurd rfl hne
    | cons a b => exact ⟨a, b, rfl⟩
  have hd0 : d0 < 10 := hdig d0 (List.mem_cons_self _ _)
  have htw := takeWhile_digits (d0 :: dt) hdig
  have hdv := digits_value_map (d0 :: dt)
  rw [List.map_cons] at htw hdv
  have := strtol_digits neg (d0 + 48) (dt.map (· + 48)) _ (isdigit_add d0 hd0) htw hdv
    (by unfold int_value at hfit; exact hfit)
  unfold int_text int_value
  rw [List.map_cons]
  exact this
theorem number_parse_digits_int (rest : List Nat)
    (hF : ¬ ((getcp ⟨rest, false⟩).1 < 0x7f ∧ isdigit (getcp ⟨rest, false⟩).1 = true))
    (hdot : (getcp ⟨rest, false⟩).1 ≠ 0x2e)
    (c0 : Nat) (ct : List Nat) (hc0 : isdigit c0 = true) (hct : ∀ d ∈ ct, isdigit d = true)
    (hlead : c0 = 0x30 → ct = [])
    (fuel : Nat) (s0 : List Nat) (j : utf8_stream) (hfuel : ct.length + 1 ≤ fuel)
    (hc : j.c = c0) (hA : Ahead j (ct ++ rest)) :
    number_parse_digits fuel s0 j
        = .ok (value.number (.l (strtol (s0 ++ c0 :: ct))), (utf8_stream.next^[ct.length] j).peek)
      ∧ Ahead (utf8_stream.next^[ct.length] j) rest
      ∧ (utf8_stream.next^[ct.length] j).c = (ct.getLast?).getD c0 := by
  have hmod : c0 % 256 = c0 := by have := isdigit_lt c0 hc0; omega
  have key : ∀ J : utf8_stream, Ahead J rest → ¬ (J.peek.pc = 0x2e) := by
    intro J hJ
    have h := (peek_Ahead J rest hJ).1
    have : J.peek.pc = (getcp ⟨rest, false⟩).1 := by simpa using congrArg Prod.fst h
    rw [this]; exact hdot
  by_cases h0 : c0 = 0x30
  · have hnil := hlead h0
    subst hnil
    simp only [List.nil_append] at hA
    unfold number_parse_digits
    simp only [hc, h0, ne_eq, not_true_eq_false, if_false, key j hA, List.length_nil,
      Function.iterate_zero, id_eq, List.getLast?_nil, Option.getD_none, List.append_assoc,
      List.singleton_append, Nat.reduceMod, true_and, and_true]
    exact hA
  · obtain ⟨h1, h2, h3⟩ := digits_loop_run rest hF ct hct fuel (s0 ++ [c0]) j hfuel hA
    unfold number_parse_digits
    simp only [hc, h0, ne_eq, not_false_eq_true, if_true, hmod, h1, key _ h2, if_false,
      List.append_assoc, List.singleton_append, true_and]
    exact ⟨h2, by rw [h3, hc]⟩

theorem getLast_map_add (ds : List Nat) (hne : ds ≠ []) :
    ((ds.tail.map (· + 48)).getLast?).getD (ds.head hne + 48) = ds.getLast hne + 48 := by
  cases ds with
  | nil => exact absurd rfl hne
  | cons d dt =>
    cases dt with
    | nil => simp
    | cons e es =>
      simp only [List.tail_cons, List.head_cons]
      rw [List.getLast?_eq_getLast _ (by simp)]
      simp only [Option.getD_some, List.getLast_cons_cons]
      rw [List.getLast_map (f := fun x => x + 48) (l := e :: es) (by simp)]

theorem number_parse_int_run (neg : Bool) (ds rest : List Nat) (i : utf8_stream)
    (hne : ds ≠ []) (hdig : ∀ d ∈ ds, d < 10) (hlead : ds.head? = some 0 → ds = [0])
    (hfit : LONG_MIN ≤ int_value neg ds ∧ int_value neg ds ≤ LONG_MAX)
    (hfollow : rest = [] ∨
      (isdigit (getcp ⟨rest, false⟩).1 = false ∧ (getcp ⟨rest, false⟩).1 ≠ 0x2e))
    (hpc : i.pc = NO_point) (hon : (i.c, i.s) = getcp ⟨int_text neg ds ++ rest, false⟩) :
    ∃ i1 : utf8_stream,
      number.parse i = .ok (value.number (.l (int_value neg ds)), i1)
        ∧ (number.l (int_value neg ds)).isdouble = false
        ∧ i1 = (utf8_stream.next^[(int_text neg ds).length - 1] i).peek
        ∧ i1.c = ds.getLast hne + 48
        ∧ (i1.pc, i1.s) = getcp ⟨rest, false⟩ := by
  have hF : ¬ ((getcp ⟨rest, false⟩).1 < 0x7f ∧ isdigit (getcp ⟨rest, false⟩).1 = true) := by
    rcases hfollow with h | h
    · subst h; rw [getcp_nil]; decide
    · rw [h.1]; simp
  have hdot : (getcp ⟨rest, false⟩).1 ≠ 0x2e := by
    rcases hfollow with h | h
    · subst h; rw [getcp_nil]; decide
    · exact h.2
  obtain ⟨d0, dt, rfl⟩ : ∃ d0 dt, ds = d0 :: dt := by
    cases ds with
    | nil => exact absurd rfl hne
    | cons a b => exact ⟨a, b, rfl⟩
  have hd0 : d0 < 10 := hdig d0 (List.mem_cons_self _ _)
  have hc0 := isdigit_add d0 hd0
  have hct : ∀ d ∈ dt.map (· + 48), isdigit d = true := by
    intro d hd
    simp only [List.mem_map] at hd
    obtain ⟨e, he, rfl⟩ := hd
    exact isdigit_add e (hdig e (List.mem_cons_of_mem _ he))
  have hl : d0 + 48 = 0x30 → dt.map (· + 48) = [] := by
    intro h
    have : d0 = 0 := by omega
    subst this
    have := hlead (by simp)
    simp at this
    simp [this]
  have hst := strtol_int_text neg (d0 :: dt) hne hdig hfit
  have hOn : On i (int_text neg (d0 :: dt) ++ rest) := ⟨hpc, hon⟩
  have hlast := getLast_map_add (d0 :: dt) hne
  simp only [List.tail_cons, List.head_cons] at hlast
  cases neg with
  | false =>
    have e : int_text false (d0 :: dt) = (d0 + 48) :: dt.map (· + 48) := by simp [int_text]
    rw [e] at hOn hst
    rw [List.cons_append] at hOn
    have h1 := On_cons i _ _ (by omega) hOn
    have h2 := On_Ahead_next i _ _ (by omega) hOn
    have hs : i.s = ⟨dt.map (· + 48) ++ rest, false⟩ := by
      have := hOn.2
      rw [getcp_ascii _ _ (by omega)] at this
      exact (Prod.mk.inj this).2
    obtain ⟨g1, g2, g3⟩ := number_parse_digits_int rest hF hdot (d0 + 48) (dt.map (· + 48)) hc0
      hct hl (i.s.bytes.length + 3) [] i (by rw [hs]; simp; omega) h1.1 h2
    have hne45 : ¬ (d0 + 48 = 0x2d) := by omega
    refine ⟨(utf8_stream.next^[(dt.map (· + 48)).length] i).peek, ?_, rfl, ?_, ?_, ?_⟩
    · unfold number.parse
      simp only [utf8_stream.get, h1.1, hne45, if_false, g1, List.nil_append, hst]
    · rw [e]; simp
    · rw [(peek_Ahead _ rest g2).2.1, g3, hlast]
    · exact (peek_Ahead _ rest g2).1
  | true =>
    have e : int_text true (d0 :: dt) = 0x2d :: (d0 + 48) :: dt.map (· + 48) := by simp [int_text]
    rw [e] at hOn hst
    rw [List.cons_append] at hOn
    have h0 := On_cons i _ _ (by decide) hOn
    have hOn1 := h0.2
    rw [List.cons_append] at hOn1
    have h1 := On_cons i.next _ _ (by omega) hOn1
    have h2 := On_Ahead_next i.next _ _ (by omega) hOn1
    have hs : i.s = ⟨(d0 + 48) :: (dt.map (· + 48) ++ rest), false⟩ := by
      have := hOn.2
      rw [getcp_ascii _ _ (by decide)] at this
      exact (Prod.mk.inj this).2
    obtain ⟨g1, g2, g3⟩ := number_parse_digits_int rest hF hdot (d0 + 48) (dt.map (· + 48)) hc0
      hct hl (i.s.bytes.length + 3) [0x2d] i.next (by rw [hs]; simp; omega) h1.1 h2
    have hbad : ¬ (d0 + 48 > 0x7f ∨ ¬ isdigit (d0 + 48) = true) := by
      rw [hc0]; simp; omega
    refine ⟨(utf8_stream.next^[(dt.map (· + 48)).length] i.next).peek, ?_, rfl, ?_, ?_, ?_⟩
    · unfold number.parse
      simp only [utf8_stream.get, h0.1, if_true, h1.1, hbad, if_false, g1, List.singleton_append,
        hst]
    · rw [e]; simp [Function.iterate_succ_apply]
    · rw [(peek_Ahead _ rest g2).2.1, g3, hlast]
    · exact (peek_Ahead _ rest g2).1
/-! ## A member without a value -/

theorem object_loop_bad_value (fuel : Nat) (o : List (List Nat × value))
    (key : List item) (ws : List Nat) (X : Nat) (rest : List Nat) (i : utf8_stream)
    (hkey : ∀ x ∈ key, x.wf) (hws : ∀ w ∈ ws, isspace4 w = true) (hX : X ≤ 0x10ffff)
    (hbad : X ≠ 0x5b ∧ X ≠ 0x7b ∧ X ≠ 0x22 ∧ X ≠ 0x74 ∧ X ≠ 0x66 ∧ X ≠ 0x6e ∧ X ≠ 0x2d
      ∧ ¬ (0x30 ≤ X ∧ X ≤ 0x39) ∧ isspace4 X = false)
    (hq : i.c = 0x22) (hpc : i.pc = NO_point)
    (hs : i.s = ⟨body_text key ++ 0x22 :: (ws ++ 0x3a :: (utf8 X ++ rest)), false⟩) :
    (utf8_stream.next^[body_count key + ws.length + 2] i).c = 0x3a
      ∧ object_loop (fuel + 2) o i
        = .error (.JSON_parse_error .unexpected_code_point (some X)
            (utf8_stream.next^[body_count key + ws.length + 2] i).line
            ((utf8_stream.next^[body_count key + ws.length + 2] i).col + 1)) := by
  obtain ⟨k1, k2, k3, k4⟩ := string_parse_run key _ i hkey hq hpc hs
  have e : utf8_stream.next^[body_count key + ws.length + 2] i
      = utf8_stream.next^[ws.length] (utf8_stream.next^[body_count key + 1] i).next := by
    rw [← Function.iterate_succ_apply, ← Function.iterate_add_apply]
    congr 1
    omega
  rw [e]
  generalize utf8_stream.next^[body_count key + 1] i = i1 at k1 k2 k3 k4 ⊢
  have hOn1 : On i1.next (ws ++ 0x3a :: (utf8 X ++ rest)) := by
    have := next_of_pc i1 k3
    rw [k4] at this
    exact this
  have hstop : isspace4 (getcp ⟨0x3a :: (utf8 X ++ rest), false⟩).1 = false := by
    rw [getcp_ascii _ _ (by decide)]; rfl
  obtain ⟨s1, s2⟩ := skipspace_run _ hstop ws hws i1.next hOn1
  have hns : i1.nextskipspace = utf8_stream.next^[ws.length] i1.next := s1
  generalize hi2 : utf8_stream.next^[ws.length] i1.next = i2 at s1 s2 hns ⊢
  obtain ⟨c2, hOn2⟩ := On_cons i2 0x3a _ (by decide) s2
  obtain ⟨c3, _⟩ := On_utf8 i2.next X rest hX hOn2
  have hsk : i2.next.skipspace = i2.next := skipspace_id _ (by rw [c3]; exact hbad.2.2.2.2.2.2.2.2)
  have hnl : i2.new_line = false := by
    rw [← hi2, iterate_next_new_line, hi2, c2]; rfl
  obtain ⟨p1, p2⟩ := next_plain i2 hnl (by rw [c2]; decide)
  have hX1 : ¬ X = EOF_point := by unfold EOF_point; omega
  obtain ⟨b1, b2, b3, b4, b5, b6, b7, b8, b9⟩ := hbad
  have hsp : ¬ (X = 0x20 ∨ X = 0x09 ∨ X = 0x0a ∨ X = 0x0d) := by
    simp [isspace4] at b9; omega
  rw [object_loop]
  have g1 : (34 : Nat) ≠ 125 ∧ (34 : Nat) ≠ EOF_point := by decide
  simp only [hq, g1, k1, hns, c2, hsk, ne_eq, not_false_eq_true, and_self, if_true,
    not_true_eq_false, if_false, true_and]
  rw [value_loop]
  simp only [c3, hX1, b1, b2, b3, b4, b5, b6, b7, b8, hsp, if_false, false_or, p1, p2]
theorem object_parse_bad_value (ws0 : List Nat) (key : List item) (ws : List Nat) (X : Nat)
    (rest : List Nat) (i : utf8_stream)
    (hws0 : ∀ w ∈ ws0, isspace4 w = true) (hkey : ∀ x ∈ key, x.wf)
    (hws : ∀ w ∈ ws, isspace4 w = true) (hX : X ≤ 0x10ffff)
    (hbad : X ≠ 0x5b ∧ X ≠ 0x7b ∧ X ≠ 0x22 ∧ X ≠ 0x74 ∧ X ≠ 0x66 ∧ X ≠ 0x6e ∧ X ≠ 0x2d
      ∧ ¬ (0x30 ≤ X ∧ X ≤ 0x39) ∧ isspace4 X = false)
    (hpc : i.pc = NO_point)
    (hs : i.s = ⟨ws0 ++ 0x22 :: (body_text key ++ 0x22 :: (ws ++ 0x3a :: (utf8 X ++ rest))),
      false⟩) :
    (utf8_stream.next^[ws0.length + body_count key + ws.length + 3] i).c = 0x3a
      ∧ object.parse i
        = .error (.JSON_parse_error .unexpected_code_point (some X)
            (utf8_stream.next^[ws0.length + body_count key + ws.length + 3] i).line
            ((utf8_stream.next^[ws0.length + body_count key + ws.length + 3] i).col + 1)) := by
  have hOn1 : On i.next (ws0 ++ 0x22 :: (body_text key ++ 0x22 :: (ws ++ 0x3a :: (utf8 X ++ rest)))) := by
    have := next_of_pc i hpc
    rw [hs] at this
    exact this
  obtain ⟨s1, s2⟩ := skipspace_run _ (by rw [getcp_ascii _ _ (by decide)]; rfl) ws0 hws0 i.next hOn1
  have q := (On_cons _ _ _ (by decide) s2).1
  have qs := On_cons_s _ _ _ (by decide) s2
  have e : utf8_stream.next^[ws0.length + body_count key + ws.length + 3] i
      = utf8_stream.next^[body_count key + ws.length + 2] (utf8_stream.next^[ws0.length] i.next) := by
    rw [← Function.iterate_succ_apply, ← Function.iterate_add_apply]
    congr 1
    omega
  have := object_loop_bad_value (2 * i.s.bytes.length + 6) [] key ws X rest
    (utf8_stream.next^[ws0.length] i.next) hkey hws hX hbad q s2.1 qs
  rw [e]
  refine ⟨this.1, ?_⟩
  unfold object.parse parse_fuel
  rw [s1]
  exact this.2

/-- A member without a value, when its key holds no hexadecimal escape.  When
the loop of `object::parse` stands on the opening quote of
a member key (the first member or a later one, `o` holding the members read so
far) and the colon of that member is immediately followed by a code point `X`
that cannot begin a value, the parse raises the unexpected-code-point error
for `X`, and the line and column it reports are those of the position
immediately after the colon: the line of the colon and its column plus one.
In particular `object::parse` raises this error when the member is the first
one of the object. -/
theorem object_member_without_value (key : List item) (ws : List Nat) (X : Nat)
    (rest : List Nat) (i : utf8_stream)
    (hkey : ∀ x ∈ key, x.wf) (hws : ∀ w ∈ ws, isspace4 w = true) (hX : X ≤ 0x10ffff)
    (hbad : X ≠ 0x5b ∧ X ≠ 0x7b ∧ X ≠ 0x22 ∧ X ≠ 0x74 ∧ X ≠ 0x66 ∧ X ≠ 0x6e ∧ X ≠ 0x2d
      ∧ ¬ (0x30 ≤ X ∧ X ≤ 0x39) ∧ isspace4 X = false)
    (hq : i.c = 0x22) (hpc : i.pc = NO_point)
    (hs : i.s = ⟨body_text key ++ 0x22 :: (ws ++ 0x3a :: (utf8 X ++ rest)), false⟩) :
    (utf8_stream.next^[body_count key + ws.length + 2] i).c = 0x3a
      ∧ (∀ (fuel : Nat) (o : List (List Nat × value)),
          object_loop (fuel + 2) o i
            = .error (.JSON_parse_error .unexpected_code_point (some X)
                (utf8_stream.next^[body_count key + ws.length + 2] i).line
                ((utf8_stream.next^[body_count key + ws.length + 2] i).col + 1)))
      ∧ (∀ i0 : utf8_stream, i0.next.skipspace = i →
          object.parse i0
            = .error (.JSON_parse_error .unexpected_code_point (some X)
                (utf8_stream.next^[body_count key + ws.length + 2] i).line
                ((utf8_stream.next^[body_count key + ws.length + 2] i).col + 1))) := by
  refine ⟨(object_loop_bad_value 0 [] key ws X rest i hkey hws hX hbad hq hpc hs).1,
    fun fuel o => (object_loop_bad_value fuel o key ws X rest i hkey hws hX hbad hq hpc hs).2,
    ?_⟩
  intro i0 h0
  unfold object.parse parse_fuel
  rw [h0]
  exact (object_loop_bad_value (2 * i0.s.bytes.length + 6) [] key ws X rest i hkey hws hX hbad
    hq hpc hs).2

theorem object_member_without_value_witness :
    object.parse (utf8_stream.open ⟨[0x7b, 0x22, 0x61, 0x22, 0x3a, 0x7d], false⟩)
      = .error (.JSON_parse_error .unexpected_code_point (some 0x7d) 0 5) := by
  have h := object_member_without_value [.cp 0x61] [] 0x7d []
    (utf8_stream.open ⟨[0x7b, 0x22, 0x61, 0x22, 0x3a, 0x7d], false⟩).next.skipspace
    (by simp [item.wf]) (by simp) (by decide) (by decide) (by decide) (by decide) (by decide)
  exact h.2.2 (utf8_stream.open ⟨[0x7b, 0x22, 0x61, 0x22, 0x3a, 0x7d], false⟩) rfl
/-! ## Rendering and reading back -/

theorem dec_digits_spec : ∀ (fuel n : Nat), n < fuel →
    dec_digits fuel n ≠ [] ∧ (∀ d ∈ dec_digits fuel n, d < 10)
      ∧ Nat.ofDigits 10 (dec_digits fuel n).reverse = n
      ∧ (0 < n → (dec_digits fuel n).head? ≠ some 0)
      ∧ (n = 0 → dec_digits fuel n = [0]) := by
  intro fuel
  induction fuel with
  | zero => intro n h; omega
  | succ f ih =>
    intro n h
    unfold dec_digits
    by_cases h10 : n < 10
    · simp only [h10, if_true]
      refine ⟨by simp, by simpa using h10, by simp, ?_, ?_⟩
      · intro hp; simp; omega
      · intro h0; simp [h0]
    · simp only [h10, if_false]
      obtain ⟨i1, i2, i3, i4, _⟩ := ih (n / 10) (by omega)
      refine ⟨by simp, ?_, ?_, ?_, ?_⟩
      · intro d hd
        rcases List.mem_append.1 hd with h | h
        · exact i2 d h
        · simp at h; omega
      · rw [List.reverse_append, List.reverse_singleton, List.singleton_append, Nat.ofDigits_cons,
          i3]
        omega
      · intro _
        have hpos : 0 < n / 10 := by omega
        have := i4 hpos
        cases hd : dec_digits f (n / 10) with
        | nil => exact absurd hd i1
        | cons a b =>
          rw [hd] at this
          simpa using this
      · intro h0; omega

theorem int_value_put (v : Int) :
    int_value (decide (v < 0)) (dec_digits (v.natAbs + 1) v.natAbs) = v := by
  have h := (dec_digits_spec (v.natAbs + 1) v.natAbs (by omega)).2.2.1
  unfold int_value
  simp only [h, decide_eq_true_eq]
  split_ifs <;> omega

theorem string_lt_asymm : ∀ (a b : List Nat), string_lt a b = true → string_lt b a = false := by
  intro a
  induction a with
  | nil => intro b h; cases b <;> simp [string_lt] at h ⊢
  | cons x xs ih =>
    intro b h
    cases b with
    | nil => simp [string_lt] at h
    | cons y ys =>
      simp only [string_lt, Bool.or_eq_true, decide_eq_true_eq, Bool.and_eq_true, beq_iff_eq] at h
      simp only [string_lt, Bool.or_eq_false_iff, decide_eq_false_iff_not, Bool.and_eq_false_imp,
        beq_iff_eq]
      rcases h with h | ⟨h1, h2⟩
      · exact ⟨by omega, by intro e; omega⟩
      · exact ⟨by omega, fun _ => ih ys h2⟩

theorem map_assign_append (o : List (List Nat × value)) (k : List Nat) (v : value)
    (h : ∀ e ∈ o, string_lt e.1 k = true) : map_assign o k v = o ++ [(k, v)] := by
  induction o with
  | nil => rfl
  | cons e t ih =>
    have he := h e (List.mem_cons_self _ _)
    have := string_lt_asymm _ _ he
    simp only [map_assign, this, Bool.false_eq_true, if_false, he, if_true, List.cons_append]
    rw [ih (fun x hx => h x (List.mem_cons_of_mem _ hx))]
theorem utf8_bytes_ge (c : Nat) (h : 0x80 ≤ c) : ∀ b ∈ utf8 c, 0x80 ≤ b := by
  intro b hb
  unfold utf8 at hb
  split_ifs at hb <;> simp at hb <;> omega

theorem escape_byte_ge (b : Nat) (h : 0x80 ≤ b) : escape_byte b = [b] := by
  unfold escape_byte
  split_ifs <;> first | omega | rfl

theorem flatMap_escape_high (l : List Nat) (h : ∀ b ∈ l, 0x80 ≤ b) :
    l.flatMap escape_byte = l := by
  induction l with
  | nil => rfl
  | cons b t ih =>
    rw [List.flatMap_cons, escape_byte_ge b (h b (List.mem_cons_self _ _)),
      ih (fun x hx => h x (List.mem_cons_of_mem _ hx))]
    rfl

theorem to_item_text (c : Nat) : (utf8 c).flatMap escape_byte = (to_item c).text := by
  by_cases h : c < 0x80
  · have e : utf8 c = [c] := by simp [utf8, h]
    rw [e, List.flatMap_singleton]
    unfold escape_byte to_item
    split_ifs <;> simp [item.text, e]
  · rw [flatMap_escape_high _ (utf8_bytes_ge c (by omega))]
    unfold to_item
    split_ifs <;> first | omega | rfl

theorem to_item_decoded (c : Nat) : (to_item c).decoded = utf8 c := by
  unfold to_item
  split_ifs with h1 h2 h3 h4 h5 h6 h7 h8 <;> simp [item.decoded, unescape, utf8, *]

theorem to_item_wf (c : Nat) (h : string_cp_ok c) : (to_item c).wf := by
  unfold to_item
  unfold string_cp_ok at h
  split_ifs <;> simp [item.wf] <;> omega

theorem render_string_utf8 (cps : List Nat) :
    render_string (cps.flatMap utf8) = 0x22 :: (body_text (cps.map to_item) ++ [0x22]) := by
  unfold render_string body_text
  rw [List.flatMap_assoc, List.flatMap_map]
  congr 2
  induction cps with
  | nil => rfl
  | cons c t ih => simp only [List.flatMap_cons, ih, to_item_text]

theorem body_decoded_to_item (cps : List Nat) :
    body_decoded (cps.map to_item) = cps.flatMap utf8 := by
  unfold body_decoded
  rw [List.flatMap_map]
  induction cps with
  | nil => rfl
  | cons c t ih => simp only [List.flatMap_cons, ih, to_item_decoded]

theorem key_text (cps : List Nat) : body_text (cps.map item.cp) = cps.flatMap utf8
    ∧ body_decoded (cps.map item.cp) = cps.flatMap utf8 := by
  unfold body_text body_decoded
  rw [List.flatMap_map, List.flatMap_map]
  exact ⟨rfl, rfl⟩
theorem int_text_head (neg : Bool) (ds : List Nat) (hne : ds ≠ []) (hd : ∀ d ∈ ds, d < 10) :
    ∃ b tl, int_text neg ds = b :: tl ∧ (b = 0x2d ∨ (0x30 ≤ b ∧ b ≤ 0x39)) := by
  obtain ⟨d0, dt, rfl⟩ : ∃ d0 dt, ds = d0 :: dt := by
    cases ds with
    | nil => exact absurd rfl hne
    | cons a b => exact ⟨a, b, rfl⟩
  have := hd d0 (List.mem_cons_self _ _)
  cases neg with
  | true => exact ⟨0x2d, _, rfl, Or.inl rfl⟩
  | false => exact ⟨d0 + 48, _, rfl, Or.inr (by omega)⟩

theorem render_head (fmt : List Nat → List Nat) (t : value) (h : plain t) :
    ∃ b tl, render fmt t = b :: tl ∧
      (b = 0x7b ∨ b = 0x22 ∨ b = 0x5b ∨ b = 0x74 ∨ b = 0x66 ∨ b = 0x6e ∨ b = 0x2d
        ∨ (0x30 ≤ b ∧ b ≤ 0x39)) := by
  cases h with
  | null => exact ⟨0x6e, _, rfl, by simp⟩
  | boolean b =>
    cases b
    · exact ⟨0x66, _, rfl, by simp⟩
    · exact ⟨0x74, _, rfl, by simp⟩
  | number v h1 h2 =>
    have hs := dec_digits_spec (v.natAbs + 1) v.natAbs (by omega)
    obtain ⟨b, tl, e, hb⟩ := int_text_head (decide (v < 0)) _ hs.1 hs.2.1
    refine ⟨b, tl, by simp [render, put_long, e], ?_⟩
    rcases hb with hb | hb
    · simp [hb]
    · simp [hb]
  | string cps hc => exact ⟨0x22, _, rfl, by simp⟩
  | array vs hv => exact ⟨0x5b, _, rfl, by simp⟩
  | object m hk hv hs => exact ⟨0x7b, _, rfl, by simp⟩

theorem reads_back_null (fmt : List Nat → List Nat) : reads_back fmt value.null := by
  intro fuel i rest hf hOn _
  obtain ⟨f, rfl⟩ : ∃ f, fuel = f + 1 := ⟨fuel - 1, by omega⟩
  have e : render fmt value.null = [0x6e, 0x75, 0x6c, 0x6c] := by simp [render]
  rw [e] at hOn
  simp only [List.cons_append, List.nil_append] at hOn
  obtain ⟨c0, h0⟩ := On_cons i _ _ (by decide) hOn
  obtain ⟨c1, h1⟩ := On_cons _ _ _ (by decide) h0
  obtain ⟨c2, h2⟩ := On_cons _ _ _ (by decide) h1
  obtain ⟨c3, _⟩ := On_cons _ _ _ (by decide) h2
  refine ⟨i.next.next.next, ?_, On_Ahead_next _ _ _ (by decide) h2⟩
  rw [value_loop]
  simp [c0, EOF_point, null.parse, c1, c2, c3]

theorem reads_back_boolean (fmt : List Nat → List Nat) (b : Bool) :
    reads_back fmt (value.boolean b) := by
  intro fuel i rest hf hOn _
  obtain ⟨f, rfl⟩ : ∃ f, fuel = f + 1 := ⟨fuel - 1, by omega⟩
  cases b with
  | true =>
    have e : render fmt (value.boolean true) = [0x74, 0x72, 0x75, 0x65] := by simp [render]
    rw [e] at hOn
    simp only [List.cons_append, List.nil_append] at hOn
    obtain ⟨c0, h0⟩ := On_cons i _ _ (by decide) hOn
    obtain ⟨c1, h1⟩ := On_cons _ _ _ (by decide) h0
    obtain ⟨c2, h2⟩ := On_cons _ _ _ (by decide) h1
    obtain ⟨c3, _⟩ := On_cons _ _ _ (by decide) h2
    refine ⟨i.next.next.next, ?_, On_Ahead_next _ _ _ (by decide) h2⟩
    rw [value_loop]
    simp [c0, EOF_point, boolean.parse, utf8_stream.get, c1, c2, c3]
  | false =>
    have e : render fmt (value.boolean false) = [0x66, 0x61, 0x6c, 0x73, 0x65] := by simp [render]
    rw [e] at hOn
    simp only [List.cons_append, List.nil_append] at hOn
    obtain ⟨c0, h0⟩ := On_cons i _ _ (by decide) hOn
    obtain ⟨c1, h1⟩ := On_cons _ _ _ (by decide) h0
    obtain ⟨c2, h2⟩ := On_cons _ _ _ (by decide) h1
    obtain ⟨c3, h3⟩ := On_cons _ _ _ (by decide) h2
    obtain ⟨c4, _⟩ := On_cons _ _ _ (by decide) h3
    refine ⟨i.next.next.next.next, ?_, On_Ahead_next _ _ _ (by decide) h3⟩
    rw [value_loop]
    simp [c0, EOF_point, boolean.parse, utf8_stream.get, c1, c2, c3, c4]

theorem reads_back_number (fmt : List Nat → List Nat) (v : Int) (h1 : LONG_MIN ≤ v)
    (h2 : v ≤ LONG_MAX) : reads_back fmt (value.number (.l v)) := by
  intro fuel i rest hf hOn hfol
  obtain ⟨f, rfl⟩ : ∃ f, fuel = f + 1 := ⟨fuel - 1, by omega⟩
  have hs := dec_digits_spec (v.natAbs + 1) v.natAbs (by omega)
  have e : render fmt (value.number (.l v))
      = int_text (decide (v < 0)) (dec_digits (v.natAbs + 1) v.natAbs) := by simp [render, put_long]
  rw [e] at hOn
  have hv := int_value_put v
  have hlead : (dec_digits (v.natAbs + 1) v.natAbs).head? = some 0
      → dec_digits (v.natAbs + 1) v.natAbs = [0] := by
    intro hh
    by_cases h0 : v.natAbs = 0
    · exact hs.2.2.2.2 h0
    · exact absurd hh (hs.2.2.2.1 (by omega))
  obtain ⟨i1, g1, _, _, _, g5⟩ := number_parse_int_run (decide (v < 0)) _ rest i hs.1 hs.2.1
    hlead (by rw [hv]; exact ⟨h1, h2⟩) hfol hOn.1 hOn.2
  rw [hv] at g1
  obtain ⟨b, tl, eb, hb⟩ := int_text_head (decide (v < 0)) _ hs.1 hs.2.1
  rw [eb, List.cons_append] at hOn
  have hc := (On_cons i b _ (by omega) hOn).1
  refine ⟨i1, ?_, Or.inr g5⟩
  rw [value_loop]
  have hX : ¬ b = EOF_point := by unfold EOF_point; omega
  have n1 : ¬ b = 0x5b := by omega
  have n2 : ¬ b = 0x7b := by omega
  have n3 : ¬ b = 0x22 := by omega
  have n4 : ¬ b = 0x74 := by omega
  have n5 : ¬ b = 0x66 := by omega
  have n6 : ¬ b = 0x6e := by omega
  have n7 : b = 0x2d ∨ (0x30 ≤ b ∧ b ≤ 0x39) := hb
  simp only [hc, hX, n1, n2, n3, n4, n5, n6, n7, if_false, if_true, g1]

theorem reads_back_string (fmt : List Nat → List Nat) (cps : List Nat)
    (hc : ∀ c ∈ cps, string_cp_ok c) : reads_back fmt (value.string (cps.flatMap utf8)) := by
  intro fuel i rest hf hOn _
  obtain ⟨f, rfl⟩ : ∃ f, fuel = f + 1 := ⟨fuel - 1, by omega⟩
  have e : render fmt (value.string (cps.flatMap utf8))
      = 0x22 :: (body_text (cps.map to_item) ++ [0x22]) := by
    simp only [render]; exact render_string_utf8 cps
  rw [e] at hOn
  simp only [List.cons_append, List.append_assoc, List.nil_append] at hOn
  have c0 := (On_cons i _ _ (by decide) hOn).1
  have hs := On_cons_s i _ _ (by decide) hOn
  have hwf : ∀ x ∈ cps.map to_item, x.wf := by
    intro x hx
    simp only [List.mem_map] at hx
    obtain ⟨c, hcm, rfl⟩ := hx
    exact to_item_wf c (hc c hcm)
  obtain ⟨k1, _, k3, k4⟩ := string_parse_run (cps.map to_item) rest i hwf c0 hOn.1 hs
  rw [body_decoded_to_item] at k1
  refine ⟨_, ?_, Or.inl ⟨k3, k4⟩⟩
  rw [value_loop]
  simp [c0, EOF_point, k1]
theorem nextskipspace_run (text : List Nat) (hstop : isspace4 (getcp ⟨text, false⟩).1 = false)
    (ws : List Nat) (hws : ∀ w ∈ ws, isspace4 w = true) (i : utf8_stream)
    (hA : Ahead i (ws ++ text)) : On i.nextskipspace text := by
  have := skipspace_run text hstop ws hws i.next (Ahead_next i _ hA)
  unfold utf8_stream.nextskipspace
  rw [this.1]
  exact this.2

theorem render_On (fmt : List Nat → List Nat) (t : value) (h : plain t) (X : List Nat) :
    isspace4 (getcp ⟨render fmt t ++ X, false⟩).1 = false
      ∧ ∀ i : utf8_stream, On i (render fmt t ++ X) →
          isspace4 i.c = false ∧ i.c ≠ 0x5d ∧ i.c ≠ 0x7d ∧ i.c ≠ EOF_point := by
  obtain ⟨b, tl, e, hb⟩ := render_head fmt t h
  have hb80 : b < 0x80 := by omega
  have hsp : isspace4 b = false := by
    simp only [isspace4, Bool.or_eq_false_iff, beq_eq_false_iff_ne, ne_eq]
    omega
  rw [e, List.cons_append]
  refine ⟨by rw [getcp_ascii b _ hb80]; exact hsp, ?_⟩
  intro i hOn
  have hc := (On_cons i b _ hb80 hOn).1
  rw [hc]
  refine ⟨hsp, by omega, by omega, by unfold EOF_point; omega⟩

theorem follow_ok_cons (b : Nat) (t : List Nat) (h1 : b < 0x80) (h2 : isdigit b = false)
    (h3 : b ≠ 0x2e) : follow_ok (b :: t) := by
  refine Or.inr ?_
  rw [getcp_ascii b t h1]
  exact ⟨h2, h3⟩

theorem array_loop_elems (fmt : List Nat → List Nat) (rest : List Nat) :
    ∀ (vs : List value), (∀ v ∈ vs, plain v ∧ reads_back fmt v) →
    ∀ (v0 : value), plain v0 → reads_back fmt v0 →
    ∀ (fuel : Nat) (a : List value) (i : utf8_stream),
      (render fmt v0).length + (render_elems fmt false vs).length + 2 ≤ fuel →
      On i (render fmt v0 ++ (render_elems fmt false vs ++ 0x20 :: 0x5d :: rest)) →
      ∃ i1 : utf8_stream, array_loop fuel a i = .ok (value.array (a ++ v0 :: vs), i1)
        ∧ i1.pc = NO_point ∧ i1.s = ⟨rest, false⟩ := by
  intro vs
  induction vs with
  | nil =>
    intro _ v0 hp0 hr0 fuel a i hf hOn
    obtain ⟨f, rfl⟩ : ∃ f, fuel = f + 1 := ⟨fuel - 1, by omega⟩
    simp only [render_elems, List.nil_append, List.length_nil, Nat.add_zero] at hf hOn
    obtain ⟨hst, hci⟩ := render_On fmt v0 hp0 (0x20 :: 0x5d :: rest)
    obtain ⟨c1, c2, c3, c4⟩ := hci i hOn
    obtain ⟨i1, g1, g2⟩ := hr0 f i (0x20 :: 0x5d :: rest) (by omega) hOn
      (follow_ok_cons _ _ (by decide) (by decide) (by decide))
    have hOn2 : On i1.nextskipspace (0x5d :: rest) :=
      nextskipspace_run (0x5d :: rest) (by rw [getcp_ascii _ _ (by decide)]; rfl) [0x20]
        (by simp [isspace4]) i1 g2
    obtain ⟨d1, _⟩ := On_cons _ _ _ (by decide) hOn2
    have hs := On_cons_s _ _ _ (by decide) hOn2
    obtain ⟨f2, rfl⟩ : ∃ f2, f = f2 + 1 := ⟨f - 1, by omega⟩
    refine ⟨i1.nextskipspace, ?_, hOn2.1, hs⟩
    rw [array_loop]
    simp only [c2, c4, ne_eq, not_false_eq_true, and_self, if_true, skipspace_id i c1, g1, d1,
      not_true_eq_false, and_false, if_false]
    rw [array_loop]
    simp [d1]
  | cons v1 vs ih =>
    intro hall v0 hp0 hr0 fuel a i hf hOn
    obtain ⟨f, rfl⟩ : ∃ f, fuel = f + 1 := ⟨fuel - 1, by omega⟩
    obtain ⟨hp1, hr1⟩ := hall v1 (List.mem_cons_self _ _)
    have e : render_elems fmt false (v1 :: vs)
        = 0x2c :: 0x20 :: (render fmt v1 ++ render_elems fmt false vs) := by
      simp [render_elems]
    rw [e] at hf hOn
    simp only [List.cons_append, List.append_assoc, List.length_cons, List.length_append] at hf hOn
    obtain ⟨hst, hci⟩ := render_On fmt v0 hp0
      (0x2c :: 0x20 :: (render fmt v1 ++ (render_elems fmt false vs ++ 0x20 :: 0x5d :: rest)))
    obtain ⟨c1, c2, c3, c4⟩ := hci i hOn
    obtain ⟨i1, g1, g2⟩ := hr0 f i _ (by omega) hOn
      (follow_ok_cons _ _ (by decide) (by decide) (by decide))
    have hOn2 : On i1.nextskipspace
        (0x2c :: 0x20 :: (render fmt v1 ++ (render_elems fmt false vs ++ 0x20 :: 0x5d :: rest))) :=
      nextskipspace_run _ (by rw [getcp_ascii _ _ (by decide)]; rfl) [] (by simp) i1 g2
    obtain ⟨d1, _⟩ := On_cons _ _ _ (by decide) hOn2
    have hA2 := On_Ahead_next _ _ _ (by decide) hOn2
    have hOn3 : On i1.nextskipspace.nextskipspace
        (render fmt v1 ++ (render_elems fmt false vs ++ 0x20 :: 0x5d :: rest)) :=
      nextskipspace_run _ (render_On fmt v1 hp1 _).1 [0x20] (by simp [isspace4]) _ hA2
    obtain ⟨i3, k1, k2, k3⟩ := ih (fun v hv => hall v (List.mem_cons_of_mem _ hv)) v1 hp1 hr1 f
      (a ++ [v0]) _ (by omega) hOn3
    refine ⟨i3, ?_, k2, k3⟩
    rw [array_loop]
    simp only [c2, c4, ne_eq, not_false_eq_true, and_self, if_true, skipspace_id i c1, g1, d1,
      not_true_eq_false, false_and, if_false, k1, List.append_assoc, List.singleton_append]
theorem object_loop_members (fmt : List Nat → List Nat) (rest : List Nat) :
    ∀ (ms : List (List Nat × value)),
      (∀ e ∈ ms, key_ok e.1 ∧ plain e.2 ∧ reads_back fmt e.2) →
    ∀ (k0 : List Nat) (v0 : value), key_ok k0 → plain v0 → reads_back fmt v0 →
    ∀ (fuel : Nat) (o : List (List Nat × value)) (i : utf8_stream),
      (o ++ (k0, v0) :: ms).Pairwise (fun a b => string_lt a.1 b.1 = true) →
      (render fmt v0).length + (render_members fmt false ms).length + 2 ≤ fuel →
      On i (0x22 :: (k0 ++ 0x22 :: 0x20 :: 0x3a :: 0x20 ::
        (render fmt v0 ++ (render_members fmt false ms ++ 0x20 :: 0x7d :: rest)))) →
      ∃ i1 : utf8_stream, object_loop fuel o i = .ok (value.object (o ++ (k0, v0) :: ms), i1)
        ∧ i1.pc = NO_point ∧ i1.s = ⟨rest, false⟩ := by
  intro ms
  induction ms with
  | nil =>
    intro _ k0 v0 hk0 hp0 hr0 fuel o i hpw hf hOn
    obtain ⟨f, rfl⟩ : ∃ f, fuel = f + 1 := ⟨fuel - 1, by omega⟩
    simp only [render_members, List.nil_append, List.length_nil, Nat.add_zero] at hf hOn
    obtain ⟨cps, rfl, hcps⟩ := hk0
    have q0 := (On_cons i _ _ (by decide) hOn).1
    have qs := On_cons_s i _ _ (by decide) hOn
    rw [← (key_text cps).1] at qs
    obtain ⟨s1, s2, s3, s4⟩ := string_parse_run (cps.map item.cp) _ i
      (by
        intro x hx
        simp only [List.mem_map] at hx
        obtain ⟨c, hc, rfl⟩ := hx
        exact hcps c hc) q0 hOn.1 qs
    rw [(key_text cps).2] at s1
    generalize utf8_stream.next^[body_count (cps.map item.cp) + 1] i = i1 at s1 s2 s3 s4
    have hOn2 : On i1.nextskipspace (0x3a :: 0x20 :: (render fmt v0 ++ 0x20 :: 0x7d :: rest)) :=
      nextskipspace_run _ (by rw [getcp_ascii _ _ (by decide)]; rfl) [0x20] (by simp [isspace4]) i1
        (Or.inl ⟨s3, s4⟩)
    obtain ⟨d2, _⟩ := On_cons _ _ _ (by decide) hOn2
    have hOn3 : On i1.nextskipspace.nextskipspace (render fmt v0 ++ 0x20 :: 0x7d :: rest) :=
      nextskipspace_run _ (render_On fmt v0 hp0 _).1 [0x20] (by simp [isspace4]) _
        (On_Ahead_next _ _ _ (by decide) hOn2)
    obtain ⟨i3, g1, g2⟩ := hr0 f _ (0x20 :: 0x7d :: rest) (by omega) hOn3
      (follow_ok_cons _ _ (by decide) (by decide) (by decide))
    have hOn4 : On i3.nextskipspace (0x7d :: rest) :=
      nextskipspace_run _ (by rw [getcp_ascii _ _ (by decide)]; rfl) [0x20] (by simp [isspace4]) i3 g2
    obtain ⟨d4, _⟩ := On_cons _ _ _ (by decide) hOn4
    have hs4 := On_cons_s _ _ _ (by decide) hOn4
    have hma : map_assign o (cps.flatMap utf8) v0 = o ++ [(cps.flatMap utf8, v0)] := by
      apply map_assign_append
      intro e he
      exact (List.pairwise_append.1 hpw).2.2 e he _ (List.mem_cons_self _ _)
    obtain ⟨f2, rfl⟩ : ∃ f2, f = f2 + 1 := ⟨f - 1, by omega⟩
    refine ⟨i3.nextskipspace, ?_, hOn4.1, hs4⟩
    have hns : i1.nextskipspace.next.skipspace = i1.nextskipspace.nextskipspace := rfl
    rw [object_loop]
    have a1 : (34 : Nat) ≠ 125 ∧ (34 : Nat) ≠ EOF_point := by decide
    simp only [q0, a1, ne_eq, not_false_eq_true, and_self, if_true, not_true_eq_false, if_false,
      s1, d2, hns, g1, d4, and_false, hma]
    rw [object_loop]
    simp [d4]
  | cons e1 ms ih =>
    intro hall k0 v0 hk0 hp0 hr0 fuel o i hpw hf hOn
    obtain ⟨f, rfl⟩ : ∃ f, fuel = f + 1 := ⟨fuel - 1, by omega⟩
    obtain ⟨k1, v1⟩ := e1
    obtain ⟨hk1, hp1, hr1⟩ := hall (k1, v1) (List.mem_cons_self _ _)
    have e : render_members fmt false ((k1, v1) :: ms)
        = 0x2c :: 0x20 :: 0x22 :: (k1 ++ 0x22 :: 0x20 :: 0x3a :: 0x20 ::
            (render fmt v1 ++ render_members fmt false ms)) := by
      simp [render_members]
    rw [e] at hf hOn
    simp only [List.cons_append, List.append_assoc, List.length_cons, List.length_append] at hf hOn
    obtain ⟨cps, rfl, hcps⟩ := hk0
    have q0 := (On_cons i _ _ (by decide) hOn).1
    have qs := On_cons_s i _ _ (by decide) hOn
    rw [← (key_text cps).1] at qs
    obtain ⟨s1, s2, s3, s4⟩ := string_parse_run (cps.map item.cp) _ i
      (by
        intro x hx
        simp only [List.mem_map] at hx
        obtain ⟨c, hc, rfl⟩ := hx
        exact hcps c hc) q0 hOn.1 qs
    rw [(key_text cps).2] at s1
    generalize utf8_stream.next^[body_count (cps.map item.cp) + 1] i = i1 at s1 s2 s3 s4
    have hOn2 := nextskipspace_run _ (by rw [getcp_ascii _ _ (by decide)]; rfl) [0x20]
      (by simp [isspace4]) i1 (Or.inl ⟨s3, s4⟩)
    obtain ⟨d2, _⟩ := On_cons _ _ _ (by decide) hOn2
    have hOn3 := nextskipspace_run _ (render_On fmt v0 hp0 _).1 [0x20] (by simp [isspace4]) _
        (On_Ahead_next _ _ _ (by decide) hOn2)
    obtain ⟨i3, g1, g2⟩ := hr0 f _ _ (by omega) hOn3
      (follow_ok_cons _ _ (by decide) (by decide) (by decide))
    have hOn4 := nextskipspace_run _ (by rw [getcp_ascii _ _ (by decide)]; rfl) []
      (by simp) i3 g2
    obtain ⟨d4, _⟩ := On_cons _ _ _ (by decide) hOn4
    have hOn5 := nextskipspace_run _ (by rw [getcp_ascii _ _ (by decide)]; rfl) [0x20]
      (by simp [isspace4]) _ (On_Ahead_next _ _ _ (by decide) hOn4)
    have hma : map_assign o (cps.flatMap utf8) v0 = o ++ [(cps.flatMap utf8, v0)] := by
      apply map_assign_append
      intro e he
      exact (List.pairwise_append.1 hpw).2.2 e he _ (List.mem_cons_self _ _)
    obtain ⟨i6, k1', k2', k3'⟩ := ih (fun e he => hall e (List.mem_cons_of_mem _ he)) k1 v1 hk1 hp1
      hr1 f (o ++ [(cps.flatMap utf8, v0)]) _ (by simpa using hpw) (by omega) hOn5
    refine ⟨i6, ?_, k2', k3'⟩
    have hns : i1.nextskipspace.next.skipspace = i1.nextskipspace.nextskipspace := rfl
    rw [object_loop]
    have a1 : (34 : Nat) ≠ 125 ∧ (34 : Nat) ≠ EOF_point := by decide
    simp only [q0, a1, ne_eq, not_false_eq_true, and_self, if_true, not_true_eq_false, if_false,
      s1, d2, hns, g1, d4, false_and, hma, k1', List.append_assoc, List.singleton_append]
theorem reads_back_plain (fmt : List Nat → List Nat) (t : value) (h : plain t) :
    reads_back fmt t := by
  induction h with
  | null => exact reads_back_null fmt
  | boolean b => exact reads_back_boolean fmt b
  | number v h1 h2 => exact reads_back_number fmt v h1 h2
  | string cps hc => exact reads_back_string fmt cps hc
  | array vs hv ih =>
    intro fuel i rest hf hOn _
    obtain ⟨f, rfl⟩ : ∃ f, fuel = f + 1 := ⟨fuel - 1, by omega⟩
    cases vs with
    | nil =>
      have e : render fmt (value.array []) = [0x5b, 0x20, 0x20, 0x5d] := by
        simp [render, render_elems]
      rw [e] at hf hOn
      simp only [List.cons_append, List.nil_append] at hOn
      have c0 := (On_cons i _ _ (by decide) hOn).1
      have hOn1 : On i.nextskipspace (0x5d :: rest) :=
        nextskipspace_run _ (by rw [getcp_ascii _ _ (by decide)]; rfl) [0x20, 0x20]
          (by simp [isspace4]) i (On_Ahead_next _ _ _ (by decide) hOn)
      have c1 := (On_cons _ _ _ (by decide) hOn1).1
      have hns : i.next.skipspace = i.nextskipspace := rfl
      obtain ⟨f2, rfl⟩ : ∃ f2, f = f2 + 1 := ⟨f - 1, by simp at hf; omega⟩
      refine ⟨i.nextskipspace, ?_, On_Ahead_next _ _ _ (by decide) hOn1⟩
      rw [value_loop]
      simp only [c0, EOF_point, hns]
      rw [array_loop]
      simp [c1]
    | cons v vs =>
      have e : render fmt (value.array (v :: vs))
          = 0x5b :: 0x20 :: (render fmt v ++ (render_elems fmt false vs ++ [0x20, 0x5d])) := by
        simp [render, render_elems]
      rw [e] at hf hOn
      simp only [List.cons_append, List.append_assoc, List.nil_append] at hOn
      have c0 := (On_cons i _ _ (by decide) hOn).1
      have hpv := hv v (List.mem_cons_self _ _)
      have hOn1 := nextskipspace_run _ (render_On fmt v hpv _).1 [0x20] (by simp [isspace4]) i
        (On_Ahead_next _ _ _ (by decide) hOn)
      obtain ⟨i1, g1, g2, g3⟩ := array_loop_elems fmt rest vs
        (fun x hx => ⟨hv x (List.mem_cons_of_mem _ hx), ih x (List.mem_cons_of_mem _ hx)⟩)
        v hpv (ih v (List.mem_cons_self _ _)) f [] i.nextskipspace
        (by simp at hf; omega) hOn1
      have hns : i.next.skipspace = i.nextskipspace := rfl
      refine ⟨i1, ?_, Or.inl ⟨g2, g3⟩⟩
      rw [value_loop]
      simp only [c0, EOF_point, hns]
      simpa using g1
  | object m hk hv hs ih =>
    intro fuel i rest hf hOn _
    obtain ⟨f, rfl⟩ : ∃ f, fuel = f + 1 := ⟨fuel - 1, by omega⟩
    cases m with
    | nil =>
      have e : render fmt (value.object []) = [0x7b, 0x20, 0x20, 0x7d] := by
        simp [render, render_members]
      rw [e] at hf hOn
      simp only [List.cons_append, List.nil_append] at hOn
      have c0 := (On_cons i _ _ (by decide) hOn).1
      have hOn1 : On i.nextskipspace (0x7d :: rest) :=
        nextskipspace_run _ (by rw [getcp_ascii _ _ (by decide)]; rfl) [0x20, 0x20]
          (by simp [isspace4]) i (On_Ahead_next _ _ _ (by decide) hOn)
      have c1 := (On_cons _ _ _ (by decide) hOn1).1
      have hns : i.next.skipspace = i.nextskipspace := rfl
      obtain ⟨f2, rfl⟩ : ∃ f2, f = f2 + 1 := ⟨f - 1, by simp at hf; omega⟩
      refine ⟨i.nextskipspace, ?_, On_Ahead_next _ _ _ (by decide) hOn1⟩
      rw [value_loop]
      simp only [c0, EOF_point, hns]
      rw [object_loop]
      simp [c1]
    | cons e0 ms =>
      obtain ⟨k0, v0⟩ := e0
      have e : render fmt (value.object ((k0, v0) :: ms))
          = 0x7b :: 0x20 :: 0x22 :: (k0 ++ 0x22 :: 0x20 :: 0x3a :: 0x20 ::
              (render fmt v0 ++ (render_members fmt false ms ++ [0x20, 0x7d]))) := by
        simp [render, render_members]
      rw [e] at hf hOn
      simp only [List.cons_append, List.append_assoc, List.nil_append] at hOn
      have c0 := (On_cons i _ _ (by decide) hOn).1
      have hOn1 := nextskipspace_run _ (by rw [getcp_ascii _ _ (by decide)]; rfl) [0x20]
        (by simp [isspace4]) i (On_Ahead_next _ _ _ (by decide) hOn)
      obtain ⟨i1, g1, g2, g3⟩ := object_loop_members fmt rest ms
        (fun x hx => ⟨hk x (List.mem_cons_of_mem _ hx), hv x (List.mem_cons_of_mem _ hx),
          ih x (List.mem_cons_of_mem _ hx)⟩)
        k0 v0 (hk _ (List.mem_cons_self _ _)) (hv _ (List.mem_cons_self _ _))
        (ih _ (List.mem_cons_self _ _)) f [] i.nextskipspace (by simpa using hs)
        (by simp at hf; omega) hOn1
      have hns : i.next.skipspace = i.nextskipspace := rfl
      refine ⟨i1, ?_, Or.inl ⟨g2, g3⟩⟩
      rw [value_loop]
      simp only [c0, EOF_point, hns]
      simpa using g1

theorem value_parse_render (fmt : List Nat → List Nat) (t : value) (h : plain t) :
    ∃ i1 : utf8_stream, value.parse (utf8_stream.open ⟨render fmt t, false⟩) = .ok (t, i1) := by
  have hOn := On_open (render fmt t)
  obtain ⟨b, tl, e, hb⟩ := render_head fmt t h
  have hsp := ((render_On fmt t h []).2 _ (by rw [List.append_nil]; exact hOn)).1
  have hs : (utf8_stream.open ⟨render fmt t, false⟩).s = ⟨tl, false⟩ := by
    have hOn' : On (utf8_stream.open ⟨render fmt t, false⟩) (b :: tl) := by
      rw [← e]; exact hOn
    exact On_cons_s _ b tl (by omega) hOn'
  obtain ⟨i1, g1, _⟩ := reads_back_plain fmt t h
    (parse_fuel (utf8_stream.open ⟨render fmt t, false⟩)) (utf8_stream.open ⟨render fmt t, false⟩) []
    (by unfold parse_fuel; rw [hs, e]; simp; omega)
    (by rw [List.append_nil]; exact hOn) (Or.inl rfl)
  refine ⟨i1, ?_⟩
  unfold value.parse
  rw [skipspace_id _ hsp]
  exact g1

/-- Bytes of a string that `operator<<` writes raw.  The string holding the
single code point U+0001 is written raw between quotes, and reading that text
back raises the unterminated-string error; the string holding the single byte
0xFF, which is no UTF-8 text, is written raw as well, and reading it back
decodes the byte together with the closing quote and raises the error of
`addu8`. -/
theorem render_raw_bytes_not_read_back :
    render id (value.string [0x01]) = [0x22, 0x01, 0x22]
      ∧ value.parse (utf8_stream.open ⟨render id (value.string [0x01]), false⟩)
        = .error (.JSON_parse_error .unterminated_string none 0 0)
      ∧ render id (value.string [0xff]) = [0x22, 0xff, 0x22]
      ∧ value.parse (utf8_stream.open ⟨render id (value.string [0xff]), false⟩)
        = .error .runtime_error := by
  exact ⟨rfl, rfl, rfl, rfl⟩

/-- Reading back what was written.  For every value tree built from object,
array, string, integer number, boolean and null in which every string is the
UTF-8 encoding of code points that are at least 0x20 or one of U+0008, U+0009,
U+000A, U+000C, U+000D, and every object key is the UTF-8 encoding of code
points at least 0x20 other than the quote and the backslash (`plain`), parsing
the text produced by rendering the tree succeeds and yields the tree itself,
hence a tree whose rendering is identical to the rendering of the original. -/
theorem render_parse_render (fmt : List Nat → List Nat) (t : value) (h : plain t) :
    ∃ (t1 : value) (i1 : utf8_stream),
      value.parse (utf8_stream.open ⟨render fmt t, false⟩) = .ok (t1, i1)
        ∧ t1 = t ∧ render fmt t1 = render fmt t := by
  obtain ⟨i1, h1⟩ := value_parse_render fmt t h
  exact ⟨t, i1, h1, rfl, rfl⟩

theorem render_parse_render_witness :
    plain (value.object [([0x61], value.array
        [value.number (.l (-12)), value.string [0x78, 0x0a], value.boolean true, value.null])])
      ∧ ∃ (t1 : value) (i1 : utf8_stream),
          value.parse (utf8_stream.open ⟨render id (value.object [([0x61], value.array
            [value.number (.l (-12)), value.string [0x78, 0x0a], value.boolean true,
              value.null])]), false⟩) = .ok (t1, i1)
          ∧ t1 = value.object [([0x61], value.array
            [value.number (.l (-12)), value.string [0x78, 0x0a], value.boolean true, value.null])]
          ∧ render id t1 = render id (value.object [([0x61], value.array
            [value.number (.l (-12)), value.string [0x78, 0x0a], value.boolean true,
              value.null])]) := by
  have hp : plain (value.object [([0x61], value.array
      [value.number (.l (-12)), value.string [0x78, 0x0a], value.boolean true, value.null])]) := by
    apply plain.object
    · intro e he
      simp only [List.mem_singleton] at he
      subst he
      exact ⟨[0x61], rfl, by simp [key_cp_ok]⟩
    · intro e he
      simp only [List.mem_singleton] at he
      subst he
      apply plain.array
      intro v hv
      simp only [List.mem_cons, List.mem_singleton, List.not_mem_nil, or_false] at hv
      rcases hv with rfl | rfl | rfl | rfl
      · exact plain.number _ (by decide) (by decide)
      · exact plain.string [0x78, 0x0a] (by simp [string_cp_ok])
      · exact plain.boolean true
      · exact plain.null
    · simp
  exact ⟨hp, render_parse_render id _ hp⟩
/-! ## Worked inputs

The inputs of the demonstration and of the end-to-end scenarios, evaluated. -/

theorem array_parse_empty :
    array.parse (utf8_stream.open ⟨[0x5b, 0x5d], false⟩)
      = .ok (value.array [],
          { s := ⟨[], false⟩, line := 0, col := 1, c := 0x5d, pc := NO_point,
            new_line := false }) := by
  rfl

theorem array_parse_1_2_3 :
    array.parse (utf8_stream.open ⟨[0x5b, 0x31, 0x2c, 0x32, 0x2c, 0x33, 0x5d], false⟩)
      = .ok (value.array [value.number (.l 1), value.number (.l 2), value.number (.l 3)],
          { s := ⟨[], false⟩, line := 0, col := 6, c := 0x5d, pc := NO_point,
            new_line := false }) := by
  rfl

theorem object_parse_empty :
    object.parse (utf8_stream.open ⟨[0x7b, 0x7d], false⟩)
      = .ok (value.object [],
          { s := ⟨[], false⟩, line := 0, col := 1, c := 0x7d, pc := NO_point,
            new_line := false }) := by
  rfl

theorem object_parse_a_1 :
    object.parse (utf8_stream.open ⟨[0x7b, 0x22, 0x61, 0x22, 0x3a, 0x31, 0x7d], false⟩)
      = .ok (value.object [([0x61], value.number (.l 1))],
          { s := ⟨[], false⟩, line := 0, col := 6, c := 0x7d, pc := NO_point,
            new_line := false }) := by
  rfl

theorem object_parse_duplicate_key :
    object.parse (utf8_stream.open
        ⟨[0x7b, 0x22, 0x62, 0x22, 0x3a, 0x31, 0x2c, 0x22, 0x61, 0x22, 0x3a, 0x32, 0x2c,
          0x22, 0x62, 0x22, 0x3a, 0x33, 0x7d], false⟩)
      = .ok (value.object [([0x61], value.number (.l 2)), ([0x62], value.number (.l 3))],
          { s := ⟨[], false⟩, line := 0, col := 18, c := 0x7d, pc := NO_point,
            new_line := false }) := by
  rfl

theorem number_parse_fraction_exponent :
    number.parse (utf8_stream.open
        ⟨[0x31, 0x32, 0x33, 0x2e, 0x34, 0x35, 0x65, 0x31, 0x35], false⟩)
      = .ok (value.number (.d [0x31, 0x32, 0x33, 0x2e, 0x34, 0x35, 0x65, 0x31, 0x35]),
          { s := ⟨[], true⟩, line := 0, col := 8, c := 0x35, pc := 0x1fffff,
            new_line := false }) := by
  rfl


theorem array_parse_trailing_comma :
    array.parse (utf8_stream.open ⟨[0x5b, 0x31, 0x2c, 0x32, 0x2c, 0x5d], false⟩)
      = .ok (value.array [value.number (.l 1), value.number (.l 2)],
          { s := ⟨[], false⟩, line := 0, col := 5, c := 0x5d, pc := NO_point,
            new_line := false })
    ∧ array.parse (utf8_stream.open ⟨[0x5b, 0x31, 0x2c, 0x32, 0x5d], false⟩)
      = .ok (value.array [value.number (.l 1), value.number (.l 2)],
          { s := ⟨[], false⟩, line := 0, col := 4, c := 0x5d, pc := NO_point,
            new_line := false }) := by
  exact ⟨rfl, rfl⟩

theorem object_parse_trailing_comma :
    object.parse (utf8_stream.open ⟨[0x7b, 0x22, 0x61, 0x22, 0x3a, 0x31, 0x2c, 0x7d], false⟩)
      = .ok (value.object [([0x61], value.number (.l 1))],
          { s := ⟨[], false⟩, line := 0, col := 7, c := 0x7d, pc := NO_point,
            new_line := false }) := by
  rfl

theorem array_parse_two_commas :
    array.parse (utf8_stream.open ⟨[0x5b, 0x31, 0x2c, 0x2c, 0x5d], false⟩)
      = .error (.JSON_parse_error .unexpected_code_point (some 0x2c) 0 3) := by
  rfl

theorem number_parse_missing_digit :
    number.parse (utf8_stream.open ⟨[0x2d], false⟩)
      = .error (.JSON_parse_error .digit_after_minus none 0 1)
    ∧ number.parse (utf8_stream.open ⟨[0x31, 0x2e], false⟩)
      = .error (.JSON_parse_error .digit_after_dot none 0 1)
    ∧ number.parse (utf8_stream.open ⟨[0x31, 0x2e, 0x35, 0x65], false⟩)
      = .error (.JSON_parse_error .digit_in_exponent none 0 3)
    ∧ number.parse (utf8_stream.open ⟨[0x31, 0x2e, 0x35, 0x65, 0x2b], false⟩)
      = .error (.JSON_parse_error .digit_in_exponent none 0 4) := by
  exact ⟨rfl, rfl, rfl, rfl⟩

theorem string_parse_unterminated_positions :
    string.parse
        { s := ⟨[], true⟩, line := 2, col := 4, c := 0x22, pc := NO_point, new_line := false }
      = .error (.JSON_parse_error .unterminated_string none 2 4)
    ∧ string.parse (utf8_stream.open ⟨[0x22, 0x61, 0x01], false⟩)
      = .error (.JSON_parse_error .unterminated_string none 0 0)
    ∧ value.parse (utf8_stream.open ⟨[0x5b], false⟩)
      = .error (.JSON_parse_error .unexpected_code_point (some 0x1fffff) 0 1)
    ∧ value.parse (utf8_stream.open ⟨[0x5b, 0x31, 0x2c], false⟩)
      = .error (.JSON_parse_error .unexpected_code_point (some 0x1fffff) 0 3)
    ∧ value.parse (utf8_stream.open ⟨[0x5b, 0x31], false⟩)
      = .error (.JSON_parse_error .expected_comma_or_bracket none 0 2) := by
  exact ⟨rfl, rfl, rfl, rfl, rfl⟩

/-! ## Errors at the end of the input -/

theorem array_loop_eof (fuel : Nat) (a : List value) (j : utf8_stream) (h : j.c = EOF_point) :
    array_loop (fuel + 1) a j
      = .error (.JSON_parse_error .unterminated_array none j.line j.col) := by
  rw [array_loop]
  simp [h, EOF_point]

theorem object_loop_eof (fuel : Nat) (o : List (List Nat × value)) (j : utf8_stream)
    (h : j.c = EOF_point) :
    object_loop (fuel + 1) o j
      = .error (.JSON_parse_error .unterminated_object none j.line j.col) := by
  rw [object_loop]
  simp [h, EOF_point]

theorem next_position (i : utf8_stream) :
    (i.next.line = i.line + 1 ∧ i.next.col = 0)
      ∨ (i.next.line = i.line ∧ i.next.col = i.col + 1) := by
  unfold utf8_stream.next
  dsimp only
  split_ifs <;> simp

theorem next_position_ne (i : utf8_stream) : (i.next.line, i.next.col) ≠ (i.line, i.col) := by
  intro h
  have h1 := congrArg Prod.fst h
  have h2 := congrArg Prod.snd h
  simp only at h1 h2
  rcases next_position i with ⟨a, _⟩ | ⟨_, b⟩ <;> omega

theorem skipspace_eof (j : utf8_stream) (h : j.c = EOF_point) : j.skipspace = j :=
  skipspace_id j (by rw [h]; decide)

/-! ## Calls on the stream and the position it reports -/

theorem peek_pc_le (i : utf8_stream) : i.peek.pc ≤ EOF_point := by
  by_cases h : i.pc ≤ EOF_point
  · simp [utf8_stream.peek, h]
  · have hle := getcp_le i.s
    simp [utf8_stream.peek, h, hle]

theorem next_pc (i : utf8_stream) : i.next.pc = NO_point := by
  unfold utf8_stream.next
  dsimp only
  split_ifs <;> simp_all

theorem peek_fields (i : utf8_stream) :
    i.peek.c = i.c ∧ i.peek.line = i.line ∧ i.peek.col = i.col
      ∧ i.peek.new_line = i.new_line := by
  unfold utf8_stream.peek
  split_ifs <;> simp

theorem peek_next_c (i : utf8_stream) : i.peek.next.c = i.peek.pc := by
  have h := peek_pc_le i
  have hne : i.peek.pc ≠ NO_point := by
    unfold EOF_point at h; unfold NO_point; omega
  simp [utf8_stream.next, hne]

theorem peek_next_le (i : utf8_stream) (h : i.pc ≤ NO_point) : i.peek.next = i.next := by
  by_cases h1 : i.pc ≤ EOF_point
  · simp [utf8_stream.peek, h1]
  · have h2 : i.pc = NO_point := by
      unfold EOF_point at h1; unfold NO_point at h ⊢; omega
    exact peek_next i h2

theorem iterate_next_peek (i : utf8_stream) (h : i.pc ≤ NO_point) (m : Nat) :
    utf8_stream.next^[m + 1] i.peek = utf8_stream.next^[m + 1] i := by
  rw [Function.iterate_succ_apply, Function.iterate_succ_apply, peek_next_le i h]

theorem run_calls_trace : ∀ (cs : List call) (i : utf8_stream), i.pc ≤ NO_point →
    (run_calls cs i).1
        = (List.range (advances cs)).map (fun m => (utf8_stream.next^[m + 1] i).c)
      ∧ ((run_calls cs i).2 = utf8_stream.next^[advances cs] i
          ∨ (run_calls cs i).2 = (utf8_stream.next^[advances cs] i).peek) := by
  intro cs
  induction cs with
  | nil => intro i _; simp [run_calls, advances]
  | cons x cs ih =>
    intro i h
    cases x with
    | next =>
      have hn : (i.next).pc ≤ NO_point := by rw [next_pc i]
      obtain ⟨h1, h2⟩ := ih i.next hn
      have ea : advances (call.next :: cs) = advances cs + 1 := by simp [advances]
      rw [ea]
      constructor
      · simp only [run_calls, h1, List.range_succ_eq_map, List.map_cons, List.map_map]
        simp only [Function.iterate_succ_apply, Function.iterate_zero, id_eq]
        rfl
      · simp only [run_calls, Function.iterate_succ_apply]
        exact h2
    | peek =>
      have hp : (i.peek).pc ≤ NO_point := by
        have := peek_pc_le i
        unfold EOF_point at this; unfold NO_point; omega
      obtain ⟨h1, h2⟩ := ih i.peek hp
      have ea : advances (call.peek :: cs) = advances cs := by simp [advances]
      rw [ea]
      constructor
      · simp only [run_calls, h1]
        apply List.map_congr_left
        intro m _
        simp only [iterate_next_peek i h m]
      · simp only [run_calls]
        cases hk : advances cs with
        | zero =>
          rw [hk] at h2
          simp only [Function.iterate_zero, id_eq] at h2 ⊢
          rcases h2 with h2 | h2
          · exact Or.inr h2
          · rw [peek_idem] at h2; exact Or.inr h2
        | succ k =>
          rw [hk, iterate_next_peek i h k] at h2
          exact h2

theorem code_points_snoc : ∀ (n : Nat) (s : istream),
    code_points (n + 1) s
      = code_points n s ++ [(getcp ((fun t : istream => (getcp t).2)^[n + 1] s)).1] := by
  intro n
  induction n with
  | zero => intro s; simp [code_points]
  | succ n ih =>
    intro s
    rw [code_points, ih (getcp s).2]
    simp only [code_points, List.cons_append, Function.iterate_succ_apply]

theorem neighbours_snoc : ∀ (l : List Nat) (x y : Nat),
    neighbours ((l ++ [x]) ++ [y]) = neighbours (l ++ [x]) ++ [(x, y)] := by
  intro l
  induction l with
  | nil => intro x y; simp [neighbours]
  | cons a t ih =>
    intro x y
    cases t with
    | nil => simp [neighbours]
    | cons b t2 =>
      have := ih x y
      simp only [List.cons_append] at this ⊢
      show (a, b) :: neighbours (b :: (t2 ++ [x] ++ [y]))
        = (a, b) :: neighbours (b :: (t2 ++ [x])) ++ [(x, y)]
      rw [this]
      rfl

theorem line_of_snoc (l : List Nat) (x y : Nat) :
    line_of ((l ++ [x]) ++ [y])
      = if break_ends (x, y) = true then line_of (l ++ [x]) + 1 else line_of (l ++ [x]) := by
  unfold line_of
  rw [neighbours_snoc, List.countP_append]
  by_cases h : break_ends (x, y) = true <;> simp [h]

theorem col_of_snoc (l : List Nat) (x y : Nat) :
    col_of ((l ++ [x]) ++ [y])
      = if break_ends (x, y) = true then 0 else col_of (l ++ [x]) + 1 := by
  unfold col_of
  rw [neighbours_snoc, List.reverse_append]
  by_cases h : break_ends (x, y) = true <;> simp [List.takeWhile, h]

theorem next_iterate_position (si : istream) : ∀ n : Nat,
    (utf8_stream.next^[n] (utf8_stream.open si)).pc = NO_point
      ∧ (utf8_stream.next^[n] (utf8_stream.open si)).new_line
          = islineend (utf8_stream.next^[n] (utf8_stream.open si)).c
      ∧ (utf8_stream.next^[n] (utf8_stream.open si)).s
          = (fun t : istream => (getcp t).2)^[n + 1] si
      ∧ ∃ l : List Nat,
          code_points n si = l ++ [(utf8_stream.next^[n] (utf8_stream.open si)).c]
          ∧ (utf8_stream.next^[n] (utf8_stream.open si)).line = line_of (code_points n si)
          ∧ (utf8_stream.next^[n] (utf8_stream.open si)).col = col_of (code_points n si) := by
  intro n
  induction n with
  | zero =>
    refine ⟨rfl, rfl, rfl, [], ?_, ?_, ?_⟩ <;>
      simp [code_points, utf8_stream.open, line_of, col_of, neighbours]
  | succ n ih =>
    obtain ⟨h1, h2, h3, l, h4, h5, h6⟩ := ih
    rw [Function.iterate_succ_apply']
    generalize utf8_stream.next^[n] (utf8_stream.open si) = J at h1 h2 h3 h4 h5 h6 ⊢
    have hc : J.next.c = (getcp J.s).1 := by simp [utf8_stream.next, h1]
    have hs : J.next.s = (getcp J.s).2 := by simp [utf8_stream.next, h1]
    have hcp : code_points (n + 1) si = (l ++ [J.c]) ++ [J.next.c] := by
      rw [code_points_snoc, h4, hc, h3]
    have hb : break_ends (J.c, J.next.c)
        = (J.new_line || (J.c == 13 && J.next.c != 10)) := by
      rw [h2]; rfl
    refine ⟨(next_of_pc J h1).1, next_new_line J, ?_, l ++ [J.c], hcp, ?_, ?_⟩
    · rw [hs, h3, Function.iterate_succ_apply' _ (n + 1)]
    · rw [hcp, line_of_snoc, ← h4, ← h5, hb, hc]
      simp [utf8_stream.next, h1]
    · rw [hcp, col_of_snoc, ← h4, ← h6, hb, hc]
      simp [utf8_stream.next, h1]

theorem position_examples :
    (line_of [0x61, 0x0d, 0x0a] = 0 ∧ col_of [0x61, 0x0d, 0x0a] = 2)
      ∧ (line_of [0x61, 0x0d, 0x0a, 0x62] = 1 ∧ col_of [0x61, 0x0d, 0x0a, 0x62] = 0)
      ∧ (line_of [0x61, 0x0d, 0x62] = 1 ∧ col_of [0x61, 0x0d, 0x62] = 0)
      ∧ (line_of [0x0a, 0x0d, 0x0a, 0x62, 0x63] = 2 ∧ col_of [0x0a, 0x0d, 0x0a, 0x62, 0x63] = 1)
      ∧ (line_of [0x0d, 0x0d, 0x0a, 0x0a] = 2 ∧ col_of [0x0d, 0x0d, 0x0a, 0x0a] = 0)
      ∧ (run_calls [call.next, call.peek, call.next, call.next, call.peek]
            (utf8_stream.open ⟨[0x61, 0x0d, 0x0a, 0x62], false⟩)).2.line = 1
      ∧ (run_calls [call.next, call.peek, call.next, call.next, call.peek]
            (utf8_stream.open ⟨[0x61, 0x0d, 0x0a, 0x62], false⟩)).2.col = 0 := by
  decide

/-! ## Termination: the fuel of the loops suffices -/

theorem get_units_le (s : istream) : s.get.2.units ≤ s.units := by
  rcases s with ⟨bytes, failed⟩
  cases failed with
  | true => simp [istream.get, istream.units]
  | false =>
    cases bytes with
    | nil => simp [istream.get, istream.units]
    | cons b r => simp [istream.get, istream.units]

theorem get_units_lt (s : istream) (h : s.failed = false) : s.get.2.units < s.units := by
  rcases s with ⟨bytes, failed⟩
  simp only at h
  subst h
  cases bytes with
  | nil => simp [istream.get, istream.units]
  | cons b r => simp [istream.get, istream.units]

theorem getcp_units_lt (s : istream) (h : s.failed = false) : (getcp s).2.units < s.units := by
  have h1 := get_units_lt s h
  have h2 := get_units_le s.get.2
  have h3 := get_units_le s.get.2.get.2
  have h4 := get_units_le s.get.2.get.2.get.2
  rcases getcp_src_live s (by simpa [istream.not_good_or_eof] using h) with e | e | e | e <;>
    rw [e] <;> omega

theorem getcp_units_le (s : istream) : (getcp s).2.units ≤ s.units := by
  cases h : s.failed with
  | false => exact Nat.le_of_lt (getcp_units_lt s h)
  | true =>
    have : s = ⟨s.bytes, true⟩ := by rw [← h]
    rw [this, getcp_failed]

theorem getcp_of_failed (s : istream) (h : s.failed = true) : (getcp s).1 = EOF_point := by
  have : s = ⟨s.bytes, true⟩ := by rw [← h]
  rw [this, getcp_failed]

theorem next_units (i : utf8_stream) :
    i.next.units ≤ i.units ∧ (i.next.units < i.units ∨ i.next.c = EOF_point) := by
  by_cases hpc : i.pc = NO_point
  · have e := next_of_pc i hpc
    have ec : i.next.c = (getcp i.s).1 := by simp [utf8_stream.next, hpc]
    have es : i.next.s = (getcp i.s).2 := by simp [utf8_stream.next, hpc]
    have hle := getcp_units_le i.s
    simp only [utf8_stream.units, e.1, es, hpc, true_or, if_true, Nat.add_zero]
    refine ⟨hle, ?_⟩
    cases hf : i.s.failed with
    | false => exact Or.inl (getcp_units_lt i.s hf)
    | true => exact Or.inr (by rw [ec]; exact getcp_of_failed i.s hf)
  · have ec : i.next.c = i.pc := by simp [utf8_stream.next, hpc]
    have es : i.next.s = i.s := by simp [utf8_stream.next, hpc]
    have ep : i.next.pc = NO_point := by simp [utf8_stream.next, hpc]
    simp only [utf8_stream.units, ep, es, true_or, if_true, Nat.add_zero, hpc, false_or]
    by_cases hE : i.pc = EOF_point
    · simp [hE, ec]
    · simp [hE]

theorem peek_units (i : utf8_stream) : i.peek.units ≤ i.units := by
  by_cases h : i.pc ≤ EOF_point
  · simp [utf8_stream.peek, h]
  · have hE : i.pc ≠ EOF_point := fun e => h (by rw [e])
    simp only [utf8_stream.peek, h, if_false, utf8_stream.units, hE, or_false]
    cases hf : i.s.failed with
    | false =>
      have := getcp_units_lt i.s hf
      split_ifs <;> omega
    | true =>
      have e1 := getcp_of_failed i.s hf
      have e2 := getcp_units_le i.s
      simp only [e1, or_true, if_true]
      omega

theorem skipspace_loop_units : ∀ (fuel : Nat) (i : utf8_stream),
    (skipspace_loop fuel i).units ≤ i.units := by
  intro fuel
  induction fuel with
  | zero => intro i; exact Nat.le_refl _
  | succ f ih =>
    intro i
    rw [skipspace_loop]
    split_ifs
    · exact Nat.le_trans (ih i.next) (next_units i).1
    · exact Nat.le_refl _

theorem skipspace_units (i : utf8_stream) : i.skipspace.units ≤ i.units :=
  skipspace_loop_units _ i

theorem nextskipspace_units (i : utf8_stream) :
    i.nextskipspace.units ≤ i.units
      ∧ (i.nextskipspace.units < i.units ∨ i.nextskipspace.c = EOF_point) := by
  have h1 := next_units i
  have h2 := skipspace_units i.next
  unfold utf8_stream.nextskipspace
  refine ⟨Nat.le_trans h2 h1.1, ?_⟩
  rcases h1.2 with h | h
  · exact Or.inl (Nat.lt_of_le_of_lt h2 h)
  · rw [skipspace_eof _ h]; exact Or.inr h

theorem units_le_bytes (i : utf8_stream) : i.units ≤ i.s.bytes.length + 2 := by
  unfold utf8_stream.units istream.units
  split_ifs <;> omega

theorem returns_on_error {α : Type} (i : utf8_stream) (e : exn) (h : e ≠ .out_of_fuel) :
    returns_on i (.error e : Except exn (α × utf8_stream)) := by
  refine ⟨?_, ?_⟩
  · intro he; injection he with he; exact h he
  · intro v j hj; cases hj

theorem returns_on_ok {α : Type} (i j : utf8_stream) (v : α) (h : j.units ≤ i.units) :
    returns_on i (.ok (v, j) : Except exn (α × utf8_stream)) := by
  refine ⟨?_, ?_⟩
  · intro he; cases he
  · intro w k hk
    injection hk with hk
    injection hk with _ hk
    rw [← hk]; exact h

theorem returns_on_mono {α : Type} (i j : utf8_stream) (r : Except exn (α × utf8_stream))
    (h : returns_on j r) (hle : j.units ≤ i.units) : returns_on i r :=
  ⟨h.1, fun v k hk => Nat.le_trans (h.2 v k hk) hle⟩

theorem returns_on_pass {α β : Type} (i j : utf8_stream) (e : exn)
    (h : returns_on j (.error e : Except exn (β × utf8_stream))) :
    returns_on i (.error e : Except exn (α × utf8_stream)) :=
  returns_on_error i e (fun he => h.1 (by rw [he]))

theorem gethex_returns : ∀ (n v : Nat) (i : utf8_stream), returns_on i (gethex n v i) := by
  intro n
  induction n with
  | zero => intro v i; exact returns_on_ok i i v (Nat.le_refl _)
  | succ n ih =>
    intro v i
    rw [gethex]
    dsimp only
    by_cases hc : i.get < 0x80 ∧ isxdigit i.get = true
    · rw [if_pos hc]
      exact returns_on_mono i i.next _ (ih _ i.next) (next_units i).1
    · rw [if_neg hc]
      exact returns_on_error i _ (by simp)

theorem addu8_error (s : List Nat) (c : Nat) (e : exn) (h : addu8 s c = .error e) :
    e ≠ .out_of_fuel := by
  unfold addu8 at h
  split_ifs at h
  injection h with h
  rw [← h]
  simp

theorem u8str_error (c : Nat) (e : exn) (h : u8str c = .error e) : e ≠ .out_of_fuel := by
  unfold u8str at h
  cases ha : addu8 [] c with
  | error e1 =>
    rw [ha] at h
    injection h with h
    rw [← h]
    exact addu8_error [] c e1 ha
  | ok s1 =>
    rw [ha] at h
    cases h

theorem string_loop_returns : ∀ (fuel : Nat) (s : List Nat) (j : utf8_stream),
    enough 1 2 fuel j → returns_on j (string_loop fuel s j) := by
  intro fuel
  induction fuel with
  | zero =>
    intro s j h
    rcases h with ⟨_, h⟩ | h <;> omega
  | succ f ih =>
    intro s j h
    rw [string_loop]
    dsimp only
    by_cases hc : j.c ≠ 0x22 ∧ j.c ≠ EOF_point ∧ j.c ≥ 0x1f
    · rw [if_pos hc]
      have hu : j.units + 1 ≤ f := by
        rcases h with ⟨h, _⟩ | h
        · exact absurd h hc.2.1
        · omega
      have rec : ∀ (s1 : List Nat) (X : utf8_stream), X.units ≤ j.units →
          returns_on j (string_loop f s1 X.next) := by
        intro s1 X hX
        have hn := next_units X
        refine returns_on_mono j X.next _ (ih s1 X.next ?_) (Nat.le_trans hn.1 hX)
        rcases hn.2 with h1 | h1
        · right; omega
        · left; exact ⟨h1, by omega⟩
      have h1 := (next_units j).1
      have hex : ∀ (n : Nat), returns_on j
          (match gethex n 0 j.next.next with
            | .error e => .error e
            | .ok (v, i2) =>
              match addu8 s v with
              | .error e => .error e
              | .ok s1 => string_loop f s1 i2.next) := by
        intro n
        have hg := gethex_returns n 0 j.next.next
        cases hr : gethex n 0 j.next.next with
        | error e =>
          rw [hr] at hg
          exact returns_on_pass j _ e hg
        | ok r =>
          obtain ⟨v, i2⟩ := r
          rw [hr] at hg
          have h2 := hg.2 v i2 rfl
          have h3 := (next_units j.next).1
          dsimp only
          cases ha : addu8 s v with
          | error e => exact returns_on_error j e (addu8_error s v e ha)
          | ok s1 => exact rec s1 i2 (by omega)
      split_ifs
      · exact rec _ _ h1
      · exact rec _ _ h1
      · exact rec _ _ h1
      · exact rec _ _ h1
      · exact rec _ _ h1
      · exact rec _ _ h1
      · exact hex 4
      · exact hex 6
      · cases ha : u8str j.next.c with
        | error e => exact returns_on_error j e (u8str_error _ e ha)
        | ok s1 => exact returns_on_error j _ (by simp)
      · cases ha : addu8 s j.c with
        | error e => exact returns_on_error j e (addu8_error s _ e ha)
        | ok s1 => exact rec s1 j (Nat.le_refl _)
    · rw [if_neg hc]
      exact returns_on_ok j j s (Nat.le_refl _)

theorem string_parse_returns (i : utf8_stream) : returns_on i (string.parse i) := by
  unfold string.parse
  dsimp only
  have hn := next_units i
  have hb := units_le_bytes i
  have hr := string_loop_returns (i.s.bytes.length + 3) [] i.next (by
    rcases hn.2 with h | h
    · right; omega
    · left; exact ⟨h, by omega⟩)
  cases hs : string_loop (i.s.bytes.length + 3) [] i.next with
  | error e =>
    rw [hs] at hr
    exact returns_on_pass i _ e hr
  | ok r =>
    obtain ⟨s, i1⟩ := r
    rw [hs] at hr
    have := hr.2 s i1 rfl
    dsimp only
    split_ifs
    · exact returns_on_error i _ (by simp)
    · exact returns_on_ok i i1 _ (by omega)

theorem boolean_parse_returns (i : utf8_stream) : returns_on i (boolean.parse i) := by
  unfold boolean.parse
  dsimp only
  have h1 := (next_units i).1
  have h2 := (next_units i.next).1
  have h3 := (next_units i.next.next).1
  have h4 := (next_units i.next.next.next).1
  split_ifs <;>
    first
    | exact returns_on_error i _ (by simp)
    | exact returns_on_ok i _ _ (by omega)

theorem null_parse_returns (i : utf8_stream) : returns_on i (null.parse i) := by
  unfold null.parse
  dsimp only
  have h1 := (next_units i).1
  have h2 := (next_units i.next).1
  have h3 := (next_units i.next.next).1
  split_ifs <;>
    first
    | exact returns_on_error i _ (by simp)
    | exact returns_on_ok i _ _ (by omega)

theorem digits_loop_returns : ∀ (fuel : Nat) (s : List Nat) (i : utf8_stream),
    i.units + 1 ≤ fuel → returns_on i (digits_loop fuel s i) := by
  intro fuel
  induction fuel with
  | zero => intro s i h; omega
  | succ f ih =>
    intro s i h
    rw [digits_loop]
    have hp := peek_units i
    by_cases hd : i.peek.pc < 0x7f ∧ isdigit i.peek.pc = true
    · rw [if_pos hd]
      have hn := next_units i.peek
      have hc : i.peek.next.c ≠ EOF_point := by
        rw [peek_next_c]; unfold EOF_point; omega
      have hlt : i.peek.next.units < i.peek.units := by
        rcases hn.2 with h1 | h1
        · exact h1
        · exact absurd h1 hc
      exact returns_on_mono i i.peek.next _ (ih _ i.peek.next (by omega)) (by omega)
    · rw [if_neg hd]
      exact returns_on_ok i i.peek s hp

theorem next_units_lt (i : utf8_stream) (h : i.pc < 0x7f) : i.next.units < i.units := by
  have hne : i.pc ≠ NO_point := by unfold NO_point; omega
  have hc : i.next.c = i.pc := by simp [utf8_stream.next, hne]
  rcases (next_units i).2 with h1 | h1
  · exact h1
  · rw [hc] at h1; unfold EOF_point at h1; omega

theorem exponent_loop_returns : ∀ (fuel : Nat) (s : List Nat) (i : utf8_stream),
    i.units + 1 ≤ fuel → returns_on i (exponent_loop fuel s i) := by
  intro fuel
  induction fuel with
  | zero => intro s i h; omega
  | succ f ih =>
    intro s i h
    rw [exponent_loop]
    by_cases hd : i.pc < 0x7f ∧ isdigit i.pc = true
    · rw [if_pos hd]
      have hn := next_units_lt i hd.1
      have hp := peek_units i.next
      exact returns_on_mono i i.next.peek _ (ih _ i.next.peek (by omega)) (by omega)
    · rw [if_neg hd]
      exact returns_on_ok i i s (Nat.le_refl _)

theorem number_parse_digits_returns (fuel : Nat) (s0 : List Nat) (i1 : utf8_stream)
    (h : i1.units + 1 ≤ fuel) : returns_on i1 (number_parse_digits fuel s0 i1) := by
  unfold number_parse_digits
  dsimp only
  have hr1 : returns_on i1
      (if i1.c ≠ 0x30 then digits_loop fuel (s0 ++ [i1.c % 256]) i1
        else .ok (s0 ++ [i1.c % 256], i1.peek)) := by
    split_ifs
    · exact digits_loop_returns fuel _ i1 h
    · exact returns_on_ok i1 i1.peek _ (peek_units i1)
  split
  · rename_i e he
    rw [he] at hr1
    exact returns_on_pass i1 _ e hr1
  · rename_i s2 i2 he
    rw [he] at hr1
    have h2 := hr1.2 s2 i2 rfl
    have h3 := (next_units i2).1
    have h3p := peek_units i2.next
    split_ifs
    · exact returns_on_error i1 _ (by simp)
    · have hr4 := digits_loop_returns fuel (s2 ++ [0x2e]) i2.next.peek (by omega)
      split
      · rename_i e he4
        rw [he4] at hr4
        exact returns_on_pass i1 _ e hr4
      · rename_i s4 i4 he4
        rw [he4] at hr4
        have h4 := hr4.2 s4 i4 rfl
        have h5 := (next_units i4).1
        have h5p := peek_units i4.next
        have h6 := (next_units i4.next.peek).1
        have h6p := peek_units i4.next.peek.next
        split_ifs
        · exact returns_on_error i1 _ (by simp)
        · have hr7 := exponent_loop_returns fuel
            (s4 ++ [i4.next.c % 256] ++ [i4.next.peek.next.c % 256]) i4.next.peek.next.peek
            (by omega)
          split
          · rename_i e he7
            rw [he7] at hr7
            exact returns_on_pass i1 _ e hr7
          · rename_i s7 i7 he7
            rw [he7] at hr7
            have h7 := hr7.2 s7 i7 rfl
            exact returns_on_ok i1 i7 _ (by omega)
        · exact returns_on_error i1 _ (by simp)
        · have hr7 := exponent_loop_returns fuel (s4 ++ [i4.next.c % 256]) i4.next.peek
            (by omega)
          split
          · rename_i e he7
            rw [he7] at hr7
            exact returns_on_pass i1 _ e hr7
          · rename_i s7 i7 he7
            rw [he7] at hr7
            have h7 := hr7.2 s7 i7 rfl
            exact returns_on_ok i1 i7 _ (by omega)
        · exact returns_on_ok i1 i4 _ (by omega)
    · exact returns_on_ok i1 i2 _ h2

theorem number_parse_returns (i : utf8_stream) : returns_on i (number.parse i) := by
  unfold number.parse
  dsimp only
  have hb := units_le_bytes i
  have hn := (next_units i).1
  split_ifs
  · exact returns_on_error i _ (by simp)
  · exact returns_on_mono i i.next _
      (number_parse_digits_returns _ _ i.next (by omega)) hn
  · exact number_parse_digits_returns _ _ i (by omega)

theorem enough_after_step (f : Nat) (extra : Nat) (i j : utf8_stream) (hx : extra ≤ 3)
    (hf : 2 * i.units + 1 ≤ f)
    (hj : j.units < i.units ∨ j.c = EOF_point) : enough 2 extra f j := by
  rcases hj with h | h
  · right; omega
  · left; exact ⟨h, by omega⟩

theorem loops_return : ∀ fuel : Nat,
    (∀ i : utf8_stream, enough 2 2 fuel i → returns_on i (value_loop fuel i))
      ∧ (∀ (a : List value) (j : utf8_stream), enough 2 3 fuel j →
          returns_on j (array_loop fuel a j))
      ∧ (∀ (o : List (List Nat × value)) (j : utf8_stream), enough 2 3 fuel j →
          returns_on j (object_loop fuel o j)) := by
  intro fuel
  induction fuel with
  | zero =>
    refine ⟨?_, ?_, ?_⟩
    · intro i h; rcases h with ⟨_, h⟩ | h <;> omega
    · intro a j h; rcases h with ⟨_, h⟩ | h <;> omega
    · intro o j h; rcases h with ⟨_, h⟩ | h <;> omega
  | succ f ih =>
    obtain ⟨ihv, iha, iho⟩ := ih
    refine ⟨?_, ?_, ?_⟩
    · intro i h
      rw [value_loop]
      by_cases hE : i.c = EOF_point
      · rw [if_pos hE]
        exact returns_on_error i _ (by simp)
      · rw [if_neg hE]
        have hf : 2 * i.units + 1 ≤ f := by
          rcases h with ⟨h, _⟩ | h
          · exact absurd h hE
          · omega
        have hns := nextskipspace_units i
        have hen : ∀ extra, extra ≤ 3 → enough 2 extra f i.nextskipspace :=
          fun extra hx => enough_after_step f extra i _ hx hf hns.2
        split_ifs
        · exact returns_on_mono i _ _ (iha [] _ (hen 3 (by omega))) hns.1
        · exact returns_on_mono i _ _ (iho [] _ (hen 3 (by omega))) hns.1
        · exact string_parse_returns i
        · exact boolean_parse_returns i
        · exact boolean_parse_returns i
        · exact null_parse_returns i
        · exact number_parse_returns i
        · exact returns_on_mono i _ _ (ihv _ (hen 2 (by omega))) hns.1
        · exact returns_on_error i _ (by simp)
    · intro a j h
      rw [array_loop]
      by_cases hc : j.c ≠ 0x5d ∧ j.c ≠ EOF_point
      · rw [if_pos hc]
        have hf : 2 * j.units + 2 ≤ f := by
          rcases h with ⟨h, _⟩ | h
          · exact absurd h hc.2
          · omega
        have hs := skipspace_units j
        have hv := ihv j.skipspace (Or.inr (by omega))
        cases hr : value_loop f j.skipspace with
        | error e =>
          rw [hr] at hv
          exact returns_on_pass j _ e hv
        | ok r =>
          obtain ⟨v, i1⟩ := r
          rw [hr] at hv
          have h1 := hv.2 v i1 rfl
          have h2 := nextskipspace_units i1
          have h3 := nextskipspace_units i1.nextskipspace
          dsimp only
          by_cases hsep : i1.nextskipspace.c ≠ 0x2c ∧ i1.nextskipspace.c ≠ 0x5d
          · rw [if_pos hsep]
            exact returns_on_error j _ (by simp)
          · rw [if_neg hsep]
            have hlt : i1.nextskipspace.units < i1.units := by
              rcases h2.2 with h4 | h4
              · exact h4
              · exfalso; apply hsep; rw [h4]; decide
            refine returns_on_mono j _ _ (iha _ _ (Or.inr ?_)) ?_ <;>
              split_ifs <;> omega
      · rw [if_neg hc]
        split_ifs
        · exact returns_on_error j _ (by simp)
        · exact returns_on_ok j j _ (Nat.le_refl _)
    · intro o j h
      rw [object_loop]
      by_cases hc : j.c ≠ 0x7d ∧ j.c ≠ EOF_point
      · rw [if_pos hc]
        have hf : 2 * j.units + 2 ≤ f := by
          rcases h with ⟨h, _⟩ | h
          · exact absurd h hc.2
          · omega
        by_cases hq : j.c ≠ 0x22
        · rw [if_pos hq]
          exact returns_on_error j _ (by simp)
        · rw [if_neg hq]
          have hk := string_parse_returns j
          cases hr : string.parse j with
          | error e =>
            rw [hr] at hk
            exact returns_on_pass j _ e hk
          | ok r =>
            obtain ⟨k, i1⟩ := r
            rw [hr] at hk
            have h1 := hk.2 k i1 rfl
            have h2 := (nextskipspace_units i1).1
            have h3 := (nextskipspace_units i1.nextskipspace).1
            dsimp only
            by_cases hcol : i1.nextskipspace.c ≠ 0x3a
            · rw [if_pos hcol]
              exact returns_on_error j _ (by simp)
            · rw [if_neg hcol]
              have hv := ihv i1.nextskipspace.next.skipspace (Or.inr (by
                have : i1.nextskipspace.next.skipspace = i1.nextskipspace.nextskipspace := rfl
                rw [this]; omega))
              cases hr2 : value_loop f i1.nextskipspace.next.skipspace with
              | error e =>
                rw [hr2] at hv
                exact returns_on_pass j _ e hv
              | ok r2 =>
                obtain ⟨v, i3⟩ := r2
                rw [hr2] at hv
                have h4 := hv.2 v i3 rfl
                have h5 := nextskipspace_units i3
                have h6 := nextskipspace_units i3.nextskipspace
                have e3 : i1.nextskipspace.next.skipspace = i1.nextskipspace.nextskipspace :=
                  rfl
                rw [e3] at h4
                cases k with
                | string ks =>
                  dsimp only
                  by_cases hsep : i3.nextskipspace.c ≠ 0x2c ∧ i3.nextskipspace.c ≠ 0x7d
                  · rw [if_pos hsep]
                    exact returns_on_error j _ (by simp)
                  · rw [if_neg hsep]
                    have hlt : i3.nextskipspace.units < i3.units := by
                      rcases h5.2 with h7 | h7
                      · exact h7
                      · exfalso; apply hsep; rw [h7]; decide
                    refine returns_on_mono j _ _ (iho _ _ (Or.inr ?_)) ?_ <;>
                      split_ifs <;> omega
                | object m => exact returns_on_error j _ (by simp)
                | number n => exact returns_on_error j _ (by simp)
                | array vs => exact returns_on_error j _ (by simp)
                | boolean b => exact returns_on_error j _ (by simp)
                | null => exact returns_on_error j _ (by simp)
      · rw [if_neg hc]
        split_ifs
        · exact returns_on_error j _ (by simp)
        · exact returns_on_ok j j _ (Nat.le_refl _)

theorem value_parse_returns (i : utf8_stream) : returns_on i (value.parse i) := by
  unfold value.parse parse_fuel
  have hb := units_le_bytes i
  have hs := skipspace_units i
  exact returns_on_mono i _ _ ((loops_return _).1 i.skipspace (Or.inr (by omega))) hs

theorem array_parse_returns (i : utf8_stream) : returns_on i (array.parse i) := by
  unfold array.parse parse_fuel
  have hb := units_le_bytes i
  have hs := (nextskipspace_units i).1
  exact returns_on_mono i _ _ ((loops_return _).2.1 [] i.nextskipspace (Or.inr (by omega))) hs

theorem object_parse_returns (i : utf8_stream) : returns_on i (object.parse i) := by
  unfold object.parse parse_fuel
  have hb := units_le_bytes i
  have hs := (nextskipspace_units i).1
  exact returns_on_mono i _ _ ((loops_return _).2.2 [] i.nextskipspace (Or.inr (by omega))) hs

/-- The fuel of the embedding suffices.  On every stream, whatever its byte
source holds, the loops of `value::parse`, `array::parse`, `object::parse`,
`string::parse` and `number::parse`, run for the number of turns the embedding
allows (twice the count of unread bytes plus eight for the dispatcher), never
use them up: every call of the embedding ends in an outcome of the source.
The loop of `skipspace()` ends on a code point that is not white space, and
every `next()` either consumes a unit of the remaining input or returns
`EOF_point`, on which every loop stops. -/
theorem parse_total (i : utf8_stream) :
    value.parse i ≠ .error .out_of_fuel
      ∧ array.parse i ≠ .error .out_of_fuel
      ∧ object.parse i ≠ .error .out_of_fuel
      ∧ string.parse i ≠ .error .out_of_fuel
      ∧ number.parse i ≠ .error .out_of_fuel
      ∧ isspace4 i.skipspace.c = false
      ∧ (i.next.units < i.units ∨ i.next.c = EOF_point) :=
  ⟨(value_parse_returns i).1, (array_parse_returns i).1, (object_parse_returns i).1,
    (string_parse_returns i).1, (number_parse_returns i).1, skipspace_stops i,
    (next_units i).2⟩

/-! ## The separator after the last element -/

theorem array_loop_last (fuel : Nat) (a : List value) (i i1 : utf8_stream) (v : value)
    (hc : i.c ≠ 0x5d ∧ i.c ≠ EOF_point)
    (hv : value_loop (fuel + 1) i.skipspace = .ok (v, i1)) :
    (i1.nextskipspace.c = 0x5d →
        array_loop (fuel + 2) a i = .ok (value.array (a ++ [v]), i1.nextskipspace))
      ∧ (i1.nextskipspace.c = 0x2c → i1.nextskipspace.nextskipspace.c = 0x5d →
        array_loop (fuel + 2) a i
          = .ok (value.array (a ++ [v]), i1.nextskipspace.nextskipspace)) := by
  constructor
  · intro h1
    rw [array_loop, if_pos hc, hv]
    simp only [h1]
    rw [array_loop]
    simp [h1]
  · intro h1 h2
    rw [array_loop, if_pos hc, hv]
    simp only [h1]
    rw [array_loop]
    simp [h2]

theorem object_loop_last (fuel : Nat) (o : List (List Nat × value)) (i i1 i3 : utf8_stream)
    (ks : List Nat) (v : value)
    (hc : i.c = 0x22)
    (hk : string.parse i = .ok (value.string ks, i1))
    (hcol : i1.nextskipspace.c = 0x3a)
    (hv : value_loop (fuel + 1) i1.nextskipspace.next.skipspace = .ok (v, i3)) :
    (i3.nextskipspace.c = 0x7d →
        object_loop (fuel + 2) o i = .ok (value.object (map_assign o ks v), i3.nextskipspace))
      ∧ (i3.nextskipspace.c = 0x2c → i3.nextskipspace.nextskipspace.c = 0x7d →
        object_loop (fuel + 2) o i
          = .ok (value.object (map_assign o ks v), i3.nextskipspace.nextskipspace)) := by
  have hc1 : i.c ≠ 0x7d ∧ i.c ≠ EOF_point := by rw [hc]; decide
  constructor
  · intro h1
    rw [object_loop, if_pos hc1]
    simp only [hc, ne_eq, not_true_eq_false, if_false, hk, hcol, hv, h1]
    rw [object_loop]
    simp [h1]
  · intro h1 h2
    rw [object_loop, if_pos hc1]
    simp only [hc, ne_eq, not_true_eq_false, if_false, hk, hcol, hv, h1]
    rw [object_loop]
    simp [h2]

/-! ## The error of `addu8` -/

theorem addu8_outside (s : List Nat) (c : Nat) (h : 0x10ffff < c) :
    addu8 s c = .error .runtime_error := by
  unfold addu8
  rw [if_pos (Or.inl h)]

theorem utf8_length (c : Nat) : 1 ≤ (utf8 c).length ∧ (utf8 c).length ≤ 4 := by
  unfold utf8
  split_ifs <;> simp

theorem addu8_cases (s : List Nat) (c : Nat) :
    addu8 s c = if 0x10ffff < c then .error .runtime_error else .ok (s ++ utf8 c) := by
  by_cases h : 0x10ffff < c
  · rw [if_pos h]; exact addu8_outside s c h
  · rw [if_neg h]; exact addu8_eq s c (by omega)
/-! ## The claims -/

/-- Claim C1 (fails on the code).  `[1e5]` and `1e5` are well-formed JSON
documents.  On the first `value::parse` raises the error that a comma or a
closing bracket was expected (line 0, column 2); on the second it returns the
integer 1 and leaves the stream on the first code point `1`, with `e` in the
lookahead slot and `5` unread, not on the last code point of the document.
`number::parse` looks for an exponent only in the branch taken after a dot. -/
theorem value_parse_1e5 :
    value.parse (utf8_stream.open ⟨[0x5b, 0x31, 0x65, 0x35, 0x5d], false⟩)
      = .error (.JSON_parse_error .expected_comma_or_bracket none 0 2)
    ∧ value.parse (utf8_stream.open ⟨[0x31, 0x65, 0x35], false⟩)
      = .ok (value.number (.l 1),
          { s := ⟨[0x35], false⟩, line := 0, col := 0, c := 0x31, pc := 0x65,
            new_line := false }) := by
  exact ⟨rfl, rfl⟩

/-- Claim C2 (fails on the code).  The object with the single key `a"b` (bytes
61 22 62) and the value null is written as `{ "a"b" : null }`: `operator<<` for
`object` puts the key between quotes without escaping it.  Reading that text
back, `value::parse` takes `a` for the key and raises the error that a colon
was expected, at line 0, column 5.  The same bytes held in a string value are
written `"a\"b"` by `operator<<` for `string`, and `value::parse` reads them
back. -/
theorem render_key_not_read_back :
    render id (value.object [([0x61, 0x22, 0x62], value.null)])
      = [0x7b, 0x20, 0x22, 0x61, 0x22, 0x62, 0x22, 0x20, 0x3a, 0x20, 0x6e, 0x75, 0x6c, 0x6c,
          0x20, 0x7d]
    ∧ value.parse
        (utf8_stream.open ⟨render id (value.object [([0x61, 0x22, 0x62], value.null)]), false⟩)
      = .error (.JSON_parse_error .expected_colon none 0 5)
    ∧ render id (value.string [0x61, 0x22, 0x62]) = [0x22, 0x61, 0x5c, 0x22, 0x62, 0x22]
    ∧ value.parse (utf8_stream.open ⟨render id (value.string [0x61, 0x22, 0x62]), false⟩)
      = .ok (value.string [0x61, 0x22, 0x62],
          { s := ⟨[], false⟩, line := 0, col := 5, c := 0x22, pc := NO_point,
            new_line := false }) := by
  exact ⟨rfl, rfl, rfl, rfl⟩

/-- Claim C3 (fails on the code).  The literal `1e5` contains an `e`, yet
`number::parse` consumes only the `1` and returns the number tagged integer
(`isdouble()` is false) with value 1: the exponent is looked for only in the
branch taken after a dot. -/
theorem number_parse_1e5 :
    number.parse (utf8_stream.open ⟨[0x31, 0x65, 0x35], false⟩)
      = .ok (value.number (.l 1),
          { s := ⟨[0x35], false⟩, line := 0, col := 0, c := 0x31, pc := 0x65,
            new_line := false })
      ∧ (number.l 1).isdouble = false := by
  exact ⟨rfl, rfl⟩

/-- Claim C4 (fails on the code).  On the literal quote, backslash, `u`, `0041`,
quote, `string::parse` does not return the string `A` on the closing quote:
`gethex` advances once more after the fourth digit, so the loop of
`string::parse` steps over the closing quote.  At the end of the input the call
then raises the error of `addu8`; followed by `x` and a quote it returns `Ax`
and stands on the second quote. -/
theorem string_parse_u0041 :
    string.parse (utf8_stream.open ⟨[0x22, 0x5c, 0x75, 0x30, 0x30, 0x34, 0x31, 0x22], false⟩)
      = .error .runtime_error
    ∧ string.parse
        (utf8_stream.open ⟨[0x22, 0x5c, 0x75, 0x30, 0x30, 0x34, 0x31, 0x22, 0x78, 0x22], false⟩)
      = .ok (value.string [0x41, 0x78],
          { s := ⟨[], false⟩, line := 0, col := 9, c := 0x22, pc := NO_point,
            new_line := false }) := by
  exact ⟨rfl, rfl⟩

/-- Claim C5 (fails on the code).  The body of the literal quote, U+001F, quote
holds the unescaped control code point 0x1F, yet `string::parse` raises no
error and returns the one-byte string 0x1F: the loop tests `c >= 0x1f`. -/
theorem string_parse_1f :
    string.parse (utf8_stream.open ⟨[0x22, 0x1f, 0x22], false⟩)
      = .ok (value.string [0x1f],
          { s := ⟨[], false⟩, line := 0, col := 2, c := 0x22, pc := NO_point,
            new_line := false }) := by
  rfl

/-- Claim C6.  A string literal whose body consists of ordinary code points
(Unicode code points at least 0x20, other than the quote and the backslash,
in UTF-8) and of the eight two-character escapes is decoded by `string::parse`
to the body with every escape replaced by its mapped character and every
other code point copied unchanged; the stream has advanced by exactly the code
points of the literal and stands on the closing quote, with `rest` unread. -/
theorem string_parse_plain_and_escapes (body : List item) (rest : List Nat) (i : utf8_stream)
    (hwf : ∀ x ∈ body, x.wf) (hq : i.c = 0x22) (hpc : i.pc = NO_point)
    (hs : i.s = ⟨body_text body ++ 0x22 :: rest, false⟩) :
    string.parse i
        = .ok (value.string (body_decoded body), utf8_stream.next^[body_count body + 1] i)
      ∧ (utf8_stream.next^[body_count body + 1] i).c = 0x22
      ∧ (utf8_stream.next^[body_count body + 1] i).pc = NO_point
      ∧ (utf8_stream.next^[body_count body + 1] i).s = ⟨rest, false⟩ :=
  string_parse_run body rest i hwf hq hpc hs

theorem string_parse_plain_and_escapes_witness :
    string.parse (utf8_stream.open ⟨[0x22, 0x61, 0x62, 0x5c, 0x6e, 0x63, 0x64, 0x65, 0x22], false⟩)
        = .ok (value.string [0x61, 0x62, 0x0a, 0x63, 0x64, 0x65],
            utf8_stream.next^[8]
              (utf8_stream.open ⟨[0x22, 0x61, 0x62, 0x5c, 0x6e, 0x63, 0x64, 0x65, 0x22], false⟩))
      ∧ (utf8_stream.next^[8]
          (utf8_stream.open ⟨[0x22, 0x61, 0x62, 0x5c, 0x6e, 0x63, 0x64, 0x65, 0x22], false⟩)).c
        = 0x22 := by
  have h := string_parse_plain_and_escapes
    [.cp 0x61, .cp 0x62, .esc 0x6e, .cp 0x63, .cp 0x64, .cp 0x65] []
    (utf8_stream.open ⟨[0x22, 0x61, 0x62, 0x5c, 0x6e, 0x63, 0x64, 0x65, 0x22], false⟩)
    (by simp [item.wf]) (by decide) (by decide) (by decide)
  exact ⟨h.1, h.2.1⟩

/-- Claim C7.  On a literal `-?(0|[1-9][0-9]*)` whose value fits in a `long`
and that is followed by the end of the input or by a code point that is
neither a digit nor the dot, `number::parse` returns the number tagged integer
(`isdouble()` is false) whose value is the decimal value of the literal; the
stream has advanced to the last digit of the literal, which is its current
code point, and the code point that follows sits in the lookahead slot. -/
theorem number_parse_integer (neg : Bool) (ds rest : List Nat) (i : utf8_stream)
    (hne : ds ≠ []) (hdig : ∀ d ∈ ds, d < 10) (hlead : ds.head? = some 0 → ds = [0])
    (hfit : LONG_MIN ≤ int_value neg ds ∧ int_value neg ds ≤ LONG_MAX)
    (hfollow : rest = [] ∨
      (isdigit (getcp ⟨rest, false⟩).1 = false ∧ (getcp ⟨rest, false⟩).1 ≠ 0x2e))
    (hpc : i.pc = NO_point) (hon : (i.c, i.s) = getcp ⟨int_text neg ds ++ rest, false⟩) :
    ∃ i1 : utf8_stream,
      number.parse i = .ok (value.number (.l (int_value neg ds)), i1)
        ∧ (number.l (int_value neg ds)).isdouble = false
        ∧ i1 = (utf8_stream.next^[(int_text neg ds).length - 1] i).peek
        ∧ i1.c = ds.getLast hne + 48
        ∧ (i1.pc, i1.s) = getcp ⟨rest, false⟩ :=
  number_parse_int_run neg ds rest i hne hdig hlead hfit hfollow hpc hon

theorem number_parse_integer_witness :
    (∃ i1 : utf8_stream,
      number.parse (utf8_stream.open ⟨[0x2d, 0x35, 0x35], false⟩)
          = .ok (value.number (.l (-55)), i1)
        ∧ i1.c = 0x35)
    ∧ (∃ i1 : utf8_stream,
      number.parse (utf8_stream.open ⟨[0x30], false⟩) = .ok (value.number (.l 0), i1)
        ∧ i1.c = 0x30) := by
  obtain ⟨i1, h1, _, _, h4, _⟩ := number_parse_integer true [5, 5] []
    (utf8_stream.open ⟨[0x2d, 0x35, 0x35], false⟩) (by decide) (by decide) (by decide)
    (by decide) (Or.inl rfl) (by decide) (by decide)
  obtain ⟨i2, k1, _, _, k4, _⟩ := number_parse_integer false [0] []
    (utf8_stream.open ⟨[0x30], false⟩) (by decide) (by decide) (by decide)
    (by decide) (Or.inl rfl) (by decide) (by decide)
  exact ⟨⟨i1, h1, h4⟩, ⟨i2, k1, k4⟩⟩

/-- Claim C8 (fails on the code).  The object text with the single member
`a` : `1e5` is well formed, yet `object::parse` raises the error that a comma
or a closing brace was expected, at line 0, column 6 (the `e`): the member
value is read by `number::parse`, which stops before the exponent. -/
theorem object_parse_1e5 :
    object.parse
        (utf8_stream.open ⟨[0x7b, 0x22, 0x61, 0x22, 0x3a, 0x31, 0x65, 0x35, 0x7d], false⟩)
      = .error (.JSON_parse_error .expected_comma_or_brace none 0 6) := by
  rfl

/-- Claim C9 (fails on the code).  The array text with the single element
`1e5` is well formed, yet `array::parse` raises the error that a comma or a
closing bracket was expected, at line 0, column 2 (the `e`): the element is
read by `number::parse`, which stops before the exponent. -/
theorem array_parse_1e5 :
    array.parse (utf8_stream.open ⟨[0x5b, 0x31, 0x65, 0x35, 0x5d], false⟩)
      = .error (.JSON_parse_error .expected_comma_or_bracket none 0 2) := by
  rfl

/-- Claim C10 (fails on the code).  In the object text `{"\u0041":}` the colon
of the member is immediately followed by the closing brace, which cannot begin
a value, yet `object::parse` raises no parse error and reports no position:
after the fourth hexadecimal digit `gethex` advances once more, the loop of
`string::parse` steps over the closing quote of the key and runs to the end
of the input, and `addu8` raises its `std::runtime_error`.  In the object text
`{"a":1e5,"b":}` the colon of the member `b` stands at column 12 and the brace
after it at column 13, yet the error raised reports line 0, column 6:
`number::parse` stops before the exponent of the first member. -/
theorem object_member_without_value_not_reported :
    object.parse
        (utf8_stream.open
          ⟨[0x7b, 0x22, 0x5c, 0x75, 0x30, 0x30, 0x34, 0x31, 0x22, 0x3a, 0x7d], false⟩)
      = .error .runtime_error
    ∧ object.parse
        (utf8_stream.open
          ⟨[0x7b, 0x22, 0x61, 0x22, 0x3a, 0x31, 0x65, 0x35, 0x2c, 0x22, 0x62, 0x22, 0x3a, 0x7d],
            false⟩)
      = .error (.JSON_parse_error .expected_comma_or_brace none 0 6) := by
  exact ⟨rfl, rfl⟩

/-- Claim C11 (fails on the code).  The input quote, `a`, `b`, `c` ends inside
the string literal, yet `string::parse` does not raise the unterminated-string
parse error: after `c` the byte source is drained but has not yet reported end
of file, `getcp` assembles the code point 0x1FFFFF from four failed reads, the
loop takes it for a character of the body and `addu8` raises its
`std::runtime_error`, which carries no position.  The same happens when the
literal opens on line 1. -/
theorem string_parse_unterminated_abc :
    string.parse (utf8_stream.open ⟨[0x22, 0x61, 0x62, 0x63], false⟩) = .error .runtime_error
    ∧ (utf8_stream.open ⟨[0x0a, 0x22, 0x61, 0x62, 0x63], false⟩).next.c = 0x22
    ∧ string.parse (utf8_stream.open ⟨[0x0a, 0x22, 0x61, 0x62, 0x63], false⟩).next
        = .error .runtime_error := by
  exact ⟨rfl, rfl, rfl⟩

/-- Claim C12 (as stated, false).  A stream stands on an opening bracket at line
0, column 0 and its byte source reports end of file: `array::parse` raises the
unterminated-array error with line 0, column 1, which is not the position of
the bracket.  Likewise `object::parse` entered on a brace at line 3, column 7
reports line 3, column 8. -/
theorem unterminated_array_not_at_start :
    array.parse
        { s := ⟨[], true⟩, line := 0, col := 0, c := 0x5b, pc := NO_point, new_line := false }
      = .error (.JSON_parse_error .unterminated_array none 0 1)
    ∧ object.parse
        { s := ⟨[], true⟩, line := 3, col := 7, c := 0x7b, pc := NO_point, new_line := false }
      = .error (.JSON_parse_error .unterminated_object none 3 8) := by
  exact ⟨rfl, rfl⟩

/-- Claim C12 (amended).  Whenever the loop of `array::parse` or `object::parse`
finds `EOF_point` as the current code point, it raises the unterminated-array
or unterminated-object error with the line and column the stream has at that
moment, the position where the end of the input was detected.  When the end of
the input directly follows the opening bracket or brace on which the function
is entered, the error carries the position one advance after the bracket,
which is never the position of the bracket itself. -/
theorem unterminated_reports_detection (i : utf8_stream) (h : i.next.c = EOF_point) :
    array.parse i = .error (.JSON_parse_error .unterminated_array none i.next.line i.next.col)
      ∧ object.parse i
          = .error (.JSON_parse_error .unterminated_object none i.next.line i.next.col)
      ∧ (i.next.line, i.next.col) ≠ (i.line, i.col)
      ∧ (∀ (fuel : Nat) (a : List value) (j : utf8_stream), j.c = EOF_point →
          array_loop (fuel + 1) a j
            = .error (.JSON_parse_error .unterminated_array none j.line j.col))
      ∧ (∀ (fuel : Nat) (o : List (List Nat × value)) (j : utf8_stream), j.c = EOF_point →
          object_loop (fuel + 1) o j
            = .error (.JSON_parse_error .unterminated_object none j.line j.col)) := by
  refine ⟨?_, ?_, next_position_ne i, array_loop_eof, object_loop_eof⟩
  · unfold array.parse parse_fuel
    rw [skipspace_eof _ h]
    exact array_loop_eof _ _ _ h
  · unfold object.parse parse_fuel
    rw [skipspace_eof _ h]
    exact object_loop_eof _ _ _ h

theorem unterminated_reports_detection_witness :
    array.parse
        { s := ⟨[0x31], true⟩, line := 2, col := 5, c := 0x5b, pc := NO_point, new_line := false }
      = .error (.JSON_parse_error .unterminated_array none 2 6) :=
  (unterminated_reports_detection
    { s := ⟨[0x31], true⟩, line := 2, col := 5, c := 0x5b, pc := NO_point, new_line := false }
    (by decide)).1

/-- Claim C13 (fails on the code).  In the inputs `1e` and `1E+` an exponent
marker follows the integer part and no digit follows the marker, yet
`number::parse` raises no error: it returns the integer 1 and leaves the
marker unread, since the exponent is looked for only in the branch taken after
a dot. -/
theorem number_parse_exponent_no_digit :
    number.parse (utf8_stream.open ⟨[0x31, 0x65], false⟩)
      = .ok (value.number (.l 1),
          { s := ⟨[], false⟩, line := 0, col := 0, c := 0x31, pc := 0x65,
            new_line := false })
    ∧ number.parse (utf8_stream.open ⟨[0x31, 0x45, 0x2b], false⟩)
      = .ok (value.number (.l 1),
          { s := ⟨[0x2b], false⟩, line := 0, col := 0, c := 0x31, pc := 0x45,
            new_line := false }) := by
  exact ⟨rfl, rfl⟩

/-- Claim C14.  Open the stream on any byte source and make any sequence of
`next()` and `peek()` calls, `n` of them `next()`.  The current code point is
then the last of the first `n + 1` code points of the source, `line()` is the
number of line breaks that lie entirely before it (a line feed, a carriage
return not followed by a line feed, and a carriage return followed by a line
feed count once each), and `col()` is the number of code points between the
end of the last such break, or the start of the input, and the current code
point.  On the input `a`, `b`, LF, `c`, `d`, after four `next()` calls the
stream stands on `d` at line 1, column 1. -/
theorem line_col_tracking (si : istream) (cs : List call) :
    (code_points (advances cs) si).getLast? = some (run_calls cs (utf8_stream.open si)).2.c
      ∧ (run_calls cs (utf8_stream.open si)).2.line = line_of (code_points (advances cs) si)
      ∧ (run_calls cs (utf8_stream.open si)).2.col = col_of (code_points (advances cs) si)
      ∧ code_points 4 ⟨[0x61, 0x62, 0x0a, 0x63, 0x64], false⟩ = [0x61, 0x62, 0x0a, 0x63, 0x64]
      ∧ (utf8_stream.next^[4] (utf8_stream.open ⟨[0x61, 0x62, 0x0a, 0x63, 0x64], false⟩)).c
          = 0x64
      ∧ (utf8_stream.next^[4] (utf8_stream.open ⟨[0x61, 0x62, 0x0a, 0x63, 0x64], false⟩)).line
          = 1
      ∧ (utf8_stream.next^[4] (utf8_stream.open ⟨[0x61, 0x62, 0x0a, 0x63, 0x64], false⟩)).col
          = 1 := by
  refine ⟨?_, ?_, ?_, by decide, by decide, by decide, by decide⟩
  all_goals
    obtain ⟨_, _, _, l, h4, h5, h6⟩ := next_iterate_position si (advances cs)
    have hr := (run_calls_trace cs (utf8_stream.open si) (Nat.le_refl _)).2
    have hp := peek_fields (utf8_stream.next^[advances cs] (utf8_stream.open si))
    rcases hr with hr | hr
  · rw [hr, h4]; simp
  · rw [hr, h4, hp.1]; simp
  · rw [hr, h5]
  · rw [hr, hp.2.1, h5]
  · rw [hr, h6]
  · rw [hr, hp.2.2.1, h6]

/-- Claim C15.  In every state of the stream whose lookahead slot is empty or
holds a decoded code point (every state reached from the constructor by
`next()` and `peek()` is such a state, as the last two parts say), `peek()`
leaves the current code point, the line and the column unchanged; a second
`peek()` leaves the whole stream, byte source included, as the first one left
it, so it returns the same code point and reads nothing; the `next()` that
follows returns the peeked code point; and the code points returned by the
`next()` calls of any sequence of calls are those returned by the same number
of `next()` calls made without any `peek()`. -/
theorem peek_properties (i : utf8_stream) (h : i.pc ≤ NO_point) :
    (i.peek.c = i.c ∧ i.peek.line = i.line ∧ i.peek.col = i.col)
      ∧ i.peek.peek = i.peek
      ∧ i.peek.next.c = i.peek.pc
      ∧ (∀ cs : List call,
          (run_calls cs i).1 = (run_calls (List.replicate (advances cs) call.next) i).1)
      ∧ i.next.pc ≤ NO_point ∧ i.peek.pc ≤ NO_point := by
  have hp := peek_fields i
  refine ⟨⟨hp.1, hp.2.1, hp.2.2.1⟩, peek_idem i, peek_next_c i, ?_, ?_, ?_⟩
  · intro cs
    rw [(run_calls_trace cs i h).1, (run_calls_trace _ i h).1]
    simp [advances]
  · rw [next_pc i]
  · have := peek_pc_le i
    unfold EOF_point at this; unfold NO_point; omega

theorem peek_properties_witness :
    (utf8_stream.open ⟨[0x61, 0xc3, 0xa9, 0x62], false⟩).pc ≤ NO_point
      ∧ (utf8_stream.open ⟨[0x61, 0xc3, 0xa9, 0x62], false⟩).peek.next.c = 0xe9
      ∧ (run_calls [call.peek, call.next, call.peek, call.peek, call.next]
            (utf8_stream.open ⟨[0x61, 0xc3, 0xa9, 0x62], false⟩)).1
          = (run_calls [call.next, call.next]
              (utf8_stream.open ⟨[0x61, 0xc3, 0xa9, 0x62], false⟩)).1 :=
  ⟨by decide,
    (peek_properties (utf8_stream.open ⟨[0x61, 0xc3, 0xa9, 0x62], false⟩) (by decide)).2.2.1,
    (peek_properties (utf8_stream.open ⟨[0x61, 0xc3, 0xa9, 0x62], false⟩) (by decide)).2.2.2.1
      [call.peek, call.next, call.peek, call.peek, call.next]⟩

/-- Claim C16.  For every code point `c` up to 0x10FFFF, `addu8` appends to the
string a block of bytes (one byte when `c` is below 0x80, two up to 0x7FF,
three up to 0xFFFF, four above), and `getcp` on a byte source that begins with
this block returns `c` and leaves the source right after the block. -/
theorem addu8_getcp_round_trip (c : Nat) (s rest : List Nat) (h : c ≤ 0x10ffff) :
    ∃ bs : List Nat, addu8 s c = .ok (s ++ bs)
      ∧ bs.length = (if c < 0x80 then 1 else if c ≤ 0x7ff then 2 else if c ≤ 0xffff then 3 else 4)
      ∧ getcp ⟨bs ++ rest, false⟩ = (c, ⟨rest, false⟩) := by
  refine ⟨utf8 c, addu8_eq s c h, ?_, getcp_utf8 c rest h⟩
  unfold utf8
  split_ifs <;> first | rfl | omega

theorem addu8_getcp_round_trip_witness :
    ∃ bs : List Nat, addu8 [0x61] 0x20ac = .ok ([0x61] ++ bs)
      ∧ bs.length = (if 0x20ac < 0x80 then 1 else if 0x20ac ≤ 0x7ff then 2
          else if 0x20ac ≤ 0xffff then 3 else 4)
      ∧ getcp ⟨bs ++ [0x62], false⟩ = (0x20ac, ⟨[0x62], false⟩) :=
  addu8_getcp_round_trip 0x20ac [0x61] [0x62] (by decide)

/-- Claim C17.  Whatever the lead byte `b` and the bytes `rest` after it, the
code point `getcp` decodes from a source that still holds `b :: rest` is
strictly below `EOF_point` = 0x200000, hence different from `EOF_point` and
from `NO_point`; this covers sources that end in the middle of a multi-byte
sequence. -/
theorem getcp_below_sentinels (b : Nat) (rest : List Nat) :
    (getcp ⟨b :: rest, false⟩).1 < EOF_point
      ∧ EOF_point = 0x200000
      ∧ (getcp ⟨b :: rest, false⟩).1 ≠ EOF_point
      ∧ (getcp ⟨b :: rest, false⟩).1 ≠ NO_point := by
  have h := getcp_live_lt (b :: rest)
  have e : EOF_point = 0x200000 := rfl
  have n : NO_point = 0x200001 := rfl
  refine ⟨h, e, ?_, ?_⟩ <;> omega

/-- Claim C18.  Let `s` be the UTF-8 encoding of code points each of which is at
least 0x20 or one of U+0008, U+0009, U+000A, U+000C, U+000D.  On a stream that
stands on the first code point of the text `operator<<` writes for the JSON
string `s`, followed by any bytes `rest`, `string::parse` succeeds, returns a
string equal to `s`, and returns on the closing quote of the literal: the
current code point is the quote, nothing is buffered and the unread input is
`rest`. -/
theorem string_render_parse (cps rest : List Nat) (i : utf8_stream)
    (hc : ∀ c ∈ cps, string_cp_ok c)
    (hOn : On i (render_string (cps.flatMap utf8) ++ rest)) :
    ∃ j : utf8_stream, string.parse i = .ok (value.string (cps.flatMap utf8), j)
      ∧ j.c = 0x22 ∧ j.pc = NO_point ∧ j.s = ⟨rest, false⟩ := by
  rw [render_string_utf8] at hOn
  simp only [List.cons_append, List.append_assoc, List.nil_append] at hOn
  have c0 := (On_cons i _ _ (by decide) hOn).1
  have hs := On_cons_s i _ _ (by decide) hOn
  have hwf : ∀ x ∈ cps.map to_item, x.wf := by
    intro x hx
    simp only [List.mem_map] at hx
    obtain ⟨c, hcm, rfl⟩ := hx
    exact to_item_wf c (hc c hcm)
  obtain ⟨k1, k2, k3, k4⟩ := string_parse_run (cps.map to_item) rest i hwf c0 hOn.1 hs
  rw [body_decoded_to_item] at k1
  exact ⟨_, k1, k2, k3, k4⟩

theorem string_render_parse_witness :
    (∀ c ∈ [0x61, 0x0a, 0x22, 0xe9], string_cp_ok c)
    ∧ render_string ([0x61, 0x0a, 0x22, 0xe9].flatMap utf8) ++ [0x2c]
        = [0x22, 0x61, 0x5c, 0x6e, 0x5c, 0x22, 0xc3, 0xa9, 0x22, 0x2c]
    ∧ ∃ j : utf8_stream,
        string.parse (utf8_stream.open
            ⟨render_string ([0x61, 0x0a, 0x22, 0xe9].flatMap utf8) ++ [0x2c], false⟩)
          = .ok (value.string ([0x61, 0x0a, 0x22, 0xe9].flatMap utf8), j)
        ∧ j.c = 0x22 ∧ j.pc = NO_point ∧ j.s = ⟨[0x2c], false⟩ :=
  ⟨by simp [string_cp_ok], by decide,
    string_render_parse [0x61, 0x0a, 0x22, 0xe9] [0x2c] _ (by simp [string_cp_ok]) (On_open _)⟩

/-- Claim C19 (fails on the code).  On the input quote, backslash, `q`, quote,
`value::parse` neither returns a value nor raises an error nor returns nothing
at the end of the input: `\q` is no escape, and the statement that is to throw
the parse error first calls `u8str`, which returns a reference to its local
string, destroyed on return; handing it to `JSON_error_throw` is undefined
behaviour, so nothing is known about how, or whether, the call ends.  The same
happens when the literal is the element of an array. -/
theorem value_parse_illegal_escape :
    value.parse (utf8_stream.open ⟨[0x22, 0x5c, 0x71, 0x22], false⟩)
      = .error .undefined_behaviour
    ∧ value.parse (utf8_stream.open ⟨[0x5b, 0x22, 0x5c, 0x71, 0x22, 0x5d], false⟩)
      = .error .undefined_behaviour := by
  exact ⟨rfl, rfl⟩

/-- Claim C20 (fails on the code).  The value `1e5` is well formed, yet
`array::parse` raises an error on the array text with the one element `1e5`
and a trailing comma: a comma or a closing bracket was expected at line 0,
column 2 (the `e`), because `number::parse` stops before the exponent.
`object::parse` raises the corresponding error at line 0, column 6 on the
object text with the member `a` of value `1e5` and a trailing comma. -/
theorem array_parse_trailing_comma_1e5 :
    array.parse (utf8_stream.open ⟨[0x5b, 0x31, 0x65, 0x35, 0x2c, 0x5d], false⟩)
      = .error (.JSON_parse_error .expected_comma_or_bracket none 0 2)
    ∧ object.parse
        (utf8_stream.open
          ⟨[0x7b, 0x22, 0x61, 0x22, 0x3a, 0x31, 0x65, 0x35, 0x2c, 0x7d], false⟩)
      = .error (.JSON_parse_error .expected_comma_or_brace none 0 6) := by
  exact ⟨rfl, rfl⟩

/-- Claim C21.  For every string `s` and every code point `c`, `addu8` raises
its error "Code point outside Unicode" exactly when `c` is greater than
0x10FFFF, and it raises no other error.  For every `c` from 0 to 0x10FFFF it
returns the string `s` followed by the UTF-8 bytes of `c`, between one and
four of them, so the bytes already in the string are unchanged.  This
includes the surrogates: the first and the last of them, 0xD800 and 0xDFFF,
are appended as three bytes each, while 0x110000 is rejected. -/
theorem addu8_error_iff (s : List Nat) (c : Nat) :
    (addu8 s c = .error .runtime_error ↔ 0x10ffff < c)
      ∧ ((∃ e : exn, addu8 s c = .error e) ↔ 0x10ffff < c)
      ∧ addu8 s c = (if 0x10ffff < c then .error .runtime_error else .ok (s ++ utf8 c))
      ∧ 1 ≤ (utf8 c).length ∧ (utf8 c).length ≤ 4
      ∧ addu8 [0x61] 0xd800 = .ok [0x61, 0xed, 0xa0, 0x80]
      ∧ addu8 [0x61] 0xdfff = .ok [0x61, 0xed, 0xbf, 0xbf]
      ∧ addu8 [0x61] 0x10ffff = .ok [0x61, 0xf4, 0x8f, 0xbf, 0xbf]
      ∧ addu8 [0x61] 0x110000 = .error .runtime_error := by
  have hc := addu8_cases s c
  have hl := utf8_length c
  refine ⟨?_, ?_, hc, hl.1, hl.2, rfl, rfl, rfl, rfl⟩
  · by_cases h : 0x10ffff < c
    · simp [hc, h]
    · simp [hc, h]
  · by_cases h : 0x10ffff < c
    · simp [hc, h]
    · simp [hc, h]
end json
